import Mathlib

/-!
A stack-machine calculator: lexer, parser, code generator, assembler, VM.

Shallow embedding of `algorithm.cpp` (version 2, "A Simple, stack-based virtual
machine") and proofs of properties of its pipeline.

Modelling conventions.

* `int` values are mathematical integers kept in the 32-bit two's complement
  range by `wrapInt`, applied to the result of every arithmetic operation.
  Signed overflow of `+`, `-`, `*` has no defined result in C++; the model
  takes the wrap-around of the 32-bit targets. A division or remainder by
  zero, or of `INT_MIN` by `-1`, ends the run (`undefinedDivision`).
* A `std::string` is the sequence of its `char`s; here a `String`, one `Char`
  per `char`. `std::isdigit` is taken to hold of `0`..`9` only.
* Container positions and counters (`index`, `args`) are natural numbers.
* Where the source has no defined result, the model stops with a `Fault`:
  reading `stream[index]` at or past the end, a division without a defined
  result, `std::stoi` throwing, `top`/`pop` on an empty stack, `front` of an
  empty list. Only the exception of `std::stoi` is raised by the source
  itself; the other faults are no signals, they mark undefined behaviour.
* The global `machineCode` is passed to and returned from the functions that
  use it.
* `Node::parent` is written by `parse` and read by nothing; it is left out.
-/

namespace Interp

/-! ## Data model -/

/-- Opcodes of the machine (`enum class OpKind`). -/
inductive OpKind
  | OP_ADD | OP_SUB | OP_MUL | OP_DIV | OP_MOD | OP_PUSH | OP_POP
deriving DecidableEq, Repr

/-- Kinds of tree nodes (`enum class NodeKind`). -/
inductive NodeKind
  | NODE_OP | NODE_NUM
deriving DecidableEq, Repr

/-- One instruction (`struct MachineOp`). -/
structure MachineOp where
  kind : OpKind
  opData : Int
deriving DecidableEq, Repr

/-- Kinds of tokens (`enum class TokenKind`). -/
inductive TokenKind
  | KIND_OP | KIND_NUM | KIND_OPEN | KIND_CLOSE
deriving DecidableEq, Repr

/-- A token (`using token = std::tuple<TokenKind, int>`). -/
abbrev token := TokenKind × Int

/-- A tree node (`struct Node`), without the `parent` back pointer. -/
inductive Node where
  | mk (kind : NodeKind) (numOrOp : Int) (childs : List Node)
deriving Repr

/-- The ways in which a run of the program has no defined result. None but
`invalidOperand` is a signal of the source: `malformedExpression` marks the
unchecked read of `stream[index]` at or past the end, `undefinedDivision` a
`/=` or `%=` by zero or of `INT_MIN` by `-1`, `stackUnderflow` a `top` or
`pop` of the empty stack, `emptyOperands` the `front` of an empty list; in
all of them the behaviour of the source is undefined. `invalidOperand` is an
exception thrown by `std::stoi`, which nothing catches. -/
inductive Fault
  | malformedExpression
  | undefinedDivision
  | invalidOperand
  | stackUnderflow
  | emptyOperands
deriving DecidableEq, Repr

/-! ## `int` arithmetic -/

/-- Smallest `int`. -/
def INT_MIN : Int := -2147483648

/-- Largest `int`. -/
def INT_MAX : Int := 2147483647

/-- Reduction of an integer to the 32-bit two's complement range. -/
def wrapInt (x : Int) : Int := (x + 2147483648) % 4294967296 - 2147483648

/-- The value fits in `int`. -/
def InIntRange (x : Int) : Prop := INT_MIN ≤ x ∧ x ≤ INT_MAX

instance (x : Int) : Decidable (InIntRange x) := by
  unfold InIntRange; infer_instance

/-! ## The five folds -/

/-- `summary`: `result = elems.front()`, then `result += i` over the rest. -/
def summary (elems : List Int) : Except Fault Int :=
  match elems with
  | [] => .error .emptyOperands
  | front :: rest => .ok (rest.foldl (fun result i => wrapInt (result + i)) front)

/-- `subtractSummary`: `result -= i` over the rest. -/
def subtractSummary (elems : List Int) : Except Fault Int :=
  match elems with
  | [] => .error .emptyOperands
  | front :: rest => .ok (rest.foldl (fun result i => wrapInt (result - i)) front)

/-- `multifly`: `result *= i` over the rest. -/
def multifly (elems : List Int) : Except Fault Int :=
  match elems with
  | [] => .error .emptyOperands
  | front :: rest => .ok (rest.foldl (fun result i => wrapInt (result * i)) front)

/-- The operations `a / b` and `a % b` on `int` have a defined result: `b` is
not zero and the quotient is an `int`, that is, not `INT_MIN` by `-1`. -/
def divisionDefined (a b : Int) : Bool :=
  decide (b ≠ 0) && !(decide (a = INT_MIN) && decide (b = -1))

/-- One `result /= i`. The source does not test `i`: where the division has
no defined result the run ends, and the model stops with
`undefinedDivision`. -/
def divStep (result i : Int) : Except Fault Int :=
  if divisionDefined result i = true then .ok (wrapInt (Int.tdiv result i))
  else .error .undefinedDivision

/-- One `result %= i`, undefined where `result /= i` is. -/
def modStep (result i : Int) : Except Fault Int :=
  if divisionDefined result i = true then .ok (wrapInt (Int.tmod result i))
  else .error .undefinedDivision

/-- The `for_each` of `divide` and `mod`: the steps in order, stopping at the
first fault. -/
def foldSteps (step : Int → Int → Except Fault Int) : Int → List Int → Except Fault Int
  | result, [] => .ok result
  | result, i :: rest =>
    match step result i with
    | .error e => .error e
    | .ok r => foldSteps step r rest

/-- `divide`: `result /= i` over the rest. -/
def divide (elems : List Int) : Except Fault Int :=
  match elems with
  | [] => .error .emptyOperands
  | front :: rest => foldSteps divStep front rest

/-- `mod`: `result %= i` over the rest. -/
def mod (elems : List Int) : Except Fault Int :=
  match elems with
  | [] => .error .emptyOperands
  | front :: rest => foldSteps modStep front rest

/-! ## The machine -/

/-- The machine (`class Machine`): its stack, top first. -/
structure Machine where
  machineStack : List Int
deriving DecidableEq, Repr

/-- The loop of `handleStack`: `popCount` times, move the top of the stack to
the front of `operands`. -/
def popOperands : Nat → List Int → List Int → Except Fault (List Int × List Int)
  | 0, machineStack, operands => .ok (machineStack, operands)
  | _ + 1, [], _ => .error .stackUnderflow
  | n + 1, top :: machineStack, operands => popOperands n machineStack (top :: operands)

/-- The lambda `handleStack`: pop, then push `operate(operands)`. The state is
the pair of the machine stack and the list `operands`. -/
def handleStack (popCount : Int) (operate : List Int → Except Fault Int)
    (machineStack operands : List Int) : Except Fault (List Int × List Int) :=
  match popOperands popCount.toNat machineStack operands with
  | .error e => .error e
  | .ok (stack, ops) =>
    match operate ops with
    | .error e => .error e
    | .ok r => .ok (r :: stack, ops)

/-- The `switch` of `eval`. -/
def dispatch (op : MachineOp) (machineStack operands : List Int) :
    Except Fault (List Int × List Int) :=
  match op.kind with
  | .OP_PUSH => .ok (op.opData :: machineStack, operands)
  | .OP_ADD => handleStack op.opData summary machineStack operands
  | .OP_SUB => handleStack op.opData subtractSummary machineStack operands
  | .OP_MUL => handleStack op.opData multifly machineStack operands
  | .OP_DIV => handleStack op.opData divide machineStack operands
  | .OP_MOD => handleStack op.opData mod machineStack operands
  | .OP_POP => .ok (machineStack, operands)

/-- The body of the `for_each` of `eval` for one instruction: the `switch`,
then `operands.clear()`. -/
def evalStep (op : MachineOp) (machineStack operands : List Int) :
    Except Fault (List Int × List Int) :=
  match dispatch op machineStack operands with
  | .error e => .error e
  | .ok (stack, _) => .ok (stack, [])

/-- The `for_each` of `eval`. -/
def evalLoop : List MachineOp → List Int → List Int → Except Fault (List Int × List Int)
  | [], machineStack, operands => .ok (machineStack, operands)
  | op :: code, machineStack, operands =>
    match evalStep op machineStack operands with
    | .error e => .error e
    | .ok (stack, ops) => evalLoop code stack ops

/-- `Machine::eval`: run the code, return `machineStack.top()` together with
the machine as the call leaves it. -/
def Machine.eval (m : Machine) (code : List MachineOp) : Except Fault (Int × Machine) :=
  match evalLoop code m.machineStack [] with
  | .error e => .error e
  | .ok ([], _) => .error .stackUnderflow
  | .ok (top :: stack, _) => .ok (top, ⟨top :: stack⟩)

/-! ## Lexer -/

/-- `is_op`. -/
def is_op (c : Char) : Bool :=
  c == '+' || c == '-' || c == '*' || c == '/' || c == '%'

/-- The lambda of `lex`: the tokens one `char` adds to `result`. -/
def lexChar (c : Char) : List token :=
  if c = ' ' then []
  else if c.isDigit then [(TokenKind.KIND_NUM, (c.toNat : Int) - ('0'.toNat : Int))]
  else if is_op c then [(TokenKind.KIND_OP, (c.toNat : Int))]
  else if c = '(' then [(TokenKind.KIND_OPEN, (c.toNat : Int))]
  else [(TokenKind.KIND_CLOSE, (c.toNat : Int))]

/-- `lex`. -/
def lex (stream : String) : List token :=
  stream.toList.foldl (fun result c => result ++ lexChar c) []

/-! ## Parser -/

mutual
/-- `parse` with a bound on the depth of calls; `none` when the bound is
reached. The result is the node and the value of `index` on return. The
source reads `stream[index]` without a check: a read at or past the end has no
defined result, and the model stops there with `malformedExpression` (see
`parseUnchecked` for what the read returns when memory lies behind). -/
def parseFuel : Nat → List token → Nat → Option (Except Fault (Node × Nat))
  | 0, _, _ => none
  | fuel + 1, stream, index =>
    match stream[index]? with
    | none => some (.error .malformedExpression)
    | some (.KIND_NUM, v) => some (.ok (Node.mk .NODE_NUM v [], index + 1))
    | some (.KIND_OP, v) => parseChilds fuel stream (index + 1) v []
    | some _ => parseFuel fuel stream (index + 1)
/-- The `while` loop of `parse`, collecting the children of operator `op`;
its test reads `stream[index]` unchecked as well. -/
def parseChilds : Nat → List token → Nat → Int → List Node →
    Option (Except Fault (Node × Nat))
  | 0, _, _, _, _ => none
  | fuel + 1, stream, index, op, childs =>
    match stream[index]? with
    | none => some (.error .malformedExpression)
    | some (.KIND_CLOSE, _) => some (.ok (Node.mk .NODE_OP op childs, index + 1))
    | some _ =>
      match parseFuel fuel stream index with
      | none => none
      | some (.error e) => some (.error e)
      | some (.ok (child, index1)) => parseChilds fuel stream index1 op (childs ++ [child])
end

/-- Depth bound that `parse` never reaches from `index`. -/
def parseBound (stream : List token) (index : Nat) : Nat :=
  2 * (stream.length - index) + 1

/-- `parse`. -/
def parse (stream : List token) (index : Nat) : Except Fault (Node × Nat) :=
  match parseFuel (parseBound stream index) stream index with
  | some r => r
  | none => .error .malformedExpression

/-! ## Code generator -/

/-- The map `opmap` of `gen`; `operator[]` on a missing key gives the empty
string. -/
def opmap (c : Int) : String :=
  if c = ('+'.toNat : Int) then "ADD"
  else if c = ('-'.toNat : Int) then "SUB"
  else if c = ('*'.toNat : Int) then "MUL"
  else if c = ('/'.toNat : Int) then "DIV"
  else if c = ('%'.toNat : Int) then "MOD"
  else ""

/-- `std::to_string` on `int`: decimal digits, with a minus sign when
negative. -/
def to_string (i : Int) : String := toString i

mutual
/-- `gen`, with `machineCode` passed in and returned. -/
def gen : Node → List String → List String
  | .mk kind numOrOp childs, machineCode =>
    if kind = NodeKind.NODE_OP then
      let r := genChilds childs machineCode 0
      r.1 ++ [opmap numOrOp ++ " " ++ to_string r.2]
    else
      machineCode ++ ["PUSH " ++ to_string numOrOp]
/-- The `for_each` of `gen` over `childs`: `gen(op); args++`. -/
def genChilds : List Node → List String → Nat → List String × Nat
  | [], machineCode, args => (machineCode, args)
  | child :: rest, machineCode, args => genChilds rest (gen child machineCode) (args + 1)
end

/-! ## Assembler -/

/-- Value of a run of decimal digits. -/
def digitsValue (digits : List Char) : Nat :=
  digits.foldl (fun acc c => 10 * acc + (c.toNat - '0'.toNat)) 0

/-- `std::stoi` on a string that starts with a digit or is empty, which is
all `compile` passes: no digit throws `std::invalid_argument`, a value above
`INT_MAX` throws `std::out_of_range`; otherwise the value of the leading
digits. -/
def stoi (s : List Char) : Except Fault Int :=
  let digits := s.takeWhile Char.isDigit
  if digits = [] then .error .invalidOperand
  else if INT_MAX < (digitsValue digits : Int) then .error .invalidOperand
  else .ok (digitsValue digits : Int)

/-- The lambda of `compile`: the instruction of one record. -/
def compileRecord (code : String) : Except Fault MachineOp :=
  let opcode : String := ⟨code.toList.take 3⟩
  let arg := code.toList.dropWhile (fun c => !c.isDigit)
  match stoi arg with
  | .error e => .error e
  | .ok opData =>
    if opcode = "ADD" then .ok ⟨.OP_ADD, opData⟩
    else if opcode = "SUB" then .ok ⟨.OP_SUB, opData⟩
    else if opcode = "MUL" then .ok ⟨.OP_MUL, opData⟩
    else if opcode = "DIV" then .ok ⟨.OP_DIV, opData⟩
    else if opcode = "MOD" then .ok ⟨.OP_MOD, opData⟩
    else .ok ⟨.OP_PUSH, opData⟩

/-- The `for_each` of `compile`, `result` growing at the back. -/
def compileLoop : List String → List MachineOp → Except Fault (List MachineOp)
  | [], result => .ok result
  | code :: rest, result =>
    match compileRecord code with
    | .error e => .error e
    | .ok instr => compileLoop rest (result ++ [instr])

/-- `compile`, reading the records of `machineCode`. -/
def compile (machineCode : List String) : Except Fault (List MachineOp) :=
  compileLoop machineCode []

/-! ## The read-eval-print loop -/

/-- One turn of the loop of `main` on a non-empty line, `index` being 0 and
`machineCode` empty as the loop leaves them: the printed integer and the
machine afterwards. -/
def evalLine (machine : Machine) (code : String) : Except Fault (Int × Machine) :=
  match parse (lex code) 0 with
  | .error e => .error e
  | .ok (parsed, _) =>
    match compile (gen parsed []) with
    | .error e => .error e
    | .ok compiled => machine.eval compiled

/-- The full pipeline on a fresh machine: the integer printed. -/
def run (code : String) : Except Fault Int :=
  match evalLine ⟨[]⟩ code with
  | .error e => .error e
  | .ok (result, _) => .ok result

/-! ## Reference notions used in the statements -/

/-- The `int` operation an arithmetic opcode folds with (`+=`, `-=`, `*=`,
`/=`, `%=` on `int`); the other opcodes fold nothing. -/
def intOp : OpKind → Int → Int → Int
  | .OP_ADD, a, b => wrapInt (a + b)
  | .OP_SUB, a, b => wrapInt (a - b)
  | .OP_MUL, a, b => wrapInt (a * b)
  | .OP_DIV, a, b => wrapInt (Int.tdiv a b)
  | .OP_MOD, a, b => wrapInt (Int.tmod a b)
  | _, a, _ => a

/-- Every step of the fold of opcode `kind` from the accumulator `acc` over
the later operands is a division with a defined result. -/
def stepsDefined (kind : OpKind) : Int → List Int → Bool
  | _, [] => true
  | acc, v :: vs => divisionDefined acc v && stepsDefined kind (intOp kind acc v) vs

/-- Every division of the fold of opcode `kind` over the operands, in the
order they were pushed, has a defined result. -/
def operandsDefined (kind : OpKind) : List Int → Bool
  | [] => true
  | v1 :: rest => stepsDefined kind v1 rest

/-- The opcode is one of the five arithmetic ones. -/
def OpKind.isArith : OpKind → Bool
  | .OP_ADD | .OP_SUB | .OP_MUL | .OP_DIV | .OP_MOD => true
  | _ => false

/-- The opcode divides: `Div` or `Mod`. -/
def OpKind.divides : OpKind → Bool
  | .OP_DIV | .OP_MOD => true
  | _ => false

/-- The fold function `eval` hands to `handleStack` for each arithmetic
opcode. -/
def operateOf : OpKind → List Int → Except Fault Int
  | .OP_ADD => summary
  | .OP_SUB => subtractSummary
  | .OP_MUL => multifly
  | .OP_DIV => divide
  | .OP_MOD => mod
  | _ => fun _ => .error .emptyOperands

/-- The result of a parse with the returned cursor moved `k` positions to the
right. -/
def advance (k : Nat) : Except Fault (Node × Nat) → Except Fault (Node × Nat)
  | .error e => .error e
  | .ok (n, j) => .ok (n, k + j)

/-- The one token a character other than a space stands for: a digit is a
Number with its value, one of `+ - * / %` an Operator carrying it, `(` an
Open, anything else a Close. -/
def tokenOfChar (c : Char) : token :=
  if '0'.toNat ≤ c.toNat ∧ c.toNat ≤ '9'.toNat then
    (TokenKind.KIND_NUM, ((c.toNat - '0'.toNat : Nat) : Int))
  else if c ∈ ['+', '-', '*', '/', '%'] then (TokenKind.KIND_OP, (c.toNat : Int))
  else if c = '(' then (TokenKind.KIND_OPEN, (c.toNat : Int))
  else (TokenKind.KIND_CLOSE, (c.toNat : Int))

/-- The characters of a string that are not a space, in order. -/
def nonSpaces (s : String) : List Char :=
  s.toList.filter (fun c => c ≠ ' ')

mutual
/-- The records of a tree: for a Number, `PUSH` and its value in decimal; for
an Operator, the records of its children from left to right, then its
mnemonic and the number of children in decimal. -/
def Node.code : Node → List String
  | .mk kind numOrOp childs =>
    if kind = NodeKind.NODE_OP then
      Node.codeList childs ++ [opmap numOrOp ++ " " ++ to_string (childs.length : Int)]
    else ["PUSH " ++ to_string numOrOp]
/-- The records of a list of trees, one tree after the other. -/
def Node.codeList : List Node → List String
  | [] => []
  | child :: rest => Node.code child ++ Node.codeList rest
end

/-- The first maximal run of digits of a record, scanning from its
beginning. -/
def firstDigitRun (record : String) : List Char :=
  (record.toList.dropWhile (fun c => !c.isDigit)).takeWhile Char.isDigit

/-- The opcode the first three characters of a record select. -/
def mnemonicKind (record : String) : OpKind :=
  if record.toList.take 3 = ['A', 'D', 'D'] then .OP_ADD
  else if record.toList.take 3 = ['S', 'U', 'B'] then .OP_SUB
  else if record.toList.take 3 = ['M', 'U', 'L'] then .OP_MUL
  else if record.toList.take 3 = ['D', 'I', 'V'] then .OP_DIV
  else if record.toList.take 3 = ['M', 'O', 'D'] then .OP_MOD
  else .OP_PUSH

/-- The instruction a record assembles to: the opcode of its first three
characters, the decimal value of its first run of digits. -/
def assemble (record : String) : MachineOp :=
  ⟨mnemonicKind record, (digitsValue (firstDigitRun record) : Int)⟩

/-- The character codes of the five operators. -/
def opChars : List Int :=
  [('+'.toNat : Int), ('-'.toNat : Int), ('*'.toNat : Int), ('/'.toNat : Int), ('%'.toNat : Int)]

/-- The opcode of an operator character. -/
def opKindOf (c : Int) : OpKind :=
  if c = ('+'.toNat : Int) then .OP_ADD
  else if c = ('-'.toNat : Int) then .OP_SUB
  else if c = ('*'.toNat : Int) then .OP_MUL
  else if c = ('/'.toNat : Int) then .OP_DIV
  else if c = ('%'.toNat : Int) then .OP_MOD
  else .OP_PUSH

mutual
/-- The instructions of a tree, one per node in post-order: Push with the
value for a Number, the opcode with the number of children for an Operator. -/
def Node.instrs : Node → List MachineOp
  | .mk kind numOrOp childs =>
    if kind = NodeKind.NODE_OP then
      Node.instrsList childs ++ [⟨opKindOf numOrOp, (childs.length : Int)⟩]
    else [⟨.OP_PUSH, numOrOp⟩]
/-- The instructions of a list of trees, one tree after the other. -/
def Node.instrsList : List Node → List MachineOp
  | [] => []
  | child :: rest => Node.instrs child ++ Node.instrsList rest
end

mutual
/-- A tree as `parse` returns them on lexed input: every Number holds a value
0..9, every Operator carries one of `+ - * / %`, and the number of children of
a node fits in `int`. -/
def Node.parseShaped : Node → Bool
  | .mk kind numOrOp childs =>
    if kind = NodeKind.NODE_OP then
      decide (numOrOp ∈ opChars) && decide ((childs.length : Int) ≤ INT_MAX)
        && Node.allParseShaped childs
    else decide (0 ≤ numOrOp) && decide (numOrOp ≤ 9)
/-- All trees of a list are as `parse` returns them. -/
def Node.allParseShaped : List Node → Bool
  | [] => true
  | child :: rest => Node.parseShaped child && Node.allParseShaped rest
end

mutual
/-- A well-formed expression, as a tree: a single digit (a Number 0..9 without
children), or an operator among `+ - * / %` applied to at least one
well-formed operand. -/
def Node.wellFormed : Node → Bool
  | .mk kind numOrOp childs =>
    if kind = NodeKind.NODE_OP then
      decide (numOrOp ∈ opChars) && !childs.isEmpty && Node.allWellFormed childs
    else decide (0 ≤ numOrOp) && decide (numOrOp ≤ 9) && childs.isEmpty
/-- All expressions of a list are well-formed. -/
def Node.allWellFormed : List Node → Bool
  | [] => true
  | child :: rest => Node.wellFormed child && Node.allWellFormed rest
end

mutual
/-- The text of an expression without its spaces: the digit of a Number, and
for an Operator `(`, the operator character, the operands, `)`. -/
def Node.chars : Node → List Char
  | .mk kind numOrOp childs =>
    if kind = NodeKind.NODE_OP then
      ['(', Char.ofNat numOrOp.toNat] ++ Node.charsList childs ++ [')']
    else [Char.ofNat (numOrOp.toNat + '0'.toNat)]
/-- The texts of a list of expressions, one after the other. -/
def Node.charsList : List Node → List Char
  | [] => []
  | child :: rest => Node.chars child ++ Node.charsList rest
end

/-- The arithmetic of an operator character on the integers: `+`, `-`, `*`,
division truncating toward zero for `/`, its remainder for `%`. -/
def applyOp (c : Int) (a b : Int) : Int :=
  if c = ('+'.toNat : Int) then a + b
  else if c = ('-'.toNat : Int) then a - b
  else if c = ('*'.toNat : Int) then a * b
  else if c = ('/'.toNat : Int) then Int.tdiv a b
  else Int.tmod a b

mutual
/-- Reference evaluator: a digit evaluates to its value, an operator
application to the left-to-right fold of the values of its operands, seeded
with the first. -/
def Node.value : Node → Int
  | .mk kind numOrOp childs =>
    if kind = NodeKind.NODE_OP then
      match Node.values childs with
      | [] => 0
      | v :: vs => vs.foldl (applyOp numOrOp) v
    else numOrOp
/-- The values of a list of expressions, in order. -/
def Node.values : List Node → List Int
  | [] => []
  | child :: rest => Node.value child :: Node.values rest
end

/-- The operator character divides: `/` or `%`. -/
def isDivChar (c : Int) : Bool :=
  decide (c = ('/'.toNat : Int)) || decide (c = ('%'.toNat : Int))

/-- The fold of operator `c` from accumulator `acc` over the later operands
`vs` meets no zero divisor and no intermediate value outside `int`. -/
def foldSafe (c : Int) : Int → List Int → Bool
  | _, [] => true
  | acc, v :: vs =>
    (!isDivChar c || decide (v ≠ 0)) && decide (InIntRange (applyOp c acc v))
      && foldSafe c (applyOp c acc v) vs

mutual
/-- In the evaluation of the expression no divisor or modulus operand is zero
and no intermediate value leaves the `int` range (the operand count an
instruction carries included). -/
def Node.safe : Node → Bool
  | .mk kind numOrOp childs =>
    if kind = NodeKind.NODE_OP then
      Node.allSafe childs && decide ((childs.length : Int) ≤ INT_MAX) &&
        (match Node.values childs with
         | [] => true
         | v :: vs => foldSafe numOrOp v vs)
    else true
/-- All expressions of a list are safe to evaluate. -/
def Node.allSafe : List Node → Bool
  | [] => true
  | child :: rest => Node.safe child && Node.allSafe rest
end

/-- In the fold of operator `c` from accumulator `acc` over the later operands
`vs` no `%` takes the remainder of `INT_MIN` by `-1`. -/
def foldModDefined (c : Int) : Int → List Int → Bool
  | _, [] => true
  | acc, v :: vs =>
    !(decide (c = ('%'.toNat : Int)) && decide (acc = INT_MIN) && decide (v = -1))
      && foldModDefined c (applyOp c acc v) vs

mutual
/-- In the evaluation of the expression no `%` takes the remainder of
`INT_MIN` by `-1` (its quotient is no `int`, although the remainder 0 is). -/
def Node.remaindersDefined : Node → Bool
  | .mk kind numOrOp childs =>
    if kind = NodeKind.NODE_OP then
      Node.allRemaindersDefined childs &&
        (match Node.values childs with
         | [] => true
         | v :: vs => foldModDefined numOrOp v vs)
    else true
/-- No expression of the list takes the remainder of `INT_MIN` by `-1`. -/
def Node.allRemaindersDefined : List Node → Bool
  | [] => true
  | child :: rest => Node.remaindersDefined child && Node.allRemaindersDefined rest
end

/-- Left-to-right fold `((v1 op v2) op v3) ... op vn` of the operands in the
order they were pushed; 0 for no operands. -/
def foldOperands (kind : OpKind) : List Int → Int
  | [] => 0
  | v1 :: rest => rest.foldl (intOp kind) v1

mutual
/-- The value the machine computes for an expression: a digit is its value,
an operator application the left-to-right fold of the values of its operands
with the `int` operation of its opcode. -/
def Node.machineValue : Node → Int
  | .mk kind numOrOp childs =>
    if kind = NodeKind.NODE_OP then
      foldOperands (opKindOf numOrOp) (Node.machineValues childs)
    else numOrOp
/-- The values the machine computes for a list of expressions, in order. -/
def Node.machineValues : List Node → List Int
  | [] => []
  | child :: rest => Node.machineValue child :: Node.machineValues rest
end

mutual
/-- No zero divisor: in no application of `/` or `%` of the expression does
an operand other than the first have the value zero on the machine. -/
def Node.noZeroDivisor : Node → Bool
  | .mk kind numOrOp childs =>
    if kind = NodeKind.NODE_OP then
      Node.allNoZeroDivisor childs &&
        (!isDivChar numOrOp || decide ((0 : Int) ∉ (Node.machineValues childs).tail))
    else true
/-- No expression of the list has a zero divisor. -/
def Node.allNoZeroDivisor : List Node → Bool
  | [] => true
  | child :: rest => Node.noZeroDivisor child && Node.allNoZeroDivisor rest
end

mutual
/-- Every division of the expression has a defined result on the machine: in
no step of the fold of a `/` or `%` is the divisor zero, and none divides
`INT_MIN` by `-1`. -/
def Node.divisionsDefined : Node → Bool
  | .mk kind numOrOp childs =>
    if kind = NodeKind.NODE_OP then
      Node.allDivisionsDefined childs &&
        (!isDivChar numOrOp ||
          operandsDefined (opKindOf numOrOp) (Node.machineValues childs))
    else true
/-- Every division of the expressions of the list has a defined result. -/
def Node.allDivisionsDefined : List Node → Bool
  | [] => true
  | child :: rest => Node.divisionsDefined child && Node.allDivisionsDefined rest
end

/-- The expression `(c (* (- 0 8) 8 8 8 8 8 8 8 8 8 2) (- 0 1))` for an
operator character `c`: its two operands have the values `INT_MIN` and `-1`,
and every value computed for them is in the `int` range. -/
def minAndMinusOne (c : Int) : Node :=
  Node.mk .NODE_OP c
    [Node.mk .NODE_OP 42
      (Node.mk .NODE_OP 45 [Node.mk .NODE_NUM 0 [], Node.mk .NODE_NUM 8 []] ::
        (List.replicate 9 (Node.mk .NODE_NUM 8 []) ++ [Node.mk .NODE_NUM 2 []])),
     Node.mk .NODE_OP 45 [Node.mk .NODE_NUM 0 [], Node.mk .NODE_NUM 1 []]]

/-- The parser as the source runs it on the tokens `stream` when the memory
behind them reads as the tokens `beyond`: `stream[index]` is not checked, so a
read at or past the end of `stream` returns what lies behind it. A read past
`beyond` as well has no defined result. -/
def parseUnchecked (stream beyond : List token) (index : Nat) : Except Fault (Node × Nat) :=
  parse (stream ++ beyond) index

/-- The integer a turn of the loop prints, without the machine. -/
def printed : Except Fault (Int × Machine) → Except Fault Int
  | .error e => .error e
  | .ok (result, _) => .ok result

/-- The loop of `main` over the lines read, as far as every line has a
defined result: an empty line is skipped, any other line is evaluated on the
one machine of the loop and its integer printed. The result is the integers
printed and the machine after the last line. -/
def mainLoop : Machine → List String → Except Fault (List Int × Machine)
  | machine, [] => .ok ([], machine)
  | machine, code :: lines =>
    if code = "" then mainLoop machine lines
    else
      match evalLine machine code with
      | .error e => .error e
      | .ok (result, machine1) =>
        match mainLoop machine1 lines with
        | .error e => .error e
        | .ok (results, machine2) => .ok (result :: results, machine2)

mutual
/-- A tree that the surface grammar can print: every Number is a leaf with a
value 0..9, every Operator carries one of `+ - * / %`, with any number of
children. -/
def Node.printable : Node → Bool
  | .mk kind numOrOp childs =>
    if kind = NodeKind.NODE_OP then
      decide (numOrOp ∈ opChars) && Node.allPrintable childs
    else decide (0 ≤ numOrOp) && decide (numOrOp ≤ 9) && childs.isEmpty
/-- All trees of a list can be printed. -/
def Node.allPrintable : List Node → Bool
  | [] => true
  | child :: rest => Node.printable child && Node.allPrintable rest
end

mutual
/-- Every Operator node of the tree has at least one child. -/
def Node.opsHaveChild : Node → Bool
  | .mk kind _ childs =>
    if kind = NodeKind.NODE_OP then !childs.isEmpty && Node.allOpsHaveChild childs
    else Node.allOpsHaveChild childs
/-- Every Operator node of the trees of the list has at least one child. -/
def Node.allOpsHaveChild : List Node → Bool
  | [] => true
  | child :: rest => Node.opsHaveChild child && Node.allOpsHaveChild rest
end

end Interp

namespace Interp

/-! ## The virtual machine, one instruction at a time -/

theorem popOperands_append (xs below operands : List Int) :
    popOperands xs.length (xs ++ below) operands = .ok (below, xs.reverse ++ operands) := by
  induction xs generalizing operands with
  | nil => rfl
  | cons x xs ih =>
    show popOperands xs.length (xs ++ below) (x :: operands) = _
    rw [ih]; simp

theorem popOperands_reverse (vs below : List Int) :
    popOperands vs.length (vs.reverse ++ below) [] = .ok (below, vs) := by
  have h := popOperands_append vs.reverse below []
  simpa using h

theorem divisionDefined_iff (a b : Int) :
    divisionDefined a b = true ↔ b ≠ 0 ∧ ¬ (a = INT_MIN ∧ b = -1) := by
  simp only [divisionDefined, Bool.and_eq_true, Bool.not_eq_true', decide_eq_true_eq,
    Bool.and_eq_false_imp, decide_eq_false_iff_not, ne_eq, not_and]

theorem foldSteps_divStep (front : Int) (rest : List Int) :
    foldSteps divStep front rest =
      if stepsDefined .OP_DIV front rest = true then .ok (rest.foldl (intOp .OP_DIV) front)
      else .error .undefinedDivision := by
  induction rest generalizing front with
  | nil => simp [foldSteps, stepsDefined]
  | cons i rest ih =>
    by_cases hi : divisionDefined front i = true
    · simp [foldSteps, divStep, stepsDefined, hi, ih, intOp]
    · simp [foldSteps, divStep, stepsDefined, hi]

theorem foldSteps_modStep (front : Int) (rest : List Int) :
    foldSteps modStep front rest =
      if stepsDefined .OP_MOD front rest = true then .ok (rest.foldl (intOp .OP_MOD) front)
      else .error .undefinedDivision := by
  induction rest generalizing front with
  | nil => simp [foldSteps, stepsDefined]
  | cons i rest ih =>
    by_cases hi : divisionDefined front i = true
    · simp [foldSteps, modStep, stepsDefined, hi, ih, intOp]
    · simp [foldSteps, modStep, stepsDefined, hi]

theorem operateOf_cons (kind : OpKind) (hk : kind.isArith = true) (v1 : Int) (rest : List Int) :
    operateOf kind (v1 :: rest) =
      if kind.divides = true ∧ stepsDefined kind v1 rest = false then .error .undefinedDivision
      else .ok (foldOperands kind (v1 :: rest)) := by
  cases kind <;> simp [OpKind.isArith] at hk
  · simp [operateOf, summary, OpKind.divides, foldOperands]; rfl
  · simp [operateOf, subtractSummary, OpKind.divides, foldOperands]; rfl
  · simp [operateOf, multifly, OpKind.divides, foldOperands]; rfl
  · simp only [operateOf, divide, OpKind.divides, foldOperands, foldSteps_divStep]
    cases stepsDefined .OP_DIV v1 rest <;> simp
  · simp only [operateOf, mod, OpKind.divides, foldOperands, foldSteps_modStep]
    cases stepsDefined .OP_MOD v1 rest <;> simp

theorem dispatch_arith (kind : OpKind) (hk : kind.isArith = true) (n : Int)
    (machineStack operands : List Int) :
    dispatch ⟨kind, n⟩ machineStack operands =
      handleStack n (operateOf kind) machineStack operands := by
  cases kind <;> simp [OpKind.isArith] at hk <;> rfl

/-- An arithmetic instruction whose operand is the number of values `vs` on
top of the stack (pushed in the order of `vs`). -/
theorem evalStep_arith (kind : OpKind) (hk : kind.isArith = true) (vs below : List Int) :
    evalStep ⟨kind, (vs.length : Int)⟩ (vs.reverse ++ below) [] =
      match operateOf kind vs with
      | .error e => .error e
      | .ok r => .ok (r :: below, []) := by
  simp only [evalStep, dispatch_arith kind hk, handleStack, Int.toNat_ofNat,
    popOperands_reverse]
  cases operateOf kind vs <;> rfl

theorem evalLoop_cons (op : MachineOp) (code : List MachineOp) (machineStack operands : List Int) :
    evalLoop (op :: code) machineStack operands =
      match evalStep op machineStack operands with
      | .error e => .error e
      | .ok (stack, ops) => evalLoop code stack ops := rfl

theorem evalStep_push (v : Int) (machineStack operands : List Int) :
    evalStep ⟨.OP_PUSH, v⟩ machineStack operands = .ok (v :: machineStack, []) := rfl

theorem evalStep_arith_ok (kind : OpKind) (hk : kind.isArith = true) (vs below : List Int)
    (hn : vs ≠ []) (hd : kind.divides = true → operandsDefined kind vs = true) :
    evalStep ⟨kind, (vs.length : Int)⟩ (vs.reverse ++ below) [] =
      .ok (foldOperands kind vs :: below, []) := by
  rw [evalStep_arith kind hk]
  cases vs with
  | nil => exact absurd rfl hn
  | cons v1 rest =>
    rw [operateOf_cons kind hk]
    have : ¬ (kind.divides = true ∧ stepsDefined kind v1 rest = false) := by
      rintro ⟨h1, h2⟩
      have h3 := hd h1
      simp only [operandsDefined] at h3
      rw [h3] at h2
      cases h2
    simp [this]

/-- C2: the full pipeline (lex, parse from cursor 0, gen into an empty
accumulator, compile, eval on a fresh machine) gives 6, 4, 24, 4, 1 and 7 on
the six example inputs. -/
theorem run_examples :
    run "(+ 1 2 3)" = .ok 6 ∧ run "(- 9 2 3)" = .ok 4 ∧ run "(* 2 3 4)" = .ok 24 ∧
    run "(/ 9 2)" = .ok 4 ∧ run "(% 9 4)" = .ok 1 ∧ run "(+ 1 (* 2 3))" = .ok 7 :=
  ⟨rfl, rfl, rfl, rfl, rfl, rfl⟩

/-- C3 (refuted as stated): the operands `INT_MIN`, `-1` hold no zero divisor,
yet a `Div` or `Mod` instruction of arity 2 on them pushes nothing: the
quotient is no `int`, the division has no defined result and the run ends. -/
theorem arith_fold_counterexample :
    (0 : Int) ∉ ([INT_MIN, -1] : List Int).tail
    ∧ evalStep ⟨.OP_DIV, 2⟩ [-1, INT_MIN] [] = .error .undefinedDivision
    ∧ evalStep ⟨.OP_MOD, 2⟩ [-1, INT_MIN] [] = .error .undefinedDivision
    ∧ ¬ (∀ (kind : OpKind) (vs below : List Int), kind.isArith = true → 1 ≤ vs.length →
          (kind.divides = true → (0 : Int) ∉ vs.tail) →
          evalStep ⟨kind, (vs.length : Int)⟩ (vs.reverse ++ below) [] =
            .ok (foldOperands kind vs :: below, [])) := by
  refine ⟨by decide, rfl, rfl, ?_⟩
  intro h
  have h1 := h .OP_DIV [INT_MIN, -1] [] rfl (by decide) (fun _ => by decide)
  have h2 : evalStep ⟨.OP_DIV, (([INT_MIN, -1] : List Int).length : Int)⟩
      (([INT_MIN, -1] : List Int).reverse ++ []) [] = .error .undefinedDivision := rfl
  rw [h2] at h1
  cases h1

/-- C3 (amended): an arithmetic instruction with operand `n ≥ 1`, run on a
stack whose top `n` values are `vs` (in the order pushed, last on top), where
for `Div` and `Mod` every step of the fold has a non-zero divisor and does not
divide `INT_MIN` by `-1`, removes exactly these values and pushes the
left-to-right fold `((v1 op v2) op v3) ... op vn` in their place, leaving
`below` as it was (so the depth changes by `1 - n`), both as a single step and
in front of any remaining code; a `Push v` pushes `v` and changes nothing
else. -/
theorem arith_instruction_folds_operands (kind : OpKind) (vs below : List Int)
    (hk : kind.isArith = true) (hn : 1 ≤ vs.length)
    (hd : kind.divides = true → operandsDefined kind vs = true) :
    evalStep ⟨kind, (vs.length : Int)⟩ (vs.reverse ++ below) [] =
        .ok (foldOperands kind vs :: below, [])
    ∧ (∀ code, evalLoop (⟨kind, (vs.length : Int)⟩ :: code) (vs.reverse ++ below) [] =
        evalLoop code (foldOperands kind vs :: below) [])
    ∧ ((foldOperands kind vs :: below).length + vs.length = (vs.reverse ++ below).length + 1)
    ∧ (∀ (v : Int) (machineStack : List Int),
        evalStep ⟨.OP_PUSH, v⟩ machineStack [] = .ok (v :: machineStack, [])
        ∧ ∀ code, evalLoop (⟨.OP_PUSH, v⟩ :: code) machineStack [] =
            evalLoop code (v :: machineStack) []) := by
  have hne : vs ≠ [] := by
    intro h; rw [h] at hn; simp at hn
  have hstep := evalStep_arith_ok kind hk vs below hne hd
  refine ⟨hstep, ?_, ?_, ?_⟩
  · intro code
    rw [evalLoop_cons, hstep]
  · simp; omega
  · intro v machineStack
    exact ⟨rfl, fun code => rfl⟩

theorem arith_instruction_folds_operands_witness :
    evalStep ⟨.OP_DIV, 3⟩ [3, -2, 25, 7] [] = .ok ([-4, 7], []) :=
  (arith_instruction_folds_operands .OP_DIV [25, -2, 3] [7] rfl (by decide)
    (fun _ => by decide)).1

theorem lt_length_of_getElem? {α : Type} (l : List α) (i : Nat) (a : α)
    (h : l[i]? = some a) : i < l.length := by
  by_contra hc
  rw [List.getElem?_eq_none (by omega)] at h
  cases h

theorem parseFuel_none (f : Nat) (stream : List token) (index : Nat)
    (h : stream[index]? = none) :
    parseFuel (f + 1) stream index = some (.error .malformedExpression) := by
  simp [parseFuel, h]

theorem parseFuel_num (f : Nat) (stream : List token) (index : Nat) (v : Int)
    (h : stream[index]? = some (.KIND_NUM, v)) :
    parseFuel (f + 1) stream index = some (.ok (Node.mk .NODE_NUM v [], index + 1)) := by
  simp [parseFuel, h]

theorem parseFuel_op (f : Nat) (stream : List token) (index : Nat) (v : Int)
    (h : stream[index]? = some (.KIND_OP, v)) :
    parseFuel (f + 1) stream index = parseChilds f stream (index + 1) v [] := by
  simp [parseFuel, h]

theorem parseFuel_skip (f : Nat) (stream : List token) (index : Nat) (k : TokenKind) (v : Int)
    (h : stream[index]? = some (k, v)) (h1 : k ≠ .KIND_NUM) (h2 : k ≠ .KIND_OP) :
    parseFuel (f + 1) stream index = parseFuel f stream (index + 1) := by
  cases k <;> simp [parseFuel, h] at h1 h2 ⊢

theorem parseChilds_none (f : Nat) (stream : List token) (index : Nat) (op : Int)
    (childs : List Node) (h : stream[index]? = none) :
    parseChilds (f + 1) stream index op childs = some (.error .malformedExpression) := by
  simp [parseChilds, h]

theorem parseChilds_close (f : Nat) (stream : List token) (index : Nat) (op : Int)
    (childs : List Node) (v : Int) (h : stream[index]? = some (.KIND_CLOSE, v)) :
    parseChilds (f + 1) stream index op childs =
      some (.ok (Node.mk .NODE_OP op childs, index + 1)) := by
  simp [parseChilds, h]

theorem parseChilds_child (f : Nat) (stream : List token) (index : Nat) (op : Int)
    (childs : List Node) (k : TokenKind) (v : Int)
    (h : stream[index]? = some (k, v)) (hk : k ≠ .KIND_CLOSE) :
    parseChilds (f + 1) stream index op childs =
      match parseFuel f stream index with
      | none => none
      | some (.error e) => some (.error e)
      | some (.ok (child, index1)) =>
        parseChilds f stream index1 op (childs ++ [child]) := by
  cases k <;> simp [parseChilds, h] at hk ⊢

theorem parse_bounds_aux (stream : List token) : ∀ f : Nat,
    (∀ i r, parseFuel f stream i = some r →
      (∀ e, r = .error e → e = .malformedExpression) ∧
      (∀ n j, r = .ok (n, j) → i < j ∧ j ≤ stream.length)) ∧
    (∀ i op cs r, parseChilds f stream i op cs = some r →
      (∀ e, r = .error e → e = .malformedExpression) ∧
      (∀ n j, r = .ok (n, j) → i < j ∧ j ≤ stream.length)) := by
  intro f
  induction f with
  | zero =>
    constructor
    · intro i r h; simp [parseFuel] at h
    · intro i op cs r h; simp [parseChilds] at h
  | succ f ih =>
    obtain ⟨ihP, ihC⟩ := ih
    constructor
    · intro i r h
      rcases hs : stream[i]? with _ | ⟨k, v⟩
      · rw [parseFuel_none f stream i hs] at h
        cases h
        exact ⟨fun e he => (by cases he; rfl), fun n j he => (by cases he)⟩
      · have hlt := lt_length_of_getElem? stream i _ hs
        by_cases h1 : k = .KIND_NUM
        · subst h1
          rw [parseFuel_num f stream i v hs] at h
          cases h
          refine ⟨fun e he => (by cases he), fun n j he => ?_⟩
          cases he
          exact ⟨Nat.lt_succ_self i, hlt⟩
        · by_cases h2 : k = .KIND_OP
          · subst h2
            rw [parseFuel_op f stream i v hs] at h
            obtain ⟨hE, hO⟩ := ihC _ _ _ _ h
            refine ⟨hE, fun n j he => ?_⟩
            obtain ⟨ha, hb⟩ := hO n j he
            exact ⟨by omega, hb⟩
          · rw [parseFuel_skip f stream i k v hs h1 h2] at h
            obtain ⟨hE, hO⟩ := ihP _ _ h
            refine ⟨hE, fun n j he => ?_⟩
            obtain ⟨ha, hb⟩ := hO n j he
            exact ⟨by omega, hb⟩
    · intro i op cs r h
      rcases hs : stream[i]? with _ | ⟨k, v⟩
      · rw [parseChilds_none f stream i op cs hs] at h
        cases h
        exact ⟨fun e he => (by cases he; rfl), fun n j he => (by cases he)⟩
      · have hlt := lt_length_of_getElem? stream i _ hs
        by_cases h1 : k = .KIND_CLOSE
        · subst h1
          rw [parseChilds_close f stream i op cs v hs] at h
          cases h
          refine ⟨fun e he => (by cases he), fun n j he => ?_⟩
          cases he
          exact ⟨Nat.lt_succ_self i, hlt⟩
        · rw [parseChilds_child f stream i op cs k v hs h1] at h
          rcases hp : parseFuel f stream i with _ | ⟨e | ⟨child, i1⟩⟩
          · rw [hp] at h; cases h
          · rw [hp] at h
            cases h
            exact ⟨fun e2 he => (by cases he; exact (ihP _ _ hp).1 e rfl),
              fun n j he => (by cases he)⟩
          · rw [hp] at h
            have hi1 := (ihP _ _ hp).2 child i1 rfl
            obtain ⟨hE, hO⟩ := ihC _ _ _ _ h
            refine ⟨hE, fun n j he => ?_⟩
            obtain ⟨ha, hb⟩ := hO n j he
            exact ⟨by omega, hb⟩

theorem parse_mono_aux (stream : List token) : ∀ f : Nat,
    (∀ i r, parseFuel f stream i = some r → parseFuel (f + 1) stream i = some r) ∧
    (∀ i op cs r, parseChilds f stream i op cs = some r →
      parseChilds (f + 1) stream i op cs = some r) := by
  intro f
  induction f with
  | zero =>
    constructor
    · intro i r h; simp [parseFuel] at h
    · intro i op cs r h; simp [parseChilds] at h
  | succ f ih =>
    obtain ⟨ihP, ihC⟩ := ih
    constructor
    · intro i r h
      rcases hs : stream[i]? with _ | ⟨k, v⟩
      · rw [parseFuel_none f stream i hs] at h
        rw [parseFuel_none (f + 1) stream i hs, h]
      · by_cases h1 : k = .KIND_NUM
        · subst h1
          rw [parseFuel_num f stream i v hs] at h
          rw [parseFuel_num (f + 1) stream i v hs, h]
        · by_cases h2 : k = .KIND_OP
          · subst h2
            rw [parseFuel_op f stream i v hs] at h
            rw [parseFuel_op (f + 1) stream i v hs]
            exact ihC _ _ _ _ h
          · rw [parseFuel_skip f stream i k v hs h1 h2] at h
            rw [parseFuel_skip (f + 1) stream i k v hs h1 h2]
            exact ihP _ _ h
    · intro i op cs r h
      rcases hs : stream[i]? with _ | ⟨k, v⟩
      · rw [parseChilds_none f stream i op cs hs] at h
        rw [parseChilds_none (f + 1) stream i op cs hs, h]
      · by_cases h1 : k = .KIND_CLOSE
        · subst h1
          rw [parseChilds_close f stream i op cs v hs] at h
          rw [parseChilds_close (f + 1) stream i op cs v hs, h]
        · rw [parseChilds_child f stream i op cs k v hs h1] at h
          rw [parseChilds_child (f + 1) stream i op cs k v hs h1]
          rcases hp : parseFuel f stream i with _ | ⟨e | ⟨child, i1⟩⟩
          · rw [hp] at h; cases h
          · rw [hp] at h
            rw [ihP _ _ hp]
            exact h
          · rw [hp] at h
            rw [ihP _ _ hp]
            exact ihC _ _ _ _ h

theorem parseFuel_mono (stream : List token) (i : Nat) (r : Except Fault (Node × Nat))
    (f g : Nat) (hfg : f ≤ g) (h : parseFuel f stream i = some r) :
    parseFuel g stream i = some r := by
  induction g with
  | zero =>
    have : f = 0 := by omega
    subst this; exact h
  | succ g ih =>
    by_cases hf : f = g + 1
    · subst hf; exact h
    · exact (parse_mono_aux stream g).1 i r (ih (by omega))

theorem parseChilds_mono (stream : List token) (i : Nat) (op : Int) (cs : List Node)
    (r : Except Fault (Node × Nat)) (f g : Nat) (hfg : f ≤ g)
    (h : parseChilds f stream i op cs = some r) :
    parseChilds g stream i op cs = some r := by
  induction g with
  | zero =>
    have : f = 0 := by omega
    subst this; exact h
  | succ g ih =>
    by_cases hf : f = g + 1
    · subst hf; exact h
    · exact (parse_mono_aux stream g).2 i op cs r (ih (by omega))

theorem parse_adequate_aux (stream : List token) : ∀ f : Nat,
    (∀ i, 2 * (stream.length - i) + 1 ≤ f → ∃ r, parseFuel f stream i = some r) ∧
    (∀ i op cs, 2 * (stream.length - i) + 2 ≤ f →
      ∃ r, parseChilds f stream i op cs = some r) := by
  intro f
  induction f with
  | zero =>
    constructor
    · intro i h; omega
    · intro i op cs h; omega
  | succ f ih =>
    obtain ⟨ihP, ihC⟩ := ih
    constructor
    · intro i hf
      rcases hs : stream[i]? with _ | ⟨k, v⟩
      · exact ⟨_, parseFuel_none f stream i hs⟩
      · have hlt := lt_length_of_getElem? stream i _ hs
        by_cases h1 : k = .KIND_NUM
        · subst h1
          exact ⟨_, parseFuel_num f stream i v hs⟩
        · by_cases h2 : k = .KIND_OP
          · subst h2
            rw [parseFuel_op f stream i v hs]
            exact ihC _ _ _ (by omega)
          · rw [parseFuel_skip f stream i k v hs h1 h2]
            exact ihP _ (by omega)
    · intro i op cs hf
      rcases hs : stream[i]? with _ | ⟨k, v⟩
      · exact ⟨_, parseChilds_none f stream i op cs hs⟩
      · have hlt := lt_length_of_getElem? stream i _ hs
        by_cases h1 : k = .KIND_CLOSE
        · subst h1
          exact ⟨_, parseChilds_close f stream i op cs v hs⟩
        · rw [parseChilds_child f stream i op cs k v hs h1]
          obtain ⟨r0, hr0⟩ := ihP i (by omega)
          rw [hr0]
          rcases r0 with e | ⟨child, i1⟩
          · exact ⟨_, rfl⟩
          · have hi1 := ((parse_bounds_aux stream f).1 _ _ hr0).2 child i1 rfl
            exact ihC _ _ _ (by omega)

/-- The depth bound of `parse` is never reached: `parse` is what `parseFuel`
returns with any bound that is large enough. -/
theorem parse_eq_of_parseFuel (stream : List token) (i f : Nat)
    (r : Except Fault (Node × Nat)) (h : parseFuel f stream i = some r) :
    parse stream i = r := by
  obtain ⟨r0, hr0⟩ := (parse_adequate_aux stream (parseBound stream i)).1 i (le_refl _)
  have h1 := parseFuel_mono stream i r f (max f (parseBound stream i)) (le_max_left _ _) h
  have h2 := parseFuel_mono stream i r0 _ (max f (parseBound stream i)) (le_max_right _ _) hr0
  rw [h1] at h2
  cases h2
  simp [parse, hr0]

theorem parseFuel_parseBound (stream : List token) (i : Nat) :
    parseFuel (parseBound stream i) stream i = some (parse stream i) := by
  obtain ⟨r0, hr0⟩ := (parse_adequate_aux stream (parseBound stream i)).1 i (le_refl _)
  simp [parse, hr0]

theorem parse_bounds (stream : List token) (i : Nat) (n : Node) (j : Nat)
    (h : parse stream i = .ok (n, j)) : i < j ∧ j ≤ stream.length :=
  ((parse_bounds_aux stream _).1 i _ (parseFuel_parseBound stream i)).2 n j h

theorem parse_fault (stream : List token) (i : Nat) (e : Fault)
    (h : parse stream i = .error e) : e = .malformedExpression :=
  ((parse_bounds_aux stream _).1 i _ (parseFuel_parseBound stream i)).1 e h

/-! ## The parser in front of a longer stream -/

theorem getElem?_append_add {α : Type} (pre ts : List α) (i : Nat) :
    (pre ++ ts)[pre.length + i]? = ts[i]? := by
  rw [List.getElem?_append_right (by omega)]
  congr 1
  omega

theorem parse_shift_aux (pre ts : List token) : ∀ f : Nat,
    (∀ i, parseFuel f (pre ++ ts) (pre.length + i) =
      Option.map (advance pre.length) (parseFuel f ts i)) ∧
    (∀ i op cs, parseChilds f (pre ++ ts) (pre.length + i) op cs =
      Option.map (advance pre.length) (parseChilds f ts i op cs)) := by
  intro f
  induction f with
  | zero =>
    constructor
    · intro i; simp [parseFuel]
    · intro i op cs; simp [parseChilds]
  | succ f ih =>
    obtain ⟨ihP, ihC⟩ := ih
    constructor
    · intro i
      have hg := getElem?_append_add pre ts i
      rcases hs : ts[i]? with _ | ⟨k, v⟩
      · rw [hs] at hg
        rw [parseFuel_none f _ _ hg, parseFuel_none f _ _ hs]; rfl
      · rw [hs] at hg
        by_cases h1 : k = .KIND_NUM
        · subst h1
          rw [parseFuel_num f _ _ v hg, parseFuel_num f _ _ v hs]; rfl
        · by_cases h2 : k = .KIND_OP
          · subst h2
            rw [parseFuel_op f _ _ v hg, parseFuel_op f _ _ v hs]
            exact ihC (i + 1) v []
          · rw [parseFuel_skip f _ _ k v hg h1 h2, parseFuel_skip f _ _ k v hs h1 h2]
            exact ihP (i + 1)
    · intro i op cs
      have hg := getElem?_append_add pre ts i
      rcases hs : ts[i]? with _ | ⟨k, v⟩
      · rw [hs] at hg
        rw [parseChilds_none f _ _ op cs hg, parseChilds_none f _ _ op cs hs]; rfl
      · rw [hs] at hg
        by_cases h1 : k = .KIND_CLOSE
        · subst h1
          rw [parseChilds_close f _ _ op cs v hg, parseChilds_close f _ _ op cs v hs]; rfl
        · rw [parseChilds_child f _ _ op cs k v hg h1, parseChilds_child f _ _ op cs k v hs h1,
            ihP i]
          rcases hp : parseFuel f ts i with _ | ⟨e | ⟨child, i1⟩⟩
          · rfl
          · rfl
          · exact ihC i1 op (cs ++ [child])

theorem parse_append_left (pre ts : List token) (i : Nat) :
    parse (pre ++ ts) (pre.length + i) = advance pre.length (parse ts i) := by
  apply parse_eq_of_parseFuel (pre ++ ts) (pre.length + i) (parseBound ts i)
  rw [(parse_shift_aux pre ts _).1 i, parseFuel_parseBound]
  rfl

theorem parseChilds_no_close (stream : List token) : ∀ (f i : Nat) (op : Int) (cs : List Node)
    (r : Except Fault (Node × Nat)),
    (∀ j v, i ≤ j → stream[j]? ≠ some (TokenKind.KIND_CLOSE, v)) →
    parseChilds f stream i op cs = some r → r = .error .malformedExpression := by
  intro f
  induction f with
  | zero => intro i op cs r _ h; simp [parseChilds] at h
  | succ f ih =>
    intro i op cs r hno h
    rcases hs : stream[i]? with _ | ⟨k, v⟩
    · rw [parseChilds_none f stream i op cs hs] at h
      cases h; rfl
    · by_cases h1 : k = .KIND_CLOSE
      · subst h1
        exact absurd hs (hno i v (le_refl _))
      · rw [parseChilds_child f stream i op cs k v hs h1] at h
        rcases hp : parseFuel f stream i with _ | ⟨e | ⟨child, i1⟩⟩
        · rw [hp] at h; cases h
        · rw [hp] at h
          cases h
          rw [((parse_bounds_aux stream f).1 _ _ hp).1 e rfl]
        · rw [hp] at h
          have hi1 := ((parse_bounds_aux stream f).1 _ _ hp).2 child i1 rfl
          exact ih i1 op (cs ++ [child]) r (fun j v hj => hno j v (by omega)) h

theorem parseChilds_ends_with_close (stream : List token) : ∀ (f i : Nat) (op : Int)
    (cs : List Node) (t : Node) (j : Nat),
    parseChilds f stream i op cs = some (.ok (t, j)) →
    i < j ∧ ∃ v, stream[j - 1]? = some (TokenKind.KIND_CLOSE, v) := by
  intro f
  induction f with
  | zero => intro i op cs t j h; simp [parseChilds] at h
  | succ f ih =>
    intro i op cs t j h
    rcases hs : stream[i]? with _ | ⟨k, v⟩
    · rw [parseChilds_none f stream i op cs hs] at h; cases h
    · by_cases h1 : k = .KIND_CLOSE
      · subst h1
        rw [parseChilds_close f stream i op cs v hs] at h
        cases h
        exact ⟨Nat.lt_succ_self i, v, by simpa using hs⟩
      · rw [parseChilds_child f stream i op cs k v hs h1] at h
        rcases hp : parseFuel f stream i with _ | ⟨e | ⟨child, i1⟩⟩
        · rw [hp] at h; cases h
        · rw [hp] at h; cases h
        · rw [hp] at h
          have hi1 := ((parse_bounds_aux stream f).1 _ _ hp).2 child i1 rfl
          obtain ⟨hlt, hv⟩ := ih i1 op (cs ++ [child]) t j h
          exact ⟨by omega, hv⟩

/-! ## The parser when tokens lie behind the end of the stream -/

theorem getElem?_append_some {α : Type} (l beyond : List α) (i : Nat) (a : α)
    (h : l[i]? = some a) : (l ++ beyond)[i]? = some a := by
  rw [List.getElem?_append_left (lt_length_of_getElem? l i a h)]
  exact h

/-- A run of the parser that stays within `stream` is the same run on
`stream ++ beyond`; a run that reads at or past the end of `stream` and yet
returns a tree on `stream ++ beyond` returns a cursor past the end of
`stream`. -/
theorem parse_extend_aux (stream beyond : List token) : ∀ f : Nat,
    (∀ i r, parseFuel f stream i = some r →
      (∀ n j, r = .ok (n, j) → parseFuel f (stream ++ beyond) i = some (.ok (n, j))) ∧
      (∀ e n j, r = .error e → parseFuel f (stream ++ beyond) i = some (.ok (n, j)) →
        stream.length < j)) ∧
    (∀ i op cs r, parseChilds f stream i op cs = some r →
      (∀ n j, r = .ok (n, j) →
        parseChilds f (stream ++ beyond) i op cs = some (.ok (n, j))) ∧
      (∀ e n j, r = .error e →
        parseChilds f (stream ++ beyond) i op cs = some (.ok (n, j)) →
        stream.length < j)) := by
  intro f
  induction f with
  | zero =>
    constructor
    · intro i r h; simp [parseFuel] at h
    · intro i op cs r h; simp [parseChilds] at h
  | succ f ih =>
    obtain ⟨ihP, ihC⟩ := ih
    constructor
    · intro i r h
      rcases hs : stream[i]? with _ | ⟨k, v⟩
      · rw [parseFuel_none f stream i hs] at h
        cases h
        refine ⟨fun n j he => (by cases he), fun e n j _ hx => ?_⟩
        have hb := ((parse_bounds_aux (stream ++ beyond) (f + 1)).1 i _ hx).2 n j rfl
        have hlen : stream.length ≤ i := by
          by_contra hc
          have hlt : i < stream.length := by omega
          rw [List.getElem?_eq_getElem hlt] at hs
          cases hs
        omega
      · have hx := getElem?_append_some stream beyond i _ hs
        by_cases h1 : k = .KIND_NUM
        · subst h1
          rw [parseFuel_num f stream i v hs] at h
          cases h
          refine ⟨fun n j he => ?_, fun e n j he => (by cases he)⟩
          cases he
          exact parseFuel_num f _ i v hx
        · by_cases h2 : k = .KIND_OP
          · subst h2
            rw [parseFuel_op f stream i v hs] at h
            rw [parseFuel_op f _ i v hx]
            exact ihC _ _ _ _ h
          · rw [parseFuel_skip f stream i k v hs h1 h2] at h
            rw [parseFuel_skip f _ i k v hx h1 h2]
            exact ihP _ _ h
    · intro i op cs r h
      rcases hs : stream[i]? with _ | ⟨k, v⟩
      · rw [parseChilds_none f stream i op cs hs] at h
        cases h
        refine ⟨fun n j he => (by cases he), fun e n j _ hx => ?_⟩
        have hb := ((parse_bounds_aux (stream ++ beyond) (f + 1)).2 i op cs _ hx).2 n j rfl
        have hlen : stream.length ≤ i := by
          by_contra hc
          have hlt : i < stream.length := by omega
          rw [List.getElem?_eq_getElem hlt] at hs
          cases hs
        omega
      · have hx := getElem?_append_some stream beyond i _ hs
        by_cases h1 : k = .KIND_CLOSE
        · subst h1
          rw [parseChilds_close f stream i op cs v hs] at h
          cases h
          refine ⟨fun n j he => ?_, fun e n j he => (by cases he)⟩
          cases he
          exact parseChilds_close f _ i op cs v hx
        · rw [parseChilds_child f stream i op cs k v hs h1] at h
          rw [parseChilds_child f _ i op cs k v hx h1]
          rcases hp : parseFuel f stream i with _ | ⟨e | ⟨child, i1⟩⟩
          · rw [hp] at h; cases h
          · rw [hp] at h
            cases h
            refine ⟨fun n j he => (by cases he), fun e2 n j _ hy => ?_⟩
            rcases hq : parseFuel f (stream ++ beyond) i with _ | ⟨e3 | ⟨child2, i2⟩⟩
            · rw [hq] at hy; cases hy
            · rw [hq] at hy; cases hy
            · rw [hq] at hy
              have hi2 := (ihP _ _ hp).2 e child2 i2 rfl hq
              have hb := ((parse_bounds_aux (stream ++ beyond) f).2 _ _ _ _ hy).2 n j rfl
              omega
          · rw [hp] at h
            rw [(ihP _ _ hp).1 child i1 rfl]
            exact ihC _ _ _ _ h

theorem parseUnchecked_of_parse (stream beyond : List token) (i : Nat) (n : Node) (j : Nat)
    (h : parse stream i = .ok (n, j)) : parseUnchecked stream beyond i = .ok (n, j) := by
  have hp := parseFuel_parseBound stream i
  rw [h] at hp
  exact parse_eq_of_parseFuel _ i _ _
    (((parse_extend_aux stream beyond _).1 i _ hp).1 n j rfl)

theorem parseUnchecked_past_end (stream beyond : List token) (i : Nat) (e : Fault)
    (n : Node) (j : Nat) (h : parse stream i = .error e)
    (hx : parseUnchecked stream beyond i = .ok (n, j)) : stream.length < j := by
  have hp := parseFuel_parseBound stream i
  rw [h] at hp
  have hq := parseFuel_parseBound (stream ++ beyond) i
  have hx2 : parse (stream ++ beyond) i = .ok (n, j) := hx
  rw [hx2] at hq
  have hp2 := parseFuel_mono stream i _ _
    (max (parseBound stream i) (parseBound (stream ++ beyond) i)) (le_max_left _ _) hp
  have hq2 := parseFuel_mono (stream ++ beyond) i _ _
    (max (parseBound stream i) (parseBound (stream ++ beyond) i)) (le_max_right _ _) hq
  exact ((parse_extend_aux stream beyond _).1 i _ hp2).2 e n j rfl hq2

/-- In the model, `parse` stops without a tree exactly when the source reads
`stream[index]` at or past the end. -/
theorem parse_operator_unclosed (stream : List token) (index : Nat) (c : Int)
    (hop : stream[index]? = some (TokenKind.KIND_OP, c))
    (hno : ∀ j v, index < j → stream[j]? ≠ some (TokenKind.KIND_CLOSE, v)) :
    parse stream index = .error .malformedExpression := by
  have hp := parseFuel_parseBound stream index
  have hb : parseBound stream index = 2 * (stream.length - index) + 1 := rfl
  rw [hb, parseFuel_op _ stream index c hop] at hp
  exact (parseChilds_no_close stream _ (index + 1) c [] _
    (fun j v hj => hno j v (by omega)) hp)

theorem parse_at_end (stream : List token) (index : Nat) (h : stream.length ≤ index) :
    parse stream index = .error .malformedExpression := by
  apply parse_eq_of_parseFuel stream index 1
  exact parseFuel_none 0 stream index (List.getElem?_eq_none h)

/-! ## Claims about the parser -/

/-- C5 (refuted as stated): `parse` reads `stream[index]` unchecked and signals
nothing. On the three tokens of `(+ 1` it reads position 3, behind the end;
when a Close token lies there it returns the tree of `(+ 1)` with the cursor
at 4, beyond the end, and on the empty sequence it returns whatever Number
lies behind it. -/
theorem parse_reads_past_end_counterexample :
    (lex "(+ 1").length = 3
    ∧ parseUnchecked (lex "(+ 1") [(TokenKind.KIND_CLOSE, 41)] 0 =
        .ok (Node.mk .NODE_OP 43 [Node.mk .NODE_NUM 1 []], 4)
    ∧ parseUnchecked [] [(TokenKind.KIND_NUM, 7)] 0 = .ok (Node.mk .NODE_NUM 7 [], 1)
    ∧ ¬ (∀ (stream beyond : List token) (index : Nat), stream.length ≤ index →
          ∀ n j, parseUnchecked stream beyond index ≠ .ok (n, j)) := by
  refine ⟨rfl, rfl, rfl, ?_⟩
  intro h
  exact h [] [(TokenKind.KIND_NUM, 7)] 0 (le_refl _) _ _ rfl

/-- C5 (amended): malformed input is not signalled; `parse` reads
`stream[index]` unchecked. A parse that inspects only positions within the
sequence returns its tree and cursor whatever lies behind the sequence.
Whenever `parse` would have to inspect a position at or beyond the end, it
has no defined result: it reads out of bounds, and every tree it may then
return, for any tokens read behind the sequence, comes with a cursor beyond the
end. That is so for every start cursor at or beyond the end, for the tokens
of `(+ 1` from cursor 0, for every sequence with an Operator token at the
cursor and no Close token after it, and for the empty sequence. -/
theorem parse_past_end_undefined :
    (∀ (stream beyond : List token) (index : Nat) (n : Node) (j : Nat),
        parse stream index = .ok (n, j) →
        parseUnchecked stream beyond index = .ok (n, j) ∧ j ≤ stream.length)
    ∧ (∀ (stream beyond : List token) (index : Nat) (e : Fault) (n : Node) (j : Nat),
        parse stream index = .error e →
        parseUnchecked stream beyond index = .ok (n, j) → stream.length < j)
    ∧ (∀ (stream : List token) (index : Nat), stream.length ≤ index →
        parse stream index = .error .malformedExpression)
    ∧ parse (lex "(+ 1") 0 = .error .malformedExpression
    ∧ (∀ (beyond : List token) (n : Node) (j : Nat),
        parseUnchecked (lex "(+ 1") beyond 0 = .ok (n, j) → 3 < j)
    ∧ (∀ (stream : List token) (index : Nat) (c : Int),
        stream[index]? = some (TokenKind.KIND_OP, c) →
        (∀ j v, index < j → stream[j]? ≠ some (TokenKind.KIND_CLOSE, v)) →
        parse stream index = .error .malformedExpression)
    ∧ (∀ (stream : List token) (index : Nat) (c : Int) (n : Node) (j : Nat),
        stream[index]? = some (TokenKind.KIND_OP, c) →
        parse stream index = .ok (n, j) →
        index + 1 < j ∧ ∃ v, stream[j - 1]? = some (TokenKind.KIND_CLOSE, v))
    ∧ parse [] 0 = .error .malformedExpression
    ∧ (∀ (beyond : List token) (n : Node) (j : Nat),
        parseUnchecked [] beyond 0 = .ok (n, j) → 0 < j) := by
  refine ⟨?_, ?_, ?_, rfl, ?_, ?_, ?_, rfl, ?_⟩
  · intro stream beyond index n j h
    exact ⟨parseUnchecked_of_parse stream beyond index n j h, (parse_bounds stream index n j h).2⟩
  · intro stream beyond index e n j h hx
    exact parseUnchecked_past_end stream beyond index e n j h hx
  · intro stream index h
    exact parse_at_end stream index h
  · intro beyond n j hx
    exact parseUnchecked_past_end (lex "(+ 1") beyond 0 .malformedExpression n j rfl hx
  · intro stream index c hop hno
    exact parse_operator_unclosed stream index c hop hno
  · intro stream index c n j hop hok
    have hp := parseFuel_parseBound stream index
    have hb : parseBound stream index = 2 * (stream.length - index) + 1 := rfl
    rw [hb, parseFuel_op _ stream index c hop, hok] at hp
    exact parseChilds_ends_with_close stream _ (index + 1) c [] n j hp
  · intro beyond n j hx
    exact parseUnchecked_past_end [] beyond 0 .malformedExpression n j rfl hx

/-- C7: an Open token in front is transparent: parsing `Open :: ts` from
cursor 0 fails exactly as parsing `ts` from cursor 0 fails, and succeeds
exactly when it succeeds, with the same tree and a final cursor one greater;
the tokens of `(+ 1 2)` and of `+ 1 2)` parse to the same tree, Operator `+`
with children Number 1 and Number 2. -/
theorem parse_open_transparent (ts : List token) (c : Int) :
    parse ((TokenKind.KIND_OPEN, c) :: ts) 0 =
      (match parse ts 0 with
       | .error e => .error e
       | .ok (n, j) => .ok (n, j + 1))
    ∧ parse (lex "(+ 1 2)") 0 =
        .ok (Node.mk .NODE_OP 43 [Node.mk .NODE_NUM 1 [], Node.mk .NODE_NUM 2 []], 5)
    ∧ parse (lex "+ 1 2)") 0 =
        .ok (Node.mk .NODE_OP 43 [Node.mk .NODE_NUM 1 [], Node.mk .NODE_NUM 2 []], 4) := by
  refine ⟨?_, rfl, rfl⟩
  have h1 : parseFuel (parseBound ts 0 + 1) ((TokenKind.KIND_OPEN, c) :: ts) 0 =
      parseFuel (parseBound ts 0) ((TokenKind.KIND_OPEN, c) :: ts) 1 :=
    parseFuel_skip _ _ 0 .KIND_OPEN c (by simp) (by decide) (by decide)
  have h2 := (parse_shift_aux [(TokenKind.KIND_OPEN, c)] ts (parseBound ts 0)).1 0
  have h3 : parseFuel (parseBound ts 0 + 1) ((TokenKind.KIND_OPEN, c) :: ts) 0 =
      Option.map (advance 1) (parseFuel (parseBound ts 0) ts 0) := by
    rw [h1]; exact h2
  rw [parseFuel_parseBound] at h3
  rw [parse_eq_of_parseFuel _ 0 _ _ h3]
  rcases parse ts 0 with e | ⟨n, j⟩
  · rfl
  · simp [advance, Nat.add_comm]

/-! ## The lexer -/

theorem isDigit_iff (c : Char) : c.isDigit = true ↔ 48 ≤ c.toNat ∧ c.toNat ≤ 57 := by
  simp only [Char.isDigit, Char.toNat, Bool.and_eq_true, decide_eq_true_eq, ge_iff_le]
  rw [UInt32.le_def, UInt32.le_def]
  simp [UInt32.toNat]
  rfl

theorem is_op_iff (c : Char) : is_op c = true ↔ c ∈ ['+', '-', '*', '/', '%'] := by
  simp [is_op, or_assoc]

theorem lexChar_eq (c : Char) :
    lexChar c = if c = ' ' then [] else [tokenOfChar c] := by
  have h0 : '0'.toNat = 48 := rfl
  have h9 : '9'.toNat = 57 := rfl
  unfold lexChar tokenOfChar
  rw [h0, h9]
  by_cases hs : c = ' '
  · rw [if_pos hs, if_pos hs]
  · rw [if_neg hs, if_neg hs]
    by_cases hd : c.isDigit = true
    · have hd2 := (isDigit_iff c).1 hd
      rw [if_pos hd, if_pos hd2]
      congr 2
      omega
    · have hd2 : ¬ (48 ≤ c.toNat ∧ c.toNat ≤ 57) := fun h => hd ((isDigit_iff c).2 h)
      rw [if_neg hd, if_neg hd2]
      by_cases ho : is_op c = true
      · rw [if_pos ho, if_pos ((is_op_iff c).1 ho)]
      · rw [if_neg ho, if_neg (fun h => ho ((is_op_iff c).2 h))]
        by_cases hp : c = '('
        · rw [if_pos hp, if_pos hp]
        · rw [if_neg hp, if_neg hp]

theorem lex_foldl (l : List Char) (acc : List token) :
    l.foldl (fun result c => result ++ lexChar c) acc =
      acc ++ (l.filter (fun c => c ≠ ' ')).map tokenOfChar := by
  induction l generalizing acc with
  | nil => simp
  | cons c l ih =>
    rw [List.foldl_cons, ih, lexChar_eq]
    by_cases hs : c = ' '
    · simp [hs]
    · simp [hs]

theorem lex_eq (s : String) : lex s = (nonSpaces s).map tokenOfChar := by
  unfold lex nonSpaces
  rw [lex_foldl]
  simp

/-- C6: `lex s` is the sequence obtained by deleting every space of `s` and
mapping each remaining character, in order, to its one token (digit to Number
with value 0..9, one of `+ - * / %` to Operator carrying it, `(` to Open, any
other character such as `)`, a letter or a tab to Close); the number of tokens
is the number of non-space characters, and `12` lexes to Number 1, Number 2. -/
theorem lex_is_map_of_nonspaces (s : String) :
    lex s = (nonSpaces s).map tokenOfChar
    ∧ (lex s).length = (nonSpaces s).length
    ∧ (∀ c : Char, (tokenOfChar c).1 = TokenKind.KIND_NUM →
        0 ≤ (tokenOfChar c).2 ∧ (tokenOfChar c).2 ≤ 9)
    ∧ lex "12" = [(TokenKind.KIND_NUM, 1), (TokenKind.KIND_NUM, 2)]
    ∧ (lex " )a\t(7+").map Prod.fst =
        [TokenKind.KIND_CLOSE, TokenKind.KIND_CLOSE, TokenKind.KIND_CLOSE,
         TokenKind.KIND_OPEN, TokenKind.KIND_NUM, TokenKind.KIND_OP] := by
  refine ⟨lex_eq s, ?_, ?_, rfl, rfl⟩
  · rw [lex_eq, List.length_map]
  · intro c
    unfold tokenOfChar
    have h0 : '0'.toNat = 48 := rfl
    have h9 : '9'.toNat = 57 := rfl
    simp only [h0, h9]
    split_ifs with h1 h2 h3
    · intro _; constructor
      · simp
      · simp; omega
    · intro h; cases h
    · intro h; cases h
    · intro h; cases h

/-! ## The code generator -/

mutual
theorem gen_eq : ∀ (root : Node) (machineCode : List String),
    gen root machineCode = machineCode ++ Node.code root
  | .mk kind numOrOp childs, machineCode => by
    have h := genChilds_eq childs machineCode 0
    by_cases hk : kind = NodeKind.NODE_OP
    · simp [gen, Node.code, hk, h]
    · simp [gen, Node.code, hk]
theorem genChilds_eq : ∀ (childs : List Node) (machineCode : List String) (args : Nat),
    genChilds childs machineCode args =
      (machineCode ++ Node.codeList childs, args + childs.length)
  | [], machineCode, args => by simp [genChilds, Node.codeList]
  | child :: rest, machineCode, args => by
    have h1 := gen_eq child machineCode
    have h2 := genChilds_eq rest (machineCode ++ Node.code child) (args + 1)
    simp [genChilds, Node.codeList, h1, h2]
    omega
end

/-- C8: `gen root` leaves the prior content of the output sequence as a
prefix and appends exactly `code root`: `PUSH v` for a Number, and for an
Operator the code of its children from left to right followed by its mnemonic
(ADD, SUB, MUL, DIV, MOD for `+ - * / %`) and the child count; on the tree of
`(+ 1 (* 2 3))` this is PUSH 1, PUSH 2, PUSH 3, MUL 2, ADD 2. -/
theorem gen_appends_code (root : Node) (machineCode : List String) :
    gen root machineCode = machineCode ++ Node.code root
    ∧ (opmap ('+'.toNat : Int) = "ADD" ∧ opmap ('-'.toNat : Int) = "SUB" ∧
       opmap ('*'.toNat : Int) = "MUL" ∧ opmap ('/'.toNat : Int) = "DIV" ∧
       opmap ('%'.toNat : Int) = "MOD")
    ∧ (∀ (v : Int) (childs : List Node),
        Node.code (Node.mk .NODE_NUM v childs) = ["PUSH " ++ to_string v])
    ∧ (∀ (c : Int) (childs : List Node),
        Node.code (Node.mk .NODE_OP c childs) =
          (childs.map Node.code).flatten ++ [opmap c ++ " " ++ to_string (childs.length : Int)])
    ∧ (to_string 7 = "7" ∧ to_string 12 = "12" ∧ to_string (-5) = "-5")
    ∧ parse (lex "(+ 1 (* 2 3))") 0 =
        .ok (Node.mk .NODE_OP 43 [Node.mk .NODE_NUM 1 [],
          Node.mk .NODE_OP 42 [Node.mk .NODE_NUM 2 [], Node.mk .NODE_NUM 3 []]], 9)
    ∧ gen (Node.mk .NODE_OP 43 [Node.mk .NODE_NUM 1 [],
          Node.mk .NODE_OP 42 [Node.mk .NODE_NUM 2 [], Node.mk .NODE_NUM 3 []]]) [] =
        ["PUSH 1", "PUSH 2", "PUSH 3", "MUL 2", "ADD 2"] := by
  refine ⟨gen_eq root machineCode, ⟨rfl, rfl, rfl, rfl, rfl⟩, ?_, ?_, ⟨rfl, rfl, rfl⟩, rfl, rfl⟩
  · intro v childs
    simp [Node.code]
  · intro c childs
    have hl : ∀ cs : List Node, Node.codeList cs = (cs.map Node.code).flatten := by
      intro cs
      induction cs with
      | nil => simp [Node.codeList]
      | cons x xs ih => simp [Node.codeList, ih]
    simp [Node.code, hl]

/-! ## The assembler -/

theorem string_mk_eq_iff (l : List Char) (s : String) : (⟨l⟩ : String) = s ↔ l = s.data := by
  constructor
  · intro h; rw [← h]
  · intro h; rw [h]

theorem firstDigitRun_ne_nil (record : String)
    (h : ∃ c ∈ record.toList, c.isDigit = true) : firstDigitRun record ≠ [] := by
  unfold firstDigitRun
  generalize record.toList = l at h
  induction l with
  | nil => obtain ⟨c, hc, _⟩ := h; cases hc
  | cons x xs ih =>
    by_cases hx : x.isDigit = true
    · simp [List.dropWhile, List.takeWhile, hx]
    · have hx2 : x.isDigit = false := by simpa using hx
      simp only [List.dropWhile, hx2, Bool.not_false]
      apply ih
      obtain ⟨c, hc, hd⟩ := h
      rcases List.mem_cons.1 hc with rfl | hc2
      · exact absurd hd hx
      · exact ⟨c, hc2, hd⟩

theorem compileRecord_eq (record : String)
    (hd : ∃ c ∈ record.toList, c.isDigit = true)
    (hfit : (digitsValue (firstDigitRun record) : Int) ≤ INT_MAX) :
    compileRecord record = .ok (assemble record) := by
  have hne := firstDigitRun_ne_nil record hd
  have hstoi : stoi (record.toList.dropWhile (fun c => !c.isDigit)) =
      .ok (digitsValue (firstDigitRun record) : Int) := by
    unfold stoi
    have : List.takeWhile Char.isDigit (record.toList.dropWhile (fun c => !c.isDigit)) =
        firstDigitRun record := rfl
    simp only [this, hne, if_false, not_lt.2 hfit]
  unfold compileRecord
  simp only [hstoi, assemble, mnemonicKind, string_mk_eq_iff]
  split_ifs <;> rfl

theorem compileLoop_eq (machineCode : List String) (result : List MachineOp)
    (h : ∀ r ∈ machineCode, compileRecord r = .ok (assemble r)) :
    compileLoop machineCode result = .ok (result ++ machineCode.map assemble) := by
  induction machineCode generalizing result with
  | nil => simp [compileLoop]
  | cons r rest ih =>
    simp only [compileLoop, h r (List.mem_cons_self _ _)]
    rw [ih _ (fun r2 hr2 => h r2 (List.mem_cons_of_mem _ hr2))]
    simp

/-- C10: on records that each contain a digit and whose first run of digits
fits in `int`, `compile` returns the instructions of the records in the same
order and number: the opcode is Add, Sub, Mul, Div or Mod when the first three
characters are `ADD`, `SUB`, `MUL`, `DIV` or `MOD` and Push otherwise, and the
operand is the decimal value of the first maximal run of digits; so `PUSH -5`
gives Push 5, `ADD 12x3` gives Add 12 and `add 2` gives Push 2. -/
theorem compile_assembles_records (machineCode : List String)
    (h : ∀ r ∈ machineCode, (∃ c ∈ r.toList, c.isDigit = true) ∧
      (digitsValue (firstDigitRun r) : Int) ≤ INT_MAX) :
    compile machineCode = .ok (machineCode.map assemble)
    ∧ (machineCode.map assemble).length = machineCode.length
    ∧ [assemble "PUSH -5", assemble "ADD 12x3", assemble "add 2", assemble "MODULO 007"] =
        [⟨.OP_PUSH, 5⟩, ⟨.OP_ADD, 12⟩, ⟨.OP_PUSH, 2⟩, ⟨.OP_MOD, 7⟩] := by
  refine ⟨?_, by simp, by decide⟩
  unfold compile
  rw [compileLoop_eq machineCode [] (fun r hr => compileRecord_eq r (h r hr).1 (h r hr).2)]
  simp

theorem compile_assembles_records_witness :
    compile ["PUSH -5", "ADD 12x3", "add 2"] =
      .ok (["PUSH -5", "ADD 12x3", "add 2"].map assemble) :=
  (compile_assembles_records ["PUSH -5", "ADD 12x3", "add 2"] (by decide)).1

/-! ## Decimal numerals written by `gen` and read back by `compile` -/

theorem digitsValue_append_singleton (xs : List Char) (d : Char) :
    digitsValue (xs ++ [d]) = 10 * digitsValue xs + (d.toNat - '0'.toNat) := by
  simp [digitsValue, List.foldl_append]

theorem digitChar_spec : ∀ d : Nat, d < 10 →
    (Nat.digitChar d).isDigit = true ∧ (Nat.digitChar d).toNat - '0'.toNat = d := by
  decide

theorem toDigitsCore_spec : ∀ (fuel n : Nat) (acc : List Char), n < fuel →
    ∃ ds, Nat.toDigitsCore 10 fuel n acc = ds ++ acc ∧ ds ≠ [] ∧
      (∀ c ∈ ds, c.isDigit = true) ∧ digitsValue ds = n := by
  intro fuel
  induction fuel with
  | zero => intro n acc h; omega
  | succ fuel ih =>
    intro n acc h
    have hd := digitChar_spec (n % 10) (Nat.mod_lt _ (by decide))
    by_cases hq : n / 10 = 0
    · refine ⟨[Nat.digitChar (n % 10)], ?_, by simp, ?_, ?_⟩
      · simp [Nat.toDigitsCore, hq]
      · intro c hc
        rw [List.mem_singleton.1 hc]; exact hd.1
      · have : digitsValue [Nat.digitChar (n % 10)] =
            (Nat.digitChar (n % 10)).toNat - '0'.toNat := by
          simp [digitsValue]
        rw [this, hd.2]
        omega
    · obtain ⟨ds, h1, _, h3, h4⟩ := ih (n / 10) (Nat.digitChar (n % 10) :: acc) (by omega)
      refine ⟨ds ++ [Nat.digitChar (n % 10)], ?_, by simp, ?_, ?_⟩
      · simp [Nat.toDigitsCore, hq, h1]
      · intro c hc
        rcases List.mem_append.1 hc with hc1 | hc1
        · exact h3 c hc1
        · rw [List.mem_singleton.1 hc1]; exact hd.1
      · rw [digitsValue_append_singleton, h4, hd.2]
        omega

theorem toDigits_spec (n : Nat) :
    Nat.toDigits 10 n ≠ [] ∧ (∀ c ∈ Nat.toDigits 10 n, c.isDigit = true) ∧
      digitsValue (Nat.toDigits 10 n) = n := by
  obtain ⟨ds, h1, h2, h3, h4⟩ := toDigitsCore_spec (n + 1) n [] (Nat.lt_succ_self n)
  have : Nat.toDigits 10 n = ds := by
    unfold Nat.toDigits; rw [h1]; simp
  rw [this]
  exact ⟨h2, h3, h4⟩

theorem to_string_natCast (n : Nat) : (to_string (n : Int)).toList = Nat.toDigits 10 n := rfl

/-- The first run of digits of a record that is a digit-free text followed by
a natural number in decimal is that number. -/
theorem firstDigitRun_numeral (pre : String) (n : Nat)
    (hpre : ∀ c ∈ pre.toList, c.isDigit = false) :
    firstDigitRun (pre ++ to_string (n : Int)) = Nat.toDigits 10 n := by
  obtain ⟨hne, hall, _⟩ := toDigits_spec n
  unfold firstDigitRun
  have hl : (pre ++ to_string (n : Int)).toList = pre.toList ++ Nat.toDigits 10 n := by
    simp [String.toList, String.data_append]
    exact to_string_natCast n
  rw [hl]
  have hdrop : ∀ l : List Char, (∀ c ∈ l, c.isDigit = false) →
      (l ++ Nat.toDigits 10 n).dropWhile (fun c => !c.isDigit) = Nat.toDigits 10 n := by
    intro l
    induction l with
    | nil =>
      intro _
      rcases hds : Nat.toDigits 10 n with _ | ⟨x, xs⟩
      · exact absurd hds hne
      · have hx : x.isDigit = true := hall x (by rw [hds]; exact List.mem_cons_self _ _)
        simp [List.dropWhile, hx]
    | cons y ys ih =>
      intro hy
      have hy1 : y.isDigit = false := hy y (List.mem_cons_self _ _)
      simp only [List.cons_append, List.dropWhile, hy1, Bool.not_false]
      exact ih (fun c hc => hy c (List.mem_cons_of_mem _ hc))
  rw [hdrop pre.toList hpre]
  exact List.takeWhile_eq_self_iff.2 hall

theorem exists_digit_numeral (pre : String) (n : Nat) :
    ∃ c ∈ (pre ++ to_string (n : Int)).toList, c.isDigit = true := by
  obtain ⟨hne, hall, _⟩ := toDigits_spec n
  have hl : (pre ++ to_string (n : Int)).toList = pre.toList ++ Nat.toDigits 10 n := by
    simp [String.toList, String.data_append]
    exact to_string_natCast n
  rcases hds : Nat.toDigits 10 n with _ | ⟨x, xs⟩
  · exact absurd hds hne
  · refine ⟨x, ?_, hall x (by rw [hds]; exact List.mem_cons_self _ _)⟩
    rw [hl, hds]
    simp

/-- A record made of a digit-free text and a number that fits in `int`
assembles to the opcode of the text with that number as operand. -/
theorem compileRecord_numeral (pre : String) (n : Nat)
    (hpre : ∀ c ∈ pre.toList, c.isDigit = false) (hfit : (n : Int) ≤ INT_MAX) :
    compileRecord (pre ++ to_string (n : Int)) =
      .ok ⟨mnemonicKind (pre ++ to_string (n : Int)), (n : Int)⟩ := by
  have hrun := firstDigitRun_numeral pre n hpre
  have hval : digitsValue (firstDigitRun (pre ++ to_string (n : Int))) = n := by
    rw [hrun]; exact (toDigits_spec n).2.2
  rw [compileRecord_eq _ (exists_digit_numeral pre n) (by rw [hval]; exact hfit)]
  simp [assemble, hval]

theorem compileRecord_push (v : Int) (h0 : 0 ≤ v) (hfit : v ≤ INT_MAX) :
    compileRecord ("PUSH " ++ to_string v) = .ok ⟨.OP_PUSH, v⟩ := by
  obtain ⟨n, rfl⟩ := Int.eq_ofNat_of_zero_le h0
  rw [compileRecord_numeral "PUSH " n (by decide) hfit]
  simp [mnemonicKind, String.toList, String.data_append]

theorem compileRecord_op (c : Int) (k : Nat) (hc : c ∈ opChars) (hfit : (k : Int) ≤ INT_MAX) :
    compileRecord (opmap c ++ " " ++ to_string (k : Int)) = .ok ⟨opKindOf c, (k : Int)⟩ := by
  simp only [opChars, List.mem_cons, List.mem_singleton, List.not_mem_nil, or_false] at hc
  rcases hc with rfl | rfl | rfl | rfl | rfl
  · have e : opmap ('+'.toNat : Int) ++ " " = "ADD " := rfl
    rw [e, compileRecord_numeral "ADD " k (by decide) hfit]
    simp [mnemonicKind, String.toList, String.data_append]; rfl
  · have e : opmap ('-'.toNat : Int) ++ " " = "SUB " := rfl
    rw [e, compileRecord_numeral "SUB " k (by decide) hfit]
    simp [mnemonicKind, String.toList, String.data_append]; rfl
  · have e : opmap ('*'.toNat : Int) ++ " " = "MUL " := rfl
    rw [e, compileRecord_numeral "MUL " k (by decide) hfit]
    simp [mnemonicKind, String.toList, String.data_append]; rfl
  · have e : opmap ('/'.toNat : Int) ++ " " = "DIV " := rfl
    rw [e, compileRecord_numeral "DIV " k (by decide) hfit]
    simp [mnemonicKind, String.toList, String.data_append]; rfl
  · have e : opmap ('%'.toNat : Int) ++ " " = "MOD " := rfl
    rw [e, compileRecord_numeral "MOD " k (by decide) hfit]
    simp [mnemonicKind, String.toList, String.data_append]; rfl

theorem compileLoop_append (a b : List String) (result : List MachineOp) :
    compileLoop (a ++ b) result =
      match compileLoop a result with
      | .error e => .error e
      | .ok r => compileLoop b r := by
  induction a generalizing result with
  | nil => rfl
  | cons x xs ih =>
    simp only [List.cons_append, compileLoop]
    cases compileRecord x with
    | error e => rfl
    | ok instr => exact ih _

mutual
theorem compileLoop_code : ∀ (t : Node) (result : List MachineOp),
    t.parseShaped = true → compileLoop (Node.code t) result = .ok (result ++ Node.instrs t)
  | .mk kind numOrOp childs, result, h => by
    by_cases hk : kind = NodeKind.NODE_OP
    · simp only [Node.parseShaped, hk, if_true, Bool.and_eq_true, decide_eq_true_eq] at h
      obtain ⟨⟨hc, hfit⟩, hcs⟩ := h
      have ih := compileLoop_codeList childs result hcs
      simp only [Node.code, Node.instrs, hk, if_true]
      rw [compileLoop_append, ih]
      simp only [compileLoop, compileRecord_op numOrOp childs.length hc hfit]
      simp
    · simp only [Node.parseShaped, hk, if_false, Bool.and_eq_true, decide_eq_true_eq] at h
      have hfit : numOrOp ≤ INT_MAX := le_trans h.2 (by decide)
      simp only [Node.code, Node.instrs, hk, if_false, compileLoop,
        compileRecord_push numOrOp h.1 hfit]
theorem compileLoop_codeList : ∀ (childs : List Node) (result : List MachineOp),
    Node.allParseShaped childs = true →
    compileLoop (Node.codeList childs) result = .ok (result ++ Node.instrsList childs)
  | [], result, _ => by simp [Node.codeList, Node.instrsList, compileLoop]
  | child :: rest, result, h => by
    simp only [Node.allParseShaped, Bool.and_eq_true] at h
    have h1 := compileLoop_code child result h.1
    have h2 := compileLoop_codeList rest (result ++ Node.instrs child) h.2
    simp only [Node.codeList, Node.instrsList]
    rw [compileLoop_append, h1]
    simp only [h2, List.append_assoc]
end

/-- The payload of a token is one the lexer writes: 0..9 in a Number, one of
the five operator characters in an Operator. -/
theorem tokenOfChar_payload (c : Char) :
    ((tokenOfChar c).1 = TokenKind.KIND_NUM → 0 ≤ (tokenOfChar c).2 ∧ (tokenOfChar c).2 ≤ 9) ∧
    ((tokenOfChar c).1 = TokenKind.KIND_OP → (tokenOfChar c).2 ∈ opChars) := by
  have h0 : '0'.toNat = 48 := rfl
  have h9 : '9'.toNat = 57 := rfl
  unfold tokenOfChar
  simp only [h0, h9]
  split_ifs with h1 h2 h3
  · refine ⟨fun _ => ⟨(by simp), (by simp; omega)⟩, fun h => (by cases h)⟩
  · refine ⟨fun h => (by cases h), fun _ => ?_⟩
    simp only [List.mem_cons, List.mem_singleton, List.not_mem_nil, or_false] at h2
    rcases h2 with rfl | rfl | rfl | rfl | rfl <;> decide
  · exact ⟨fun h => (by cases h), fun h => (by cases h)⟩
  · exact ⟨fun h => (by cases h), fun h => (by cases h)⟩

theorem allParseShaped_append (cs : List Node) (child : Node)
    (h1 : Node.allParseShaped cs = true) (h2 : child.parseShaped = true) :
    Node.allParseShaped (cs ++ [child]) = true := by
  induction cs with
  | nil => simp [Node.allParseShaped, h2]
  | cons x xs ih =>
    simp only [Node.allParseShaped, Bool.and_eq_true] at h1
    simp only [List.cons_append, Node.allParseShaped, Bool.and_eq_true]
    exact ⟨h1.1, ih h1.2⟩

theorem parse_shaped_aux (stream : List token) (hlen : (stream.length : Int) ≤ INT_MAX)
    (htok : ∀ k v, (k, v) ∈ stream →
      (k = TokenKind.KIND_NUM → 0 ≤ v ∧ v ≤ 9) ∧ (k = TokenKind.KIND_OP → v ∈ opChars)) :
    ∀ f : Nat,
    (∀ i t j, parseFuel f stream i = some (.ok (t, j)) → t.parseShaped = true) ∧
    (∀ i op cs t j, parseChilds f stream i op cs = some (.ok (t, j)) →
      op ∈ opChars → Node.allParseShaped cs = true → cs.length ≤ i → t.parseShaped = true) := by
  intro f
  induction f with
  | zero =>
    constructor
    · intro i t j h; simp [parseFuel] at h
    · intro i op cs t j h; simp [parseChilds] at h
  | succ f ih =>
    obtain ⟨ihP, ihC⟩ := ih
    constructor
    · intro i t j h
      rcases hs : stream[i]? with _ | ⟨k, v⟩
      · rw [parseFuel_none f stream i hs] at h; cases h
      · have hmem : (k, v) ∈ stream := by
          obtain ⟨hlt, hget⟩ := List.getElem?_eq_some.1 hs
          rw [← hget]
          exact List.getElem_mem _
        by_cases h1 : k = .KIND_NUM
        · subst h1
          rw [parseFuel_num f stream i v hs] at h
          cases h
          have hv := (htok _ _ hmem).1 rfl
          have hne : ¬ NodeKind.NODE_NUM = NodeKind.NODE_OP := by decide
          simp only [Node.parseShaped, hne, if_false, Bool.and_eq_true, decide_eq_true_eq]
          exact hv
        · by_cases h2 : k = .KIND_OP
          · subst h2
            rw [parseFuel_op f stream i v hs] at h
            exact ihC _ _ _ _ _ h ((htok _ _ hmem).2 rfl) rfl (Nat.zero_le _)
          · rw [parseFuel_skip f stream i k v hs h1 h2] at h
            exact ihP _ _ _ h
    · intro i op cs t j h hop hcs hcount
      rcases hs : stream[i]? with _ | ⟨k, v⟩
      · rw [parseChilds_none f stream i op cs hs] at h; cases h
      · have hlt := lt_length_of_getElem? stream i _ hs
        by_cases h1 : k = .KIND_CLOSE
        · subst h1
          rw [parseChilds_close f stream i op cs v hs] at h
          cases h
          simp only [Node.parseShaped, if_true, Bool.and_eq_true, decide_eq_true_eq]
          refine ⟨⟨hop, ?_⟩, hcs⟩
          have : (cs.length : Int) ≤ (stream.length : Int) := by omega
          exact le_trans this hlen
        · rw [parseChilds_child f stream i op cs k v hs h1] at h
          rcases hp : parseFuel f stream i with _ | ⟨e | ⟨child, i1⟩⟩
          · rw [hp] at h; cases h
          · rw [hp] at h; cases h
          · rw [hp] at h
            have hi1 := ((parse_bounds_aux stream f).1 _ _ hp).2 child i1 rfl
            exact ihC _ _ _ _ _ h hop (allParseShaped_append cs child hcs (ihP _ _ _ hp))
              (by simp; omega)

/-- Every tree `parse` returns on lexed input with at most `INT_MAX` tokens has
Numbers 0..9, Operators among the five characters, and child counts that fit
in `int`. -/
theorem parse_lex_parseShaped (code : String) (i j : Nat) (t : Node)
    (hlen : ((lex code).length : Int) ≤ INT_MAX)
    (h : parse (lex code) i = .ok (t, j)) : t.parseShaped = true := by
  have htok : ∀ k v, (k, v) ∈ lex code →
      (k = TokenKind.KIND_NUM → 0 ≤ v ∧ v ≤ 9) ∧ (k = TokenKind.KIND_OP → v ∈ opChars) := by
    intro k v hmem
    rw [lex_eq] at hmem
    obtain ⟨c, _, hc⟩ := List.mem_map.1 hmem
    have hp := tokenOfChar_payload c
    rw [hc] at hp
    exact hp
  have hp := parseFuel_parseBound (lex code) i
  rw [h] at hp
  exact (parse_shaped_aux (lex code) hlen htok _).1 i t j hp

/-- C9: for a tree whose Numbers hold 0..9 and whose Operators carry one of
`+ - * / %` (child counts fitting in `int`), `compile` applied to the records
`gen` emits into an empty accumulator yields one instruction per node in
post-order: Push with the value for a Number, and Add/Sub/Mul/Div/Mod with
operand `k` for an Operator with exactly `k` children; an instruction with
operand `k` makes the machine pop exactly `k` values. Every tree `parse`
returns on the tokens of a line of at most `INT_MAX` tokens is such a tree. -/
theorem compile_gen_postorder (t : Node) (h : t.parseShaped = true) :
    compile (gen t []) = .ok (Node.instrs t)
    ∧ (∀ (v : Int) (childs : List Node),
        Node.instrs (Node.mk .NODE_NUM v childs) = [⟨.OP_PUSH, v⟩])
    ∧ (∀ (c : Int) (childs : List Node),
        Node.instrs (Node.mk .NODE_OP c childs) =
          (childs.map Node.instrs).flatten ++ [⟨opKindOf c, (childs.length : Int)⟩])
    ∧ (opKindOf ('+'.toNat : Int) = .OP_ADD ∧ opKindOf ('-'.toNat : Int) = .OP_SUB ∧
       opKindOf ('*'.toNat : Int) = .OP_MUL ∧ opKindOf ('/'.toNat : Int) = .OP_DIV ∧
       opKindOf ('%'.toNat : Int) = .OP_MOD)
    ∧ (∀ (k : Nat) (operate : List Int → Except Fault Int) (vs below : List Int),
        vs.length = k →
        handleStack (k : Int) operate (vs.reverse ++ below) [] =
          (match operate vs with
           | .error e => .error e
           | .ok r => .ok (r :: below, vs)))
    ∧ (∀ (code : String) (i j : Nat) (p : Node), ((lex code).length : Int) ≤ INT_MAX →
        parse (lex code) i = .ok (p, j) → p.parseShaped = true) := by
  refine ⟨?_, ?_, ?_, ⟨rfl, rfl, rfl, rfl, rfl⟩, ?_, parse_lex_parseShaped⟩
  rotate_right
  · intro k operate vs below hk
    subst hk
    simp only [handleStack, Int.toNat_ofNat, popOperands_reverse]
  · rw [gen_eq]
    have := compileLoop_code t [] h
    simpa [compile] using this
  · intro v childs
    simp [Node.instrs]
  · intro c childs
    have hl : ∀ cs : List Node, Node.instrsList cs = (cs.map Node.instrs).flatten := by
      intro cs
      induction cs with
      | nil => simp [Node.instrsList]
      | cons x xs ih => simp [Node.instrsList, ih]
    simp [Node.instrs, hl]

theorem compile_gen_postorder_witness :
    compile (gen (Node.mk .NODE_OP 43 [Node.mk .NODE_NUM 1 [],
        Node.mk .NODE_OP 42 [Node.mk .NODE_NUM 2 [], Node.mk .NODE_NUM 3 []]]) []) =
      .ok [⟨.OP_PUSH, 1⟩, ⟨.OP_PUSH, 2⟩, ⟨.OP_PUSH, 3⟩, ⟨.OP_MUL, 2⟩, ⟨.OP_ADD, 2⟩] :=
  (compile_gen_postorder (Node.mk .NODE_OP 43 [Node.mk .NODE_NUM 1 [],
    Node.mk .NODE_OP 42 [Node.mk .NODE_NUM 2 [], Node.mk .NODE_NUM 3 []]]) rfl).1

/-! ## Evaluation of the code of an expression -/

theorem wrapInt_of_inRange (x : Int) (h : InIntRange x) : wrapInt x = x := by
  unfold InIntRange INT_MIN INT_MAX at h
  unfold wrapInt
  rw [Int.emod_eq_of_lt (by omega) (by omega)]
  omega

theorem intOp_opKindOf (c : Int) (hc : c ∈ opChars) (a b : Int)
    (h : InIntRange (applyOp c a b)) : intOp (opKindOf c) a b = applyOp c a b := by
  simp only [opChars, List.mem_cons, List.mem_singleton, List.not_mem_nil, or_false] at hc
  have hw := wrapInt_of_inRange _ h
  rcases hc with rfl | rfl | rfl | rfl | rfl <;> exact hw

theorem opKindOf_isArith (c : Int) (hc : c ∈ opChars) : (opKindOf c).isArith = true := by
  simp only [opChars, List.mem_cons, List.mem_singleton, List.not_mem_nil, or_false] at hc
  rcases hc with rfl | rfl | rfl | rfl | rfl <;> rfl

theorem opKindOf_divides (c : Int) (hc : c ∈ opChars) :
    (opKindOf c).divides = isDivChar c := by
  simp only [opChars, List.mem_cons, List.mem_singleton, List.not_mem_nil, or_false] at hc
  rcases hc with rfl | rfl | rfl | rfl | rfl <;> rfl

theorem foldSafe_spec (c : Int) (hc : c ∈ opChars) : ∀ (vs : List Int) (acc : Int),
    InIntRange acc → foldSafe c acc vs = true →
    vs.foldl (intOp (opKindOf c)) acc = vs.foldl (applyOp c) acc
    ∧ InIntRange (vs.foldl (applyOp c) acc)
    ∧ (isDivChar c = true → (0 : Int) ∉ vs) := by
  intro vs
  induction vs with
  | nil => intro acc ha _; exact ⟨rfl, ha, fun _ h => by cases h⟩
  | cons v vs ih =>
    intro acc _ h
    simp only [foldSafe, Bool.and_eq_true, Bool.or_eq_true, Bool.not_eq_true',
      decide_eq_true_eq] at h
    obtain ⟨⟨hz, hr⟩, hrest⟩ := h
    obtain ⟨h1, h2, h3⟩ := ih (applyOp c acc v) hr hrest
    refine ⟨?_, h2, ?_⟩
    · simp only [List.foldl_cons, intOp_opKindOf c hc acc v hr, h1]
    · intro hd hmem
      rcases List.mem_cons.1 hmem with h0 | h0
      · rcases hz with hz | hz
        · rw [hd] at hz; cases hz
        · exact hz h0.symm
      · exact h3 hd h0

theorem values_length : ∀ childs : List Node, (Node.values childs).length = childs.length
  | [] => rfl
  | _ :: rest => by simp [Node.values, values_length rest]

theorem evalLoop_append_single (a : List MachineOp) (op : MachineOp) :
    ∀ (rest : List MachineOp), (a ++ [op]) ++ rest = a ++ (op :: rest) := by
  intro rest; simp

theorem stepsDefined_of_foldSafe (c : Int) (hc : c ∈ opChars) (hd : isDivChar c = true) :
    ∀ (vs : List Int) (acc : Int), InIntRange acc → foldSafe c acc vs = true →
      foldModDefined c acc vs = true → stepsDefined (opKindOf c) acc vs = true := by
  intro vs
  induction vs with
  | nil => intro acc _ _ _; rfl
  | cons v vs ih =>
    intro acc _ h hm
    simp only [foldSafe, Bool.and_eq_true, Bool.or_eq_true, Bool.not_eq_true',
      decide_eq_true_eq] at h
    obtain ⟨⟨hz, hr⟩, hrest⟩ := h
    simp only [foldModDefined, Bool.and_eq_true] at hm
    obtain ⟨hm1, hm2⟩ := hm
    have hv0 : v ≠ 0 := by
      rcases hz with hz | hz
      · rw [hd] at hz; cases hz
      · exact hz
    have hpair : ¬ (acc = INT_MIN ∧ v = -1) := by
      rintro ⟨rfl, rfl⟩
      simp only [isDivChar, Bool.or_eq_true, decide_eq_true_eq] at hd
      rcases hd with rfl | rfl
      · revert hr; unfold InIntRange; decide
      · revert hm1; decide
    simp only [stepsDefined, Bool.and_eq_true]
    refine ⟨(divisionDefined_iff acc v).2 ⟨hv0, hpair⟩, ?_⟩
    rw [intOp_opKindOf c hc acc v hr]
    exact ih _ hr hrest hm2

mutual
/-- In a well-formed expression that is safe to evaluate the machine computes
the value of the reference evaluator, and it is an `int`. -/
theorem machineValue_of_safe : ∀ (t : Node), t.wellFormed = true → t.safe = true →
    InIntRange (Node.value t) ∧ Node.machineValue t = Node.value t
  | .mk .NODE_OP numOrOp childs, hwf, hsafe => by
    simp only [Node.wellFormed, if_true, Bool.and_eq_true, decide_eq_true_eq,
      Bool.not_eq_true'] at hwf
    obtain ⟨⟨hc, hne⟩, hall⟩ := hwf
    simp only [Node.safe, if_true, Bool.and_eq_true, decide_eq_true_eq] at hsafe
    obtain ⟨⟨hsafes, _⟩, hfold⟩ := hsafe
    obtain ⟨hrange, hmv⟩ := machineValues_of_safe childs hall hsafes
    have hlen := values_length childs
    rcases hvs : Node.values childs with _ | ⟨v, vs⟩
    · rw [hvs] at hlen
      cases childs with
      | nil => simp at hne
      | cons _ _ => simp at hlen
    · rw [hvs] at hfold hrange
      have hv : InIntRange v := hrange v (List.mem_cons_self _ _)
      obtain ⟨h1, h2, _⟩ := foldSafe_spec numOrOp hc vs v hv hfold
      have hval : Node.value (Node.mk .NODE_OP numOrOp childs) =
          vs.foldl (applyOp numOrOp) v := by
        simp [Node.value, hvs]
      refine ⟨by rw [hval]; exact h2, ?_⟩
      rw [hval]
      simp only [Node.machineValue, if_true, hmv, hvs, foldOperands, h1]
  | .mk .NODE_NUM numOrOp childs, hwf, _ => by
    have hne : ¬ NodeKind.NODE_NUM = NodeKind.NODE_OP := by decide
    simp only [Node.wellFormed, hne, if_false, Bool.and_eq_true, decide_eq_true_eq] at hwf
    have hval : Node.value (Node.mk .NODE_NUM numOrOp childs) = numOrOp := by
      simp [Node.value]
    refine ⟨?_, ?_⟩
    · rw [hval]
      unfold InIntRange INT_MIN INT_MAX
      have := hwf.1
      omega
    · rw [hval]
      simp [Node.machineValue]
theorem machineValues_of_safe : ∀ (childs : List Node), Node.allWellFormed childs = true →
    Node.allSafe childs = true →
    (∀ v ∈ Node.values childs, InIntRange v) ∧ Node.machineValues childs = Node.values childs
  | [], _, _ => by
    refine ⟨fun v hv => (by cases hv), ?_⟩
    simp [Node.machineValues, Node.values]
  | child :: more, hwf, hsafe => by
    simp only [Node.allWellFormed, Bool.and_eq_true] at hwf
    simp only [Node.allSafe, Bool.and_eq_true] at hsafe
    obtain ⟨hr1, he1⟩ := machineValue_of_safe child hwf.1 hsafe.1
    obtain ⟨hr2, he2⟩ := machineValues_of_safe more hwf.2 hsafe.2
    refine ⟨?_, ?_⟩
    · intro v hv
      simp only [Node.values, List.mem_cons] at hv
      rcases hv with rfl | hv
      · exact hr1
      · exact hr2 v hv
    · simp only [Node.machineValues, Node.values, he1, he2]
end

mutual
/-- In a well-formed expression that is safe to evaluate and takes no
remainder of `INT_MIN` by `-1`, every division has a defined result on the
machine. -/
theorem divisionsDefined_of_safe : ∀ (t : Node), t.wellFormed = true → t.safe = true →
    t.remaindersDefined = true → t.divisionsDefined = true
  | .mk .NODE_OP numOrOp childs, hwf, hsafe, hrem => by
    have hwf0 := hwf
    simp only [Node.wellFormed, if_true, Bool.and_eq_true, decide_eq_true_eq,
      Bool.not_eq_true'] at hwf
    obtain ⟨⟨hc, hne⟩, hall⟩ := hwf
    simp only [Node.safe, if_true, Bool.and_eq_true, decide_eq_true_eq] at hsafe
    obtain ⟨⟨hsafes, _⟩, hfold⟩ := hsafe
    simp only [Node.remaindersDefined, if_true, Bool.and_eq_true] at hrem
    obtain ⟨hrems, hmod⟩ := hrem
    obtain ⟨hrange, hmv⟩ := machineValues_of_safe childs hall hsafes
    have ih := allDivisionsDefined_of_safe childs hall hsafes hrems
    simp only [Node.divisionsDefined, if_true, Bool.and_eq_true, Bool.or_eq_true,
      Bool.not_eq_true']
    refine ⟨ih, ?_⟩
    by_cases hd : isDivChar numOrOp = true
    · right
      rw [hmv]
      rcases hvs : Node.values childs with _ | ⟨v, vs⟩
      · rfl
      · rw [hvs] at hfold hrange hmod
        exact stepsDefined_of_foldSafe numOrOp hc hd vs v
          (hrange v (List.mem_cons_self _ _)) hfold hmod
    · left
      simpa using hd
  | .mk .NODE_NUM numOrOp childs, _, _, _ => by
    simp [Node.divisionsDefined]
theorem allDivisionsDefined_of_safe : ∀ (childs : List Node),
    Node.allWellFormed childs = true → Node.allSafe childs = true →
    Node.allRemaindersDefined childs = true → Node.allDivisionsDefined childs = true
  | [], _, _, _ => rfl
  | child :: more, hwf, hsafe, hrem => by
    simp only [Node.allWellFormed, Bool.and_eq_true] at hwf
    simp only [Node.allSafe, Bool.and_eq_true] at hsafe
    simp only [Node.allRemaindersDefined, Bool.and_eq_true] at hrem
    simp only [Node.allDivisionsDefined, Bool.and_eq_true]
    exact ⟨divisionsDefined_of_safe child hwf.1 hsafe.1 hrem.1,
      allDivisionsDefined_of_safe more hwf.2 hsafe.2 hrem.2⟩
end

/-! ## Parsing the text of an expression -/

theorem getElem?_of_drop_eq_cons {α : Type} (stream : List α) (i : Nat) (x : α) (rest : List α)
    (h : stream.drop i = x :: rest) : stream[i]? = some x ∧ stream.drop (i + 1) = rest := by
  constructor
  · rw [← List.head?_drop, h]; rfl
  · have : stream.drop (i + 1) = (stream.drop i).drop 1 := by
      rw [List.drop_drop]
    rw [this, h]; rfl

theorem drop_add_of_drop_eq_append {α : Type} (stream : List α) (i : Nat) (a b : List α)
    (h : stream.drop i = a ++ b) : stream.drop (i + a.length) = b := by
  have : stream.drop (i + a.length) = (stream.drop i).drop a.length := by
    rw [List.drop_drop]
  rw [this, h, List.drop_left]

theorem tokenOfChar_digit (d : Int) (h0 : 0 ≤ d) (h9 : d ≤ 9) :
    tokenOfChar (Char.ofNat (d.toNat + '0'.toNat)) = (TokenKind.KIND_NUM, d) := by
  obtain ⟨n, rfl⟩ := Int.eq_ofNat_of_zero_le h0
  have hn : n ≤ 9 := by omega
  simp only [Int.toNat_ofNat]
  interval_cases n <;> rfl

theorem tokenOfChar_op (c : Int) (hc : c ∈ opChars) :
    tokenOfChar (Char.ofNat c.toNat) = (TokenKind.KIND_OP, c) := by
  simp only [opChars, List.mem_cons, List.mem_singleton, List.not_mem_nil, or_false] at hc
  rcases hc with rfl | rfl | rfl | rfl | rfl <;> rfl

theorem chars_head (t : Node) (h : t.wellFormed = true) :
    ∃ k v l, (Node.chars t).map tokenOfChar = (k, v) :: l ∧ k ≠ TokenKind.KIND_CLOSE := by
  rcases t with ⟨kind, numOrOp, childs⟩
  cases kind with
  | NODE_OP =>
    refine ⟨TokenKind.KIND_OPEN, 40,
      ((Char.ofNat numOrOp.toNat :: (Node.charsList childs ++ [')'])).map tokenOfChar),
      ?_, by decide⟩
    simp only [Node.chars, if_true, List.cons_append, List.map_cons, List.nil_append]
    rfl
  | NODE_NUM =>
    have hne : ¬ NodeKind.NODE_NUM = NodeKind.NODE_OP := by decide
    simp only [Node.wellFormed, hne, if_false, Bool.and_eq_true, decide_eq_true_eq] at h
    refine ⟨TokenKind.KIND_NUM, numOrOp, [], ?_, by decide⟩
    simp only [Node.chars, hne, if_false, List.map_cons, List.map_nil,
      tokenOfChar_digit numOrOp h.1.1 h.1.2]

mutual
theorem parseFuel_chars : ∀ (t : Node), t.wellFormed = true →
    ∀ (stream : List token) (i : Nat) (post : List token),
      stream.drop i = (Node.chars t).map tokenOfChar ++ post →
      ∃ f, parseFuel f stream i = some (.ok (t, i + (Node.chars t).length))
  | .mk .NODE_OP numOrOp childs, hwf, stream, i, post, hdrop => by
    simp only [Node.wellFormed, if_true, Bool.and_eq_true, decide_eq_true_eq,
      Bool.not_eq_true'] at hwf
    obtain ⟨⟨hc, _⟩, hall⟩ := hwf
    have hchars : (Node.chars (Node.mk .NODE_OP numOrOp childs)).map tokenOfChar ++ post =
        (TokenKind.KIND_OPEN, 40) :: (TokenKind.KIND_OP, numOrOp) ::
          ((Node.charsList childs).map tokenOfChar ++ (TokenKind.KIND_CLOSE, 41) :: post) := by
      simp only [Node.chars, if_true, List.cons_append, List.map_cons, List.map_append,
        List.map_nil, List.append_assoc, List.nil_append, tokenOfChar_op numOrOp hc]
      rfl
    rw [hchars] at hdrop
    obtain ⟨hg0, hd1⟩ := getElem?_of_drop_eq_cons stream i _ _ hdrop
    obtain ⟨hg1, hd2⟩ := getElem?_of_drop_eq_cons stream (i + 1) _ _ hd1
    obtain ⟨f, hf⟩ := parseChilds_charsList childs hall stream (i + 1 + 1) post numOrOp [] 41 hd2
    refine ⟨f + 1 + 1, ?_⟩
    rw [parseFuel_skip (f + 1) stream i .KIND_OPEN 40 hg0 (by decide) (by decide),
      parseFuel_op f stream (i + 1) numOrOp hg1, hf]
    simp only [List.nil_append, Node.chars, if_true, List.cons_append, List.length_cons,
      List.length_append, List.length_nil]
    congr 3
    omega
  | .mk .NODE_NUM numOrOp childs, hwf, stream, i, post, hdrop => by
    have hne : ¬ NodeKind.NODE_NUM = NodeKind.NODE_OP := by decide
    simp only [Node.wellFormed, hne, if_false, Bool.and_eq_true, decide_eq_true_eq,
      List.isEmpty_iff] at hwf
    obtain ⟨⟨h0, h9⟩, hnil⟩ := hwf
    subst hnil
    simp only [Node.chars, hne, if_false, List.map_cons, List.map_nil,
      tokenOfChar_digit numOrOp h0 h9, List.singleton_append] at hdrop
    obtain ⟨hg0, _⟩ := getElem?_of_drop_eq_cons stream i _ _ hdrop
    refine ⟨1, ?_⟩
    rw [parseFuel_num 0 stream i numOrOp hg0]
    simp [Node.chars]
theorem parseChilds_charsList : ∀ (childs : List Node), Node.allWellFormed childs = true →
    ∀ (stream : List token) (i : Nat) (post : List token) (op : Int) (acc : List Node)
      (v : Int),
      stream.drop i =
        (Node.charsList childs).map tokenOfChar ++ (TokenKind.KIND_CLOSE, v) :: post →
      ∃ f, parseChilds f stream i op acc =
        some (.ok (Node.mk .NODE_OP op (acc ++ childs), i + (Node.charsList childs).length + 1))
  | [], _, stream, i, post, op, acc, v, hdrop => by
    simp only [Node.charsList, List.map_nil, List.nil_append] at hdrop
    obtain ⟨hg0, _⟩ := getElem?_of_drop_eq_cons stream i _ _ hdrop
    refine ⟨1, ?_⟩
    rw [parseChilds_close 0 stream i op acc v hg0]
    simp [Node.charsList]
  | child :: rest, hwf, stream, i, post, op, acc, v, hdrop => by
    simp only [Node.allWellFormed, Bool.and_eq_true] at hwf
    simp only [Node.charsList, List.map_append, List.append_assoc] at hdrop
    obtain ⟨f1, hf1⟩ := parseFuel_chars child hwf.1 stream i _ hdrop
    have hd2 := drop_add_of_drop_eq_append stream i _ _ hdrop
    rw [List.length_map] at hd2
    obtain ⟨f2, hf2⟩ := parseChilds_charsList rest hwf.2 stream (i + (Node.chars child).length)
      post op (acc ++ [child]) v hd2
    obtain ⟨k, w, l, hhead, hk⟩ := chars_head child hwf.1
    rw [hhead] at hdrop
    obtain ⟨hg0, _⟩ := getElem?_of_drop_eq_cons stream i _ _ hdrop
    refine ⟨max f1 f2 + 1, ?_⟩
    rw [parseChilds_child (max f1 f2) stream i op acc k w hg0 hk,
      parseFuel_mono stream i _ f1 (max f1 f2) (le_max_left _ _) hf1]
    simp only
    rw [parseChilds_mono stream _ op _ _ f2 (max f1 f2) (le_max_right _ _) hf2]
    simp only [Node.charsList, List.length_append, List.append_assoc, List.singleton_append]
    congr 3
    omega
end

/-! ## The whole pipeline on a well-formed expression -/

mutual
theorem parseShaped_of_wellFormed : ∀ (t : Node), t.wellFormed = true → t.safe = true →
    t.parseShaped = true
  | .mk .NODE_OP numOrOp childs, hwf, hsafe => by
    simp only [Node.wellFormed, if_true, Bool.and_eq_true, decide_eq_true_eq,
      Bool.not_eq_true'] at hwf
    simp only [Node.safe, if_true, Bool.and_eq_true, decide_eq_true_eq] at hsafe
    have ih := allParseShaped_of_wellFormed childs hwf.2 hsafe.1.1
    simp only [Node.parseShaped, if_true, Bool.and_eq_true, decide_eq_true_eq]
    exact ⟨⟨hwf.1.1, hsafe.1.2⟩, ih⟩
  | .mk .NODE_NUM numOrOp childs, hwf, _ => by
    have hne : ¬ NodeKind.NODE_NUM = NodeKind.NODE_OP := by decide
    simp only [Node.wellFormed, hne, if_false, Bool.and_eq_true, decide_eq_true_eq] at hwf
    simp only [Node.parseShaped, hne, if_false, Bool.and_eq_true, decide_eq_true_eq]
    exact hwf.1
theorem allParseShaped_of_wellFormed : ∀ (childs : List Node),
    Node.allWellFormed childs = true → Node.allSafe childs = true →
    Node.allParseShaped childs = true
  | [], _, _ => rfl
  | child :: rest, hwf, hsafe => by
    simp only [Node.allWellFormed, Bool.and_eq_true] at hwf
    simp only [Node.allSafe, Bool.and_eq_true] at hsafe
    simp only [Node.allParseShaped, Bool.and_eq_true]
    exact ⟨parseShaped_of_wellFormed child hwf.1 hsafe.1,
      allParseShaped_of_wellFormed rest hwf.2 hsafe.2⟩
end

/-- The tokens of the text of a well-formed expression parse, from cursor 0,
to the expression, with the cursor at the end. -/
theorem parse_lex_text (t : Node) (code : String) (hwf : t.wellFormed = true)
    (htext : nonSpaces code = Node.chars t) :
    parse (lex code) 0 = .ok (t, (lex code).length) := by
  have hlex : lex code = (Node.chars t).map tokenOfChar := by rw [lex_eq, htext]
  obtain ⟨f, hf⟩ := parseFuel_chars t hwf (lex code) 0 [] (by simp [hlex])
  rw [parse_eq_of_parseFuel _ 0 f _ hf, hlex]
  simp

/-! ## Evaluation of the code of an expression on the machine's own values -/

theorem machineValues_length : ∀ childs : List Node,
    (Node.machineValues childs).length = childs.length
  | [] => rfl
  | _ :: rest => by simp [Node.machineValues, machineValues_length rest]

mutual
/-- The code of a well-formed expression, run in front of any remaining code
on any stack, pushes the machine value of the expression when every division
has a defined result, and stops with `undefinedDivision` otherwise. -/
theorem evalLoop_instrs_cases : ∀ (t : Node), t.wellFormed = true →
    ∀ (rest : List MachineOp) (stack : List Int),
      evalLoop (Node.instrs t ++ rest) stack [] =
        if t.divisionsDefined = true then evalLoop rest (Node.machineValue t :: stack) []
        else .error .undefinedDivision
  | .mk .NODE_OP numOrOp childs, hwf, rest, stack => by
    simp only [Node.wellFormed, if_true, Bool.and_eq_true, decide_eq_true_eq,
      Bool.not_eq_true'] at hwf
    obtain ⟨⟨hc, hne⟩, hall⟩ := hwf
    have hrun := evalLoop_instrsList_cases childs hall (⟨opKindOf numOrOp,
      (childs.length : Int)⟩ :: rest) stack
    have hlen := machineValues_length childs
    simp only [Node.instrs, if_true]
    rw [evalLoop_append_single, hrun]
    by_cases hcs : Node.allDivisionsDefined childs = true
    · rw [if_pos hcs, evalLoop_cons]
      have hstep := evalStep_arith (opKindOf numOrOp) (opKindOf_isArith numOrOp hc)
        (Node.machineValues childs) stack
      rw [hlen] at hstep
      rw [hstep]
      rcases hvs : Node.machineValues childs with _ | ⟨v, vs⟩
      · rw [hvs] at hlen
        cases childs with
        | nil => simp at hne
        | cons _ _ => simp at hlen
      · rw [operateOf_cons _ (opKindOf_isArith numOrOp hc), opKindOf_divides numOrOp hc]
        by_cases hz : isDivChar numOrOp = true ∧ stepsDefined (opKindOf numOrOp) v vs = false
        · have hnz : Node.divisionsDefined (Node.mk .NODE_OP numOrOp childs) = false := by
            simp [Node.divisionsDefined, hcs, hvs, hz.1, hz.2, operandsDefined]
          simp [hz, hnz]
        · have hnz : Node.divisionsDefined (Node.mk .NODE_OP numOrOp childs) = true := by
            simp only [Node.divisionsDefined, if_true, hcs, hvs, operandsDefined, Bool.true_and,
              Bool.or_eq_true, Bool.not_eq_true']
            by_cases hd : isDivChar numOrOp = true
            · right
              cases hs : stepsDefined (opKindOf numOrOp) v vs
              · exact absurd ⟨hd, hs⟩ hz
              · rfl
            · exact Or.inl (by simpa using hd)
          have hval : Node.machineValue (Node.mk .NODE_OP numOrOp childs) =
              foldOperands (opKindOf numOrOp) (v :: vs) := by
            simp [Node.machineValue, hvs]
          simp only [hz, if_false, hnz, if_true, hval]
    · have hnz : Node.divisionsDefined (Node.mk .NODE_OP numOrOp childs) = false := by
        simp [Node.divisionsDefined, hcs]
      rw [if_neg hcs]
      simp [hnz]
  | .mk .NODE_NUM numOrOp childs, _, rest, stack => by
    have hne : ¬ NodeKind.NODE_NUM = NodeKind.NODE_OP := by decide
    simp only [Node.divisionsDefined, Node.machineValue, Node.instrs, hne, if_false, if_true]
    rfl
theorem evalLoop_instrsList_cases : ∀ (childs : List Node), Node.allWellFormed childs = true →
    ∀ (rest : List MachineOp) (stack : List Int),
      evalLoop (Node.instrsList childs ++ rest) stack [] =
        if Node.allDivisionsDefined childs = true then
          evalLoop rest ((Node.machineValues childs).reverse ++ stack) []
        else .error .undefinedDivision
  | [], _, rest, stack => by
    simp [Node.instrsList, Node.machineValues, Node.allDivisionsDefined]
  | child :: more, hwf, rest, stack => by
    simp only [Node.allWellFormed, Bool.and_eq_true] at hwf
    have h1 := evalLoop_instrs_cases child hwf.1 (Node.instrsList more ++ rest) stack
    have h2 := evalLoop_instrsList_cases more hwf.2 rest (Node.machineValue child :: stack)
    simp only [Node.instrsList, List.append_assoc, h1]
    by_cases hc : child.divisionsDefined = true
    · rw [if_pos hc, h2]
      by_cases hm : Node.allDivisionsDefined more = true
      · simp [Node.allDivisionsDefined, hc, hm, Node.machineValues]
      · simp [Node.allDivisionsDefined, hc, hm]
    · simp [Node.allDivisionsDefined, hc]
end

/-! ## When `compile` accepts the records of `gen` -/

theorem compileRecord_fault (record : String) (e : Fault)
    (h : compileRecord record = .error e) : e = .invalidOperand := by
  unfold compileRecord stoi at h
  simp only at h
  split_ifs at h <;> cases h <;> rfl

theorem compileRecord_numeral_large (pre : String) (n : Nat)
    (hpre : ∀ c ∈ pre.toList, c.isDigit = false) (hbig : INT_MAX < (n : Int)) :
    compileRecord (pre ++ to_string (n : Int)) = .error .invalidOperand := by
  have hrun := firstDigitRun_numeral pre n hpre
  obtain ⟨hne, _, hval⟩ := toDigits_spec n
  have hstoi : stoi ((pre ++ to_string (n : Int)).toList.dropWhile (fun c => !c.isDigit)) =
      .error .invalidOperand := by
    unfold stoi
    have : List.takeWhile Char.isDigit
        ((pre ++ to_string (n : Int)).toList.dropWhile (fun c => !c.isDigit)) =
        Nat.toDigits 10 n := hrun
    simp only [this, hne, if_false, hval, hbig, if_true]
  unfold compileRecord
  simp only [hstoi]

theorem compileLoop_fault : ∀ (machineCode : List String) (result : List MachineOp) (e : Fault),
    compileLoop machineCode result = .error e → e = .invalidOperand
  | [], _, _, h => by simp [compileLoop] at h
  | code :: rest, result, e, h => by
    simp only [compileLoop] at h
    rcases hc : compileRecord code with e1 | instr
    · rw [hc] at h
      have he : e1 = e := by cases h; rfl
      rw [← he]
      exact compileRecord_fault code e1 hc
    · rw [hc] at h
      exact compileLoop_fault rest _ e h

mutual
theorem parseShaped_of_compileLoop : ∀ (t : Node) (result r : List MachineOp),
    t.wellFormed = true → compileLoop (Node.code t) result = .ok r → t.parseShaped = true
  | .mk .NODE_OP numOrOp childs, result, r, hwf, h => by
    simp only [Node.wellFormed, if_true, Bool.and_eq_true, decide_eq_true_eq,
      Bool.not_eq_true'] at hwf
    obtain ⟨⟨hc, _⟩, hall⟩ := hwf
    simp only [Node.code, if_true] at h
    rw [compileLoop_append] at h
    rcases h1 : compileLoop (Node.codeList childs) result with e | r1
    · rw [h1] at h; cases h
    · rw [h1] at h
      have ih := allParseShaped_of_compileLoop childs result r1 hall h1
      have hfit : (childs.length : Int) ≤ INT_MAX := by
        by_contra hbig
        have hbig2 : INT_MAX < (childs.length : Int) := not_le.1 hbig
        simp only [opChars, List.mem_cons, List.mem_singleton, List.not_mem_nil,
          or_false] at hc
        have herr : compileRecord (opmap numOrOp ++ " " ++ to_string (childs.length : Int)) =
            .error .invalidOperand := by
          rcases hc with rfl | rfl | rfl | rfl | rfl
          · exact compileRecord_numeral_large "ADD " _ (by decide) hbig2
          · exact compileRecord_numeral_large "SUB " _ (by decide) hbig2
          · exact compileRecord_numeral_large "MUL " _ (by decide) hbig2
          · exact compileRecord_numeral_large "DIV " _ (by decide) hbig2
          · exact compileRecord_numeral_large "MOD " _ (by decide) hbig2
        simp only [compileLoop, herr] at h
        cases h
      simp only [Node.parseShaped, if_true, Bool.and_eq_true, decide_eq_true_eq]
      exact ⟨⟨hc, hfit⟩, ih⟩
  | .mk .NODE_NUM numOrOp childs, _, _, hwf, _ => by
    have hne : ¬ NodeKind.NODE_NUM = NodeKind.NODE_OP := by decide
    simp only [Node.wellFormed, hne, if_false, Bool.and_eq_true, decide_eq_true_eq] at hwf
    simp only [Node.parseShaped, hne, if_false, Bool.and_eq_true, decide_eq_true_eq]
    exact hwf.1
theorem allParseShaped_of_compileLoop : ∀ (childs : List Node) (result r : List MachineOp),
    Node.allWellFormed childs = true → compileLoop (Node.codeList childs) result = .ok r →
    Node.allParseShaped childs = true
  | [], _, _, _, _ => rfl
  | child :: rest, result, r, hwf, h => by
    simp only [Node.allWellFormed, Bool.and_eq_true] at hwf
    simp only [Node.codeList] at h
    rw [compileLoop_append] at h
    rcases h1 : compileLoop (Node.code child) result with e | r1
    · rw [h1] at h; cases h
    · rw [h1] at h
      simp only [Node.allParseShaped, Bool.and_eq_true]
      exact ⟨parseShaped_of_compileLoop child result r1 hwf.1 h1,
        allParseShaped_of_compileLoop rest r1 r hwf.2 h⟩
end

/-- The program `compile` returns for the records of a well-formed expression
is the post-order instruction list of the expression. -/
theorem compile_gen_eq_instrs (t : Node) (prog : List MachineOp) (hwf : t.wellFormed = true)
    (hc : compile (gen t []) = .ok prog) : prog = Node.instrs t := by
  rw [gen_eq] at hc
  simp only [compile, List.nil_append] at hc
  have hs := parseShaped_of_compileLoop t [] prog hwf hc
  rw [compileLoop_code t [] hs] at hc
  cases hc
  simp

/-- `compile` on the records of a well-formed expression either returns the
post-order instruction list or stops with `invalidOperand`. -/
theorem compile_gen_cases (t : Node) (hwf : t.wellFormed = true) :
    compile (gen t []) = .ok (Node.instrs t) ∨ compile (gen t []) = .error .invalidOperand := by
  rcases h : compile (gen t []) with e | prog
  · right
    have := compileLoop_fault (gen t []) [] e h
    rw [this]
  · left
    rw [compile_gen_eq_instrs t prog hwf h]

/-! ## The stack below the values of an evaluation -/

theorem popOperands_frame : ∀ (n : Nat) (stack operands stack1 operands1 below : List Int),
    popOperands n stack operands = .ok (stack1, operands1) →
    popOperands n (stack ++ below) operands = .ok (stack1 ++ below, operands1)
  | 0, stack, operands, stack1, operands1, below, h => by
    simp only [popOperands] at h
    cases h
    rfl
  | n + 1, [], operands, stack1, operands1, below, h => by
    simp [popOperands] at h
  | n + 1, top :: stack, operands, stack1, operands1, below, h => by
    simp only [popOperands] at h
    exact popOperands_frame n stack (top :: operands) stack1 operands1 below h

theorem handleStack_frame (popCount : Int) (operate : List Int → Except Fault Int)
    (stack operands stack1 operands1 below : List Int)
    (h : handleStack popCount operate stack operands = .ok (stack1, operands1)) :
    handleStack popCount operate (stack ++ below) operands =
      .ok (stack1 ++ below, operands1) := by
  unfold handleStack at h ⊢
  rcases hp : popOperands popCount.toNat stack operands with e | ⟨st, ops⟩
  · rw [hp] at h; cases h
  · rw [hp] at h
    rw [popOperands_frame _ _ _ _ _ below hp]
    simp only at h ⊢
    rcases ho : operate ops with e | r
    · rw [ho] at h; cases h
    · rw [ho] at h
      cases h
      rfl

theorem evalStep_frame (op : MachineOp) (stack operands stack1 operands1 below : List Int)
    (h : evalStep op stack operands = .ok (stack1, operands1)) :
    evalStep op (stack ++ below) operands = .ok (stack1 ++ below, operands1) := by
  unfold evalStep at h ⊢
  rcases hd : dispatch op stack operands with e | ⟨st, ops⟩
  · rw [hd] at h; cases h
  · rw [hd] at h
    cases h
    have hd2 : dispatch op (stack ++ below) operands = .ok (stack1 ++ below, ops) := by
      rcases op with ⟨kind, opData⟩
      cases kind
      · exact handleStack_frame _ _ _ _ _ _ below hd
      · exact handleStack_frame _ _ _ _ _ _ below hd
      · exact handleStack_frame _ _ _ _ _ _ below hd
      · exact handleStack_frame _ _ _ _ _ _ below hd
      · exact handleStack_frame _ _ _ _ _ _ below hd
      · simp only [dispatch] at hd ⊢
        cases hd
        rfl
      · simp only [dispatch] at hd ⊢
        cases hd
        rfl
    rw [hd2]

theorem evalLoop_frame : ∀ (code : List MachineOp)
    (stack operands stack1 operands1 below : List Int),
    evalLoop code stack operands = .ok (stack1, operands1) →
    evalLoop code (stack ++ below) operands = .ok (stack1 ++ below, operands1)
  | [], stack, operands, stack1, operands1, below, h => by
    simp only [evalLoop] at h
    cases h
    rfl
  | op :: code, stack, operands, stack1, operands1, below, h => by
    rw [evalLoop_cons] at h ⊢
    rcases hs : evalStep op stack operands with e | ⟨st, ops⟩
    · rw [hs] at h; cases h
    · rw [hs] at h
      rw [evalStep_frame op _ _ _ _ below hs]
      exact evalLoop_frame code st ops stack1 operands1 below h

theorem evalLoop_append : ∀ (pre post : List MachineOp) (stack operands : List Int),
    evalLoop (pre ++ post) stack operands =
      match evalLoop pre stack operands with
      | .error e => .error e
      | .ok (stack1, operands1) => evalLoop post stack1 operands1
  | [], post, stack, operands => rfl
  | op :: pre, post, stack, operands => by
    simp only [List.cons_append, evalLoop_cons]
    rcases evalStep op stack operands with e | ⟨st, ops⟩
    · rfl
    · exact evalLoop_append pre post st ops

theorem evalLoop_operands : ∀ (code : List MachineOp) (stack stack1 operands1 : List Int),
    evalLoop code stack [] = .ok (stack1, operands1) → operands1 = []
  | [], stack, stack1, operands1, h => by
    simp only [evalLoop] at h
    cases h
    rfl
  | op :: code, stack, stack1, operands1, h => by
    rw [evalLoop_cons] at h
    rcases hs : evalStep op stack [] with e | ⟨st, ops⟩
    · rw [hs] at h; cases h
    · rw [hs] at h
      have hops : ops = [] := by
        unfold evalStep at hs
        rcases hd : dispatch op stack [] with e | ⟨st2, ops2⟩
        · rw [hd] at hs; cases hs
        · rw [hd] at hs; cases hs; rfl
      rw [hops] at h
      exact evalLoop_operands code st stack1 operands1 h

/-! ## One turn of the loop on the text of a well-formed expression -/

theorem run_eq_printed (code : String) : run code = printed (evalLine ⟨[]⟩ code) := by
  unfold run printed
  rcases evalLine ⟨[]⟩ code with e | ⟨r, m⟩ <;> rfl

/-- The program of a well-formed expression whose divisions all have a
defined result, run by `Machine::eval` on any stack, returns the machine value
of the expression and leaves it on top of that stack. -/
theorem eval_instrs (t : Node) (stack : List Int) (hwf : t.wellFormed = true)
    (hd : t.divisionsDefined = true) :
    evalLoop (Node.instrs t) stack [] = .ok (Node.machineValue t :: stack, [])
    ∧ Machine.eval ⟨stack⟩ (Node.instrs t) =
        .ok (Node.machineValue t, ⟨Node.machineValue t :: stack⟩) := by
  have he := evalLoop_instrs_cases t hwf [] stack
  rw [List.append_nil, if_pos hd] at he
  have he2 : evalLoop (Node.instrs t) stack [] = .ok (Node.machineValue t :: stack, []) := by
    rw [he]; rfl
  refine ⟨he2, ?_⟩
  simp only [Machine.eval, he2]

/-- The program of a well-formed expression with a division that has no
defined result returns nothing, on any stack. -/
theorem eval_instrs_undefined (t : Node) (stack : List Int) (hwf : t.wellFormed = true)
    (hd : ¬ t.divisionsDefined = true) :
    Machine.eval ⟨stack⟩ (Node.instrs t) = .error .undefinedDivision := by
  have he := evalLoop_instrs_cases t hwf [] stack
  rw [List.append_nil, if_neg hd] at he
  simp only [Machine.eval, he]

/-- One turn of the loop on the text of a well-formed expression: what
`compile` and then `Machine::eval` make of it, on any stack. -/
theorem evalLine_wellFormed (t : Node) (code : String) (stack : List Int)
    (hwf : t.wellFormed = true) (htext : nonSpaces code = Node.chars t) :
    evalLine ⟨stack⟩ code =
      match compile (gen t []) with
      | .error e => .error e
      | .ok _ =>
        if t.divisionsDefined = true then
          .ok (Node.machineValue t, ⟨Node.machineValue t :: stack⟩)
        else .error .undefinedDivision := by
  simp only [evalLine, parse_lex_text t code hwf htext]
  rcases hc : compile (gen t []) with e | prog
  · rfl
  · simp only
    rw [compile_gen_eq_instrs t prog hwf hc]
    by_cases hd : t.divisionsDefined = true
    · rw [if_pos hd, (eval_instrs t stack hwf hd).2]
    · rw [if_neg hd, eval_instrs_undefined t stack hwf hd]

/-- On the text of a well-formed expression the integer printed does not
depend on the stack of the machine, and the machine keeps its stack with the
integer on top. -/
theorem evalLine_eq_run (t : Node) (code : String) (stack : List Int)
    (hwf : t.wellFormed = true) (htext : nonSpaces code = Node.chars t) :
    evalLine ⟨stack⟩ code =
      match run code with
      | .error e => .error e
      | .ok result => .ok (result, ⟨result :: stack⟩) := by
  rw [run_eq_printed, evalLine_wellFormed t code stack hwf htext,
    evalLine_wellFormed t code [] hwf htext]
  rcases compile (gen t []) with e | prog
  · rfl
  · by_cases hd : t.divisionsDefined = true
    · simp only [if_pos hd, printed]
    · simp only [if_neg hd, printed]

/-- On the text of a well-formed expression that is safe to evaluate and
takes no remainder of `INT_MIN` by `-1`, one turn of the loop on a machine
with any stack prints the value of the expression and leaves it on top of that
stack. -/
theorem evalLine_text (t : Node) (code : String) (stack : List Int)
    (hwf : t.wellFormed = true) (hsafe : t.safe = true) (hrem : t.remaindersDefined = true)
    (htext : nonSpaces code = Node.chars t) :
    evalLine ⟨stack⟩ code = .ok (Node.value t, ⟨Node.value t :: stack⟩) := by
  have hc : compile (gen t []) = .ok (Node.instrs t) := by
    rw [gen_eq]
    have := compileLoop_code t [] (parseShaped_of_wellFormed t hwf hsafe)
    simpa [compile] using this
  rw [evalLine_wellFormed t code stack hwf htext, hc]
  simp only [if_pos (divisionsDefined_of_safe t hwf hsafe hrem),
    (machineValue_of_safe t hwf hsafe).2]

theorem chars_ne_nil (t : Node) (hwf : t.wellFormed = true) : Node.chars t ≠ [] := by
  obtain ⟨k, v, l, h, _⟩ := chars_head t hwf
  intro hnil
  rw [hnil] at h
  cases h

theorem text_ne_empty (t : Node) (code : String) (hwf : t.wellFormed = true)
    (htext : nonSpaces code = Node.chars t) : code ≠ "" := by
  intro h
  rw [h] at htext
  exact chars_ne_nil t hwf htext.symm

/-- The loop over the texts of well-formed expressions: when every line has a
defined result, the machine holds the printed integers, last on top, above
the stack it started with. -/
theorem mainLoop_lines : ∀ (lines : List (Node × String)) (stack : List Int)
    (outs : List Int) (m : Machine),
    (∀ p ∈ lines, p.1.wellFormed = true ∧ nonSpaces p.2 = Node.chars p.1) →
    mainLoop ⟨stack⟩ (lines.map Prod.snd) = .ok (outs, m) →
    m.machineStack = outs.reverse ++ stack ∧ outs.length = lines.length
  | [], stack, outs, m, _, h => by
    simp only [List.map_nil, mainLoop] at h
    cases h
    exact ⟨rfl, rfl⟩
  | (t, code) :: lines, stack, outs, m, hall, h => by
    obtain ⟨hwf, htext⟩ := hall (t, code) (List.mem_cons_self _ _)
    have hne := text_ne_empty t code hwf htext
    simp only [List.map_cons, mainLoop, if_neg hne, evalLine_eq_run t code stack hwf htext] at h
    rcases hr : run code with e | r
    · rw [hr] at h; cases h
    · rw [hr] at h
      simp only at h
      rcases hm : mainLoop ⟨r :: stack⟩ (lines.map Prod.snd) with e | ⟨rs, m2⟩
      · rw [hm] at h; cases h
      · rw [hm] at h
        cases h
        obtain ⟨h1, h2⟩ := mainLoop_lines lines (r :: stack) rs m
          (fun p hp => hall p (List.mem_cons_of_mem _ hp)) hm
        refine ⟨?_, by simp [h2]⟩
        rw [h1]
        simp

/-! ## The whole pipeline against the reference evaluator -/

/-- C1 (refuted as stated): the expression
`(% (* (- 0 8) 8 8 8 8 8 8 8 8 8 2) (- 0 1))` is well-formed, has no zero
divisor or modulus and no intermediate value outside the `int` range (its
operands are `INT_MIN` and `-1`, the remainder is 0), and its reference value
is 0; yet the pipeline returns nothing on it: `INT_MIN % -1` has no defined
result, since its quotient is no `int`, and the run ends there. -/
theorem run_reference_counterexample :
    (minAndMinusOne 37).wellFormed = true ∧ (minAndMinusOne 37).safe = true
    ∧ nonSpaces "(% (* (- 0 8) 8 8 8 8 8 8 8 8 8 2) (- 0 1))" = Node.chars (minAndMinusOne 37)
    ∧ Node.values [Node.mk .NODE_OP 42
        (Node.mk .NODE_OP 45 [Node.mk .NODE_NUM 0 [], Node.mk .NODE_NUM 8 []] ::
          (List.replicate 9 (Node.mk .NODE_NUM 8 []) ++ [Node.mk .NODE_NUM 2 []])),
        Node.mk .NODE_OP 45 [Node.mk .NODE_NUM 0 [], Node.mk .NODE_NUM 1 []]] = [INT_MIN, -1]
    ∧ Node.value (minAndMinusOne 37) = 0
    ∧ run "(% (* (- 0 8) 8 8 8 8 8 8 8 8 8 2) (- 0 1))" = .error .undefinedDivision
    ∧ ¬ (∀ (t : Node) (code : String), t.wellFormed = true → t.safe = true →
          nonSpaces code = Node.chars t → run code = .ok (Node.value t)) := by
  refine ⟨rfl, rfl, rfl, rfl, rfl, rfl, ?_⟩
  intro h
  have h1 := h (minAndMinusOne 37) "(% (* (- 0 8) 8 8 8 8 8 8 8 8 8 2) (- 0 1))" rfl rfl rfl
  have h2 : run "(% (* (- 0 8) 8 8 8 8 8 8 8 8 8 2) (- 0 1))" = .error .undefinedDivision := rfl
  rw [h2] at h1
  cases h1

/-- C1 (amended): for every well-formed expression (a digit, or an operator
among `+ - * / %` with at least one well-formed operand) in whose evaluation no
divisor or modulus operand is zero, no intermediate value leaves the `int`
range and no remainder is taken of `INT_MIN` by `-1`, and every line of text
that is this expression up to spaces, the full pipeline lex, parse from cursor
0, gen, compile, eval on a fresh machine returns the value of the reference
evaluator. -/
theorem run_returns_reference_value (t : Node) (code : String)
    (hwf : t.wellFormed = true) (hsafe : t.safe = true) (hrem : t.remaindersDefined = true)
    (htext : nonSpaces code = Node.chars t) :
    run code = .ok (Node.value t) := by
  simp only [run, evalLine_text t code [] hwf hsafe hrem htext]

theorem run_returns_reference_value_witness :
    run " ( - 9 (* 2 3)  (% 7 (- 0 1)) (/ 7 2))" = .ok 0 :=
  run_returns_reference_value
    (Node.mk .NODE_OP 45 [Node.mk .NODE_NUM 9 [],
      Node.mk .NODE_OP 42 [Node.mk .NODE_NUM 2 [], Node.mk .NODE_NUM 3 []],
      Node.mk .NODE_OP 37 [Node.mk .NODE_NUM 7 [],
        Node.mk .NODE_OP 45 [Node.mk .NODE_NUM 0 [], Node.mk .NODE_NUM 1 []]],
      Node.mk .NODE_OP 47 [Node.mk .NODE_NUM 7 [], Node.mk .NODE_NUM 2 []]])
    " ( - 9 (* 2 3)  (% 7 (- 0 1)) (/ 7 2))" rfl rfl rfl rfl

/-! ## Claims about the stack of the machine across an evaluation -/

/-- C11 (refuted as stated): the expression
`(/ (* (- 0 8) 8 8 8 8 8 8 8 8 8 2) (- 0 1))` is well-formed and has no zero
divisor, its compiled program exists, and a fresh machine that executes it
returns nothing and holds no result: the division of `INT_MIN` by `-1` has no
defined result and the run ends inside `eval`. -/
theorem fresh_machine_counterexample :
    (minAndMinusOne 47).wellFormed = true ∧ (minAndMinusOne 47).noZeroDivisor = true
    ∧ compile (gen (minAndMinusOne 47) []) = .ok (Node.instrs (minAndMinusOne 47))
    ∧ Machine.eval ⟨[]⟩ (Node.instrs (minAndMinusOne 47)) = .error .undefinedDivision
    ∧ evalLoop (Node.instrs (minAndMinusOne 47)) [] [] = .error .undefinedDivision
    ∧ ¬ (∀ (t : Node) (prog : List MachineOp), t.wellFormed = true → t.noZeroDivisor = true →
          compile (gen t []) = .ok prog →
          ∃ r, Machine.eval ⟨[]⟩ prog = .ok (r, ⟨[r]⟩)) := by
  refine ⟨rfl, rfl, rfl, rfl, rfl, ?_⟩
  intro h
  obtain ⟨r, hr⟩ := h (minAndMinusOne 47) (Node.instrs (minAndMinusOne 47)) rfl rfl rfl
  have h2 : Machine.eval ⟨[]⟩ (Node.instrs (minAndMinusOne 47)) = .error .undefinedDivision := rfl
  rw [h2] at hr
  cases hr

/-- C11 (amended): for a well-formed expression in which no division or
remainder has a zero divisor or takes `INT_MIN` by `-1`, a freshly created
machine (empty stack) that has executed every instruction of the compiled
program of the expression holds exactly one value on its stack, and that
value is the result `eval` returns; so also after one turn of the loop on the
text of the expression. -/
theorem fresh_machine_holds_one_value (t : Node) (prog : List MachineOp)
    (hwf : t.wellFormed = true) (hd : t.divisionsDefined = true)
    (hc : compile (gen t []) = .ok prog) :
    evalLoop prog [] [] = .ok ([Node.machineValue t], [])
    ∧ Machine.eval ⟨[]⟩ prog = .ok (Node.machineValue t, ⟨[Node.machineValue t]⟩)
    ∧ (∀ code : String, nonSpaces code = Node.chars t →
        evalLine ⟨[]⟩ code = .ok (Node.machineValue t, ⟨[Node.machineValue t]⟩)) := by
  have hp := compile_gen_eq_instrs t prog hwf hc
  subst hp
  obtain ⟨h1, h2⟩ := eval_instrs t [] hwf hd
  refine ⟨h1, h2, ?_⟩
  intro code htext
  rw [evalLine_wellFormed t code [] hwf htext, hc]
  simp only [if_pos hd]

theorem fresh_machine_holds_one_value_witness :
    Machine.eval ⟨[]⟩ [⟨.OP_PUSH, 7⟩, ⟨.OP_PUSH, 9⟩, ⟨.OP_PUSH, 4⟩, ⟨.OP_MOD, 2⟩, ⟨.OP_DIV, 2⟩] =
      .ok (7, ⟨[7]⟩) :=
  (fresh_machine_holds_one_value
    (Node.mk .NODE_OP 47 [Node.mk .NODE_NUM 7 [],
      Node.mk .NODE_OP 37 [Node.mk .NODE_NUM 9 [], Node.mk .NODE_NUM 4 []]])
    [⟨.OP_PUSH, 7⟩, ⟨.OP_PUSH, 9⟩, ⟨.OP_PUSH, 4⟩, ⟨.OP_MOD, 2⟩, ⟨.OP_DIV, 2⟩]
    rfl rfl rfl).2.1

/-- C12 (refuted as stated): `(/ (* (- 0 8) 8 8 8 8 8 8 8 8 8 2) (- 0 1))` and
`(+ 1 2)` are well-formed and have no zero divisor, and `(+ 1 2)` alone
returns 3 on a fresh machine; the loop on the first and then the second
returns nothing for the second, because the run ends in the first line, where
`INT_MIN` is divided by `-1`. -/
theorem leakage_counterexample :
    (minAndMinusOne 47).wellFormed = true ∧ (minAndMinusOne 47).noZeroDivisor = true
    ∧ nonSpaces "(/ (* (- 0 8) 8 8 8 8 8 8 8 8 8 2) (- 0 1))" = Node.chars (minAndMinusOne 47)
    ∧ (Node.mk .NODE_OP 43 [Node.mk .NODE_NUM 1 [], Node.mk .NODE_NUM 2 []]).wellFormed = true
    ∧ (Node.mk .NODE_OP 43 [Node.mk .NODE_NUM 1 [], Node.mk .NODE_NUM 2 []]).noZeroDivisor = true
    ∧ nonSpaces "(+ 1 2)" =
        Node.chars (Node.mk .NODE_OP 43 [Node.mk .NODE_NUM 1 [], Node.mk .NODE_NUM 2 []])
    ∧ run "(+ 1 2)" = .ok 3
    ∧ mainLoop ⟨[]⟩ ["(/ (* (- 0 8) 8 8 8 8 8 8 8 8 8 2) (- 0 1))", "(+ 1 2)"] =
        .error .undefinedDivision
    ∧ (∀ stack : List Int,
        Machine.eval ⟨stack⟩ (Node.instrs (minAndMinusOne 47)) = .error .undefinedDivision) := by
  refine ⟨rfl, rfl, rfl, rfl, rfl, rfl, rfl, rfl, ?_⟩
  intro stack
  exact eval_instrs_undefined (minAndMinusOne 47) stack rfl (by decide)

/-- C12 (amended): for well-formed expressions E1 and E2 in which no division
or remainder has a zero divisor or takes `INT_MIN` by `-1`, the loop on the
text of E1 and then the text of E2, on the one machine, prints for E2 the
integer that E2 alone prints on a fresh machine (and has a defined result
exactly when both have one alone, which they have when `compile` accepts their
records); more generally the integer printed for E2 is the same on every
machine, and `eval` on the compiled program of E2 returns the same result for
every initial content of the stack. -/
theorem no_leakage_between_lines (t1 t2 : Node) (code1 code2 : String)
    (hwf1 : t1.wellFormed = true) (hd1 : t1.divisionsDefined = true)
    (htext1 : nonSpaces code1 = Node.chars t1)
    (hwf2 : t2.wellFormed = true) (hd2 : t2.divisionsDefined = true)
    (htext2 : nonSpaces code2 = Node.chars t2) :
    mainLoop ⟨[]⟩ [code1, code2] =
      (match run code1 with
       | .error e => .error e
       | .ok r1 =>
         match run code2 with
         | .error e => .error e
         | .ok r2 => .ok ([r1, r2], ⟨[r2, r1]⟩))
    ∧ (∀ m : Machine, printed (evalLine m code2) = run code2)
    ∧ (∀ (prog : List MachineOp) (stack : List Int), compile (gen t2 []) = .ok prog →
        printed (Machine.eval ⟨stack⟩ prog) = .ok (Node.machineValue t2))
    ∧ (∀ prog1 prog2 : List MachineOp, compile (gen t1 []) = .ok prog1 →
        compile (gen t2 []) = .ok prog2 →
        run code1 = .ok (Node.machineValue t1) ∧ run code2 = .ok (Node.machineValue t2)
        ∧ mainLoop ⟨[]⟩ [code1, code2] =
            .ok ([Node.machineValue t1, Node.machineValue t2],
              ⟨[Node.machineValue t2, Node.machineValue t1]⟩)) := by
  have hmain : mainLoop ⟨[]⟩ [code1, code2] =
      (match run code1 with
       | .error e => .error e
       | .ok r1 =>
         match run code2 with
         | .error e => .error e
         | .ok r2 => .ok ([r1, r2], ⟨[r2, r1]⟩)) := by
    have hne1 := text_ne_empty t1 code1 hwf1 htext1
    have hne2 := text_ne_empty t2 code2 hwf2 htext2
    simp only [mainLoop, if_neg hne1, if_neg hne2, evalLine_eq_run t1 code1 [] hwf1 htext1]
    rcases run code1 with e | r1
    · rfl
    · simp only [evalLine_eq_run t2 code2 [r1] hwf2 htext2]
      rcases run code2 with e | r2 <;> rfl
  refine ⟨hmain, ?_, ?_, ?_⟩
  · intro m
    rcases m with ⟨stack⟩
    rw [evalLine_eq_run t2 code2 stack hwf2 htext2]
    rcases run code2 with e | r2 <;> rfl
  · intro prog stack hc
    rw [compile_gen_eq_instrs t2 prog hwf2 hc, (eval_instrs t2 stack hwf2 hd2).2]
    rfl
  · intro prog1 prog2 hc1 hc2
    have hr1 : run code1 = .ok (Node.machineValue t1) := by
      rw [run_eq_printed, evalLine_wellFormed t1 code1 [] hwf1 htext1, hc1]
      simp only [if_pos hd1, printed]
    have hr2 : run code2 = .ok (Node.machineValue t2) := by
      rw [run_eq_printed, evalLine_wellFormed t2 code2 [] hwf2 htext2, hc2]
      simp only [if_pos hd2, printed]
    refine ⟨hr1, hr2, ?_⟩
    rw [hmain, hr1, hr2]

theorem no_leakage_between_lines_witness :
    mainLoop ⟨[]⟩ ["(/ 9 2 3)", "(+ 1 (% 7 3))"] = .ok ([1, 2], ⟨[2, 1]⟩) :=
  (no_leakage_between_lines
    (Node.mk .NODE_OP 47 [Node.mk .NODE_NUM 9 [], Node.mk .NODE_NUM 2 [],
      Node.mk .NODE_NUM 3 []])
    (Node.mk .NODE_OP 43 [Node.mk .NODE_NUM 1 [],
      Node.mk .NODE_OP 37 [Node.mk .NODE_NUM 7 [], Node.mk .NODE_NUM 3 []]])
    "(/ 9 2 3)" "(+ 1 (% 7 3))" rfl rfl rfl rfl rfl rfl).1

/-- C13, as stated, fails: `eval` returns `machineStack.top()` without popping
it, so after the program of `(+ 1 2)` a machine that was empty holds the
result 3, and is not the machine it was before the call. -/
theorem eval_clears_stack_counterexample :
    Machine.eval ⟨[]⟩ [⟨.OP_PUSH, 1⟩, ⟨.OP_PUSH, 2⟩, ⟨.OP_ADD, 2⟩] = .ok (3, ⟨[3]⟩)
    ∧ compile (gen (Node.mk .NODE_OP 43 [Node.mk .NODE_NUM 1 [], Node.mk .NODE_NUM 2 []]) []) =
        .ok [⟨.OP_PUSH, 1⟩, ⟨.OP_PUSH, 2⟩, ⟨.OP_ADD, 2⟩]
    ∧ evalLine ⟨[]⟩ "(+ 1 2)" = .ok (3, ⟨[3]⟩)
    ∧ ¬ (∀ (m m1 : Machine) (r : Int),
          Machine.eval m [⟨.OP_PUSH, 1⟩, ⟨.OP_PUSH, 2⟩, ⟨.OP_ADD, 2⟩] = .ok (r, m1) → m1 = m) := by
  refine ⟨rfl, rfl, rfl, ?_⟩
  intro h
  have := h ⟨[]⟩ ⟨[3]⟩ 3 rfl
  cases this

/-- C13, amended: for a well-formed expression and any machine, when `eval`
has run the compiled program of the expression and returned its result, the
stack of the machine is the stack before the call with that result on top:
every other value pushed during the evaluation has been consumed (a machine
whose stack was empty before the line holds exactly the result). -/
theorem eval_leaves_result_on_stack (t : Node) (prog : List MachineOp) (stack : List Int)
    (r : Int) (m1 : Machine) (hwf : t.wellFormed = true)
    (hc : compile (gen t []) = .ok prog)
    (he : Machine.eval ⟨stack⟩ prog = .ok (r, m1)) :
    m1 = ⟨r :: stack⟩ ∧ r = Node.machineValue t
    ∧ (stack = [] → m1.machineStack = [r]) := by
  have hp := compile_gen_eq_instrs t prog hwf hc
  subst hp
  have hcases := evalLoop_instrs_cases t hwf [] stack
  rw [List.append_nil] at hcases
  by_cases hd : t.divisionsDefined = true
  · rw [(eval_instrs t stack hwf hd).2] at he
    cases he
    exact ⟨rfl, rfl, fun hs => by rw [hs]⟩
  · rw [if_neg hd] at hcases
    simp only [Machine.eval, hcases] at he
    cases he

theorem eval_leaves_result_on_stack_witness :
    Machine.eval ⟨[4]⟩
        [⟨.OP_PUSH, 1⟩, ⟨.OP_PUSH, 2⟩, ⟨.OP_PUSH, 3⟩, ⟨.OP_MUL, 2⟩, ⟨.OP_ADD, 2⟩] =
      .ok (7, ⟨[7, 4]⟩)
    ∧ (⟨[7, 4]⟩ : Machine) = ⟨7 :: [4]⟩ :=
  ⟨rfl, (eval_leaves_result_on_stack
    (Node.mk .NODE_OP 43 [Node.mk .NODE_NUM 1 [],
      Node.mk .NODE_OP 42 [Node.mk .NODE_NUM 2 [], Node.mk .NODE_NUM 3 []]])
    [⟨.OP_PUSH, 1⟩, ⟨.OP_PUSH, 2⟩, ⟨.OP_PUSH, 3⟩, ⟨.OP_MUL, 2⟩, ⟨.OP_ADD, 2⟩]
    [4] 7 ⟨[7, 4]⟩ rfl rfl rfl).1⟩

/-- C20 (refuted as stated): `(/ (* (- 0 8) 8 8 8 8 8 8 8 8 8 2) (- 0 1))` is
well-formed and has no zero divisor, and on the stack `[8, 9]` the run of its
compiled program does not end with a value on top of `[8, 9]`: it ends inside
`eval`, where `INT_MIN` is divided by `-1`, with nothing returned. -/
theorem eval_frame_counterexample :
    (minAndMinusOne 47).wellFormed = true ∧ (minAndMinusOne 47).noZeroDivisor = true
    ∧ compile (gen (minAndMinusOne 47) []) = .ok (Node.instrs (minAndMinusOne 47))
    ∧ Machine.eval ⟨[8, 9]⟩ (Node.instrs (minAndMinusOne 47)) = .error .undefinedDivision
    ∧ ¬ (∀ (t : Node) (prog : List MachineOp) (stack : List Int), t.wellFormed = true →
          t.noZeroDivisor = true → compile (gen t []) = .ok prog →
          ∃ r, Machine.eval ⟨stack⟩ prog = .ok (r, ⟨r :: stack⟩)) := by
  refine ⟨rfl, rfl, rfl, rfl, ?_⟩
  intro h
  obtain ⟨r, hr⟩ := h (minAndMinusOne 47) (Node.instrs (minAndMinusOne 47)) [8, 9] rfl rfl rfl
  have h2 : Machine.eval ⟨[8, 9]⟩ (Node.instrs (minAndMinusOne 47)) =
      .error .undefinedDivision := rfl
  rw [h2] at hr
  cases hr

/-- C20 (amended): for every initial stack `S` and every well-formed
expression in which no division or remainder has a zero divisor or takes
`INT_MIN` by `-1`, `eval` on the compiled program of the expression ends with
the stack `S` and exactly one more value on top, the result; at every point of
the run the stack is some values above `S`, the same values whatever `S` is,
so nothing is popped from an empty stack and no value of `S` is removed or
changed. A machine used for `n` successfully evaluated lines holds `n` values
more than at the start. -/
theorem eval_keeps_initial_stack (t : Node) (prog : List MachineOp) (stack : List Int)
    (hwf : t.wellFormed = true) (hd : t.divisionsDefined = true)
    (hc : compile (gen t []) = .ok prog) :
    Machine.eval ⟨stack⟩ prog = .ok (Node.machineValue t, ⟨Node.machineValue t :: stack⟩)
    ∧ (∀ pre post : List MachineOp, prog = pre ++ post →
        ∃ top : List Int, ∀ below : List Int, evalLoop pre below [] = .ok (top ++ below, []))
    ∧ (∀ (lines : List (Node × String)) (outs : List Int) (m : Machine),
        (∀ p ∈ lines, p.1.wellFormed = true ∧ p.1.divisionsDefined = true ∧
          nonSpaces p.2 = Node.chars p.1) →
        mainLoop ⟨stack⟩ (lines.map Prod.snd) = .ok (outs, m) →
        m.machineStack = outs.reverse ++ stack ∧
        m.machineStack.length = stack.length + lines.length) := by
  have hp := compile_gen_eq_instrs t prog hwf hc
  subst hp
  refine ⟨(eval_instrs t stack hwf hd).2, ?_, ?_⟩
  · intro pre post hsplit
    have hall := (eval_instrs t [] hwf hd).1
    rw [hsplit, evalLoop_append] at hall
    rcases hpre : evalLoop pre [] [] with e | ⟨top, ops⟩
    · rw [hpre] at hall; cases hall
    · have hops := evalLoop_operands pre [] top ops hpre
      subst hops
      refine ⟨top, fun below => ?_⟩
      have := evalLoop_frame pre [] [] top [] below hpre
      simpa using this
  · intro lines outs m hall hm
    obtain ⟨h1, h2⟩ := mainLoop_lines lines stack outs m
      (fun p hp => ⟨(hall p hp).1, (hall p hp).2.2⟩) hm
    refine ⟨h1, ?_⟩
    rw [h1]
    simp [h2]
    omega

theorem eval_keeps_initial_stack_witness :
    Machine.eval ⟨[8, 9]⟩ [⟨.OP_PUSH, 9⟩, ⟨.OP_PUSH, 4⟩, ⟨.OP_MOD, 2⟩] = .ok (1, ⟨[1, 8, 9]⟩) :=
  (eval_keeps_initial_stack
    (Node.mk .NODE_OP 37 [Node.mk .NODE_NUM 9 [], Node.mk .NODE_NUM 4 []])
    [⟨.OP_PUSH, 9⟩, ⟨.OP_PUSH, 4⟩, ⟨.OP_MOD, 2⟩] [8, 9] rfl rfl rfl).1

/-- C15: an arithmetic instruction of arity 1 is the identity for all five
opcodes: on the stack `v :: S` it leaves the stack `v :: S`, as a single step
and as a one-instruction program; so `(- 5)`, `(/ 5)` and `(% 5)` evaluate
to 5. -/
theorem arity_one_is_identity (kind : OpKind) (v : Int) (stack : List Int)
    (hk : kind.isArith = true) :
    evalStep ⟨kind, 1⟩ (v :: stack) [] = .ok (v :: stack, [])
    ∧ Machine.eval ⟨v :: stack⟩ [⟨kind, 1⟩] = .ok (v, ⟨v :: stack⟩)
    ∧ run "(- 5)" = .ok 5 ∧ run "(/ 5)" = .ok 5 ∧ run "(% 5)" = .ok 5
    ∧ run "(+ 5)" = .ok 5 ∧ run "(* 5)" = .ok 5 := by
  have hstep : evalStep ⟨kind, 1⟩ (v :: stack) [] = .ok (v :: stack, []) := by
    have h := evalStep_arith_ok kind hk [v] stack (by simp) (fun _ => rfl)
    simpa [foldOperands] using h
  refine ⟨hstep, ?_, rfl, rfl, rfl, rfl, rfl⟩
  simp only [Machine.eval, evalLoop_cons, hstep, evalLoop]

theorem arity_one_is_identity_witness :
    evalStep ⟨.OP_SUB, 1⟩ [5, 2] [] = .ok ([5, 2], []) :=
  (arity_one_is_identity .OP_SUB 5 [2] rfl).1

/-! ## Division and remainder on `int` -/

theorem natAbs_tmod (a b : Int) : (Int.tmod a b).natAbs = a.natAbs % b.natAbs := by
  cases a <;> cases b <;> simp [Int.tmod, Int.natAbs_neg] <;> rfl

theorem tmod_nonpos (a b : Int) (ha : a ≤ 0) : Int.tmod a b ≤ 0 := by
  have h := Int.tmod_nonneg (-b) (a := -a) (by omega)
  have e : Int.tmod (-a) (-b) = -(Int.tmod a b) := by
    rw [Int.tmod_neg, Int.tmod_def, Int.tmod_def, Int.neg_tdiv]
    ring
  rw [e] at h
  omega

theorem tdiv_inRange (a b : Int) (ha : InIntRange a) (hb : b ≠ 0)
    (hc : ¬ (a = INT_MIN ∧ b = -1)) : InIntRange (Int.tdiv a b) := by
  unfold InIntRange INT_MIN INT_MAX at *
  have h := Int.natAbs_tdiv a b
  have hdiv : a.natAbs.div b.natAbs = a.natAbs / b.natAbs := rfl
  rw [hdiv] at h
  have hle : (Int.tdiv a b).natAbs ≤ a.natAbs := by
    rw [h]; exact Nat.div_le_self _ _
  by_cases hmin : a = -2147483648
  · by_cases h1 : b = 1
    · rw [h1, Int.tdiv_one]; omega
    · have hb2 : 2 ≤ b.natAbs := by omega
      have hq : a.natAbs / b.natAbs ≤ a.natAbs / 2 :=
        Nat.div_le_div_left hb2 (by decide)
      have ha2 : a.natAbs = 2147483648 := by omega
      rw [ha2] at hq
      have : (Int.tdiv a b).natAbs ≤ 1073741824 := by
        rw [h, ha2]; exact hq
      omega
  · omega

theorem tmod_inRange (a b : Int) (hb : InIntRange b) (hb0 : b ≠ 0) :
    InIntRange (Int.tmod a b) := by
  unfold InIntRange INT_MIN INT_MAX at *
  have h := natAbs_tmod a b
  have hlt : a.natAbs % b.natAbs < b.natAbs := Nat.mod_lt _ (by omega)
  omega

/-- C16, as stated, fails for `a = INT_MIN`, `b = -1`: the quotient truncated
toward zero is 2147483648, which is no `int`, and the division does not yield
it; the expression below reaches this division with every earlier value in
range. -/
theorem div_truncates_counterexample :
    InIntRange (-2147483648) ∧ InIntRange (-1)
    ∧ Int.tdiv (-2147483648) (-1) = 2147483648
    ∧ ¬ InIntRange (Int.tdiv (-2147483648) (-1))
    ∧ evalStep ⟨.OP_DIV, 2⟩ [-1, -2147483648] [] ≠ .ok ([Int.tdiv (-2147483648) (-1)], [])
    ∧ run "(* (- 0 8) 8 8 8 8 8 8 8 8 8 2)" = .ok (-2147483648)
    ∧ run "(/ (* (- 0 8) 8 8 8 8 8 8 8 8 8 2) (- 0 1))" ≠ .ok 2147483648
    ∧ ¬ (∀ a b : Int, InIntRange a → InIntRange b → b ≠ 0 →
          evalStep ⟨.OP_DIV, 2⟩ [b, a] [] = .ok ([Int.tdiv a b], [])) := by
  have hstep : evalStep ⟨.OP_DIV, 2⟩ [-1, -2147483648] [] ≠
      .ok ([Int.tdiv (-2147483648) (-1)], []) := by
    intro h
    have h2 : evalStep ⟨.OP_DIV, 2⟩ [-1, -2147483648] [] = .error .undefinedDivision := rfl
    rw [h2] at h
    cases h
  refine ⟨by decide, by decide, by decide, by decide, hstep, rfl, ?_, ?_⟩
  · intro h
    have h2 : run "(/ (* (- 0 8) 8 8 8 8 8 8 8 8 8 2) (- 0 1))" = .error .undefinedDivision :=
      rfl
    rw [h2] at h
    cases h
  · intro h
    exact hstep (h (-2147483648) (-1) (by decide) (by decide) (by decide))

/-- C16, amended: for all `int` values `a` and `b` with `b ≠ 0`, other than
`a = INT_MIN` with `b = -1`, `Div(2)` on operands `a`, `b` yields the quotient
`q` truncated toward zero (its magnitude is the whole part of `|a| / |b|`)
and `Mod(2)` yields `r = a - q * b`, smaller than `b` in magnitude and with
the sign of `a`; the pipeline returns -3 on `(/ (- 0 7) 2)` and -1 on
`(% (- 0 7) 2)`. -/
theorem div_mod_truncate (a b : Int) (below : List Int)
    (ha : InIntRange a) (hb : InIntRange b) (hb0 : b ≠ 0)
    (hc : ¬ (a = INT_MIN ∧ b = -1)) :
    evalStep ⟨.OP_DIV, 2⟩ (b :: a :: below) [] = .ok (Int.tdiv a b :: below, [])
    ∧ evalStep ⟨.OP_MOD, 2⟩ (b :: a :: below) [] = .ok ((a - Int.tdiv a b * b) :: below, [])
    ∧ (Int.tdiv a b).natAbs = a.natAbs / b.natAbs
    ∧ (0 ≤ a * b → 0 ≤ Int.tdiv a b) ∧ (a * b ≤ 0 → Int.tdiv a b ≤ 0)
    ∧ (a - Int.tdiv a b * b).natAbs < b.natAbs
    ∧ (0 ≤ a → 0 ≤ a - Int.tdiv a b * b) ∧ (a ≤ 0 → a - Int.tdiv a b * b ≤ 0)
    ∧ run "(/ (- 0 7) 2)" = .ok (-3) ∧ run "(% (- 0 7) 2)" = .ok (-1) := by
  have hmod : Int.tmod a b = a - Int.tdiv a b * b := by
    rw [Int.tmod_def]; ring
  have hdd : divisionDefined a b = true := (divisionDefined_iff a b).2 ⟨hb0, hc⟩
  have hdiv := evalStep_arith_ok .OP_DIV rfl [a, b] below (by simp)
    (fun _ => by simp [operandsDefined, stepsDefined, hdd])
  have hmd := evalStep_arith_ok .OP_MOD rfl [a, b] below (by simp)
    (fun _ => by simp [operandsDefined, stepsDefined, hdd])
  have hq := wrapInt_of_inRange _ (tdiv_inRange a b ha hb0 hc)
  have hr := wrapInt_of_inRange _ (tmod_inRange a b hb hb0)
  refine ⟨?_, ?_, Int.natAbs_tdiv a b, ?_, ?_, ?_, ?_, ?_, rfl, rfl⟩
  · simpa [foldOperands, intOp, hq] using hdiv
  · rw [← hmod]
    simpa [foldOperands, intOp, hr] using hmd
  · intro hab
    rcases le_or_lt 0 b with hb1 | hb1
    · have ha1 : 0 ≤ a := by
        by_contra hneg
        have : a * b < 0 := Int.mul_neg_of_neg_of_pos (by omega) (by omega)
        omega
      exact Int.tdiv_nonneg ha1 hb1
    · have ha1 : a ≤ 0 := by
        by_contra hpos
        have : a * b < 0 := Int.mul_neg_of_pos_of_neg (by omega) hb1
        omega
      have := Int.tdiv_nonneg (a := -a) (b := -b) (by omega) (by omega)
      rw [Int.tdiv_neg, Int.neg_tdiv] at this
      omega
  · intro hab
    rcases le_or_lt 0 b with hb1 | hb1
    · have ha1 : a ≤ 0 := by
        by_contra hpos
        have : 0 < a * b := Int.mul_pos (by omega) (by omega)
        omega
      have := Int.tdiv_nonneg (a := -a) (b := b) (by omega) hb1
      rw [Int.neg_tdiv] at this
      omega
    · have ha1 : 0 ≤ a := by
        by_contra hneg
        have : 0 < a * b := Int.mul_pos_of_neg_of_neg (by omega) hb1
        omega
      exact Int.tdiv_nonpos ha1 (by omega)
  · rw [← hmod, natAbs_tmod]
    exact Nat.mod_lt _ (by omega)
  · intro h0
    rw [← hmod]; exact Int.tmod_nonneg b h0
  · intro h0
    rw [← hmod]; exact tmod_nonpos a b h0

theorem div_mod_truncate_witness :
    evalStep ⟨.OP_DIV, 2⟩ [2, -7] [] = .ok ([-3], [])
    ∧ evalStep ⟨.OP_MOD, 2⟩ [2, -7] [] = .ok ([-1], []) :=
  ⟨(div_mod_truncate (-7) 2 [] (by decide) (by decide) (by decide) (by decide)).1,
   (div_mod_truncate (-7) 2 [] (by decide) (by decide) (by decide) (by decide)).2.1⟩

/-! ## Records without a digit; termination of the parser -/

theorem compileRecord_no_digit (record : String)
    (h : ∀ c ∈ record.toList, c.isDigit = false) :
    compileRecord record = .error .invalidOperand := by
  have hdrop : record.toList.dropWhile (fun c => !c.isDigit) = [] := by
    rw [List.dropWhile_eq_nil_iff]
    intro c hc
    simp [h c hc]
  unfold compileRecord
  simp only [hdrop]
  rfl

theorem compileLoop_no_digit : ∀ (machineCode : List String) (result : List MachineOp),
    (∃ r ∈ machineCode, ∀ c ∈ r.toList, c.isDigit = false) →
    compileLoop machineCode result = .error .invalidOperand
  | [], _, h => by
    obtain ⟨r, hr, _⟩ := h
    cases hr
  | code :: rest, result, h => by
    simp only [compileLoop]
    rcases hc : compileRecord code with e | instr
    · rw [compileRecord_fault code e hc]
    · simp only
      apply compileLoop_no_digit rest
      obtain ⟨r, hr, hd⟩ := h
      rcases List.mem_cons.1 hr with rfl | hr2
      · rw [compileRecord_no_digit r hd] at hc
        cases hc
      · exact ⟨r, hr2, hd⟩

/-- C17: if some record of the list contains no digit character (such as
`PUSH` or `ADD x`), `compile` fails with `invalidOperand` and returns no
instruction list. -/
theorem compile_fails_without_digit (machineCode : List String)
    (h : ∃ r ∈ machineCode, ∀ c ∈ r.toList, c.isDigit = false) :
    compile machineCode = .error .invalidOperand
    ∧ compile ["PUSH"] = .error .invalidOperand
    ∧ compile ["ADD x"] = .error .invalidOperand
    ∧ compile ["PUSH 1", "ADD x", "PUSH 2"] = .error .invalidOperand :=
  ⟨compileLoop_no_digit machineCode [] h, rfl, rfl, rfl⟩

theorem compile_fails_without_digit_witness :
    compile ["PUSH 1", "PUSH", "ADD 2"] = .error .invalidOperand :=
  (compile_fails_without_digit ["PUSH 1", "PUSH", "ADD 2"]
    ⟨"PUSH", by decide, by decide⟩).1

/-- C19: `parse` terminates on every token sequence from every start cursor:
the depth of its calls never reaches `parseBound`, so with this bound or any
larger one the bounded parser returns the result of `parse`, a tree or the
fault for a read past the end; and whenever `parse` returns a tree the cursor
has strictly increased and is at most the number of tokens. -/
theorem parse_terminates (stream : List token) (index : Nat) :
    (∀ f : Nat, parseBound stream index ≤ f →
      parseFuel f stream index = some (parse stream index))
    ∧ (∀ (n : Node) (j : Nat), parse stream index = .ok (n, j) →
        index < j ∧ j ≤ stream.length)
    ∧ (∀ e : Fault, parse stream index = .error e → e = .malformedExpression) := by
  refine ⟨?_, ?_, ?_⟩
  · intro f hf
    exact parseFuel_mono stream index _ _ f hf (parseFuel_parseBound stream index)
  · intro n j h
    exact parse_bounds stream index n j h
  · intro e h
    exact parse_fault stream index e h

/-! ## Parsing the text of a printed tree -/

theorem chars_head_printable (t : Node) (h : t.printable = true) :
    ∃ k v l, (Node.chars t).map tokenOfChar = (k, v) :: l ∧ k ≠ TokenKind.KIND_CLOSE := by
  rcases t with ⟨kind, numOrOp, childs⟩
  cases kind with
  | NODE_OP =>
    refine ⟨TokenKind.KIND_OPEN, 40,
      ((Char.ofNat numOrOp.toNat :: (Node.charsList childs ++ [')'])).map tokenOfChar),
      ?_, by decide⟩
    simp only [Node.chars, if_true, List.cons_append, List.map_cons, List.nil_append]
    rfl
  | NODE_NUM =>
    have hne : ¬ NodeKind.NODE_NUM = NodeKind.NODE_OP := by decide
    simp only [Node.printable, hne, if_false, Bool.and_eq_true, decide_eq_true_eq] at h
    refine ⟨TokenKind.KIND_NUM, numOrOp, [], ?_, by decide⟩
    simp only [Node.chars, hne, if_false, List.map_cons, List.map_nil,
      tokenOfChar_digit numOrOp h.1.1 h.1.2]

mutual
theorem parseFuel_printed : ∀ (t : Node), t.printable = true →
    ∀ (stream : List token) (i : Nat) (post : List token),
      stream.drop i = (Node.chars t).map tokenOfChar ++ post →
      ∃ f, parseFuel f stream i = some (.ok (t, i + (Node.chars t).length))
  | .mk .NODE_OP numOrOp childs, hp, stream, i, post, hdrop => by
    simp only [Node.printable, if_true, Bool.and_eq_true, decide_eq_true_eq] at hp
    obtain ⟨hc, hall⟩ := hp
    have hchars : (Node.chars (Node.mk .NODE_OP numOrOp childs)).map tokenOfChar ++ post =
        (TokenKind.KIND_OPEN, 40) :: (TokenKind.KIND_OP, numOrOp) ::
          ((Node.charsList childs).map tokenOfChar ++ (TokenKind.KIND_CLOSE, 41) :: post) := by
      simp only [Node.chars, if_true, List.cons_append, List.map_cons, List.map_append,
        List.map_nil, List.append_assoc, List.nil_append, tokenOfChar_op numOrOp hc]
      rfl
    rw [hchars] at hdrop
    obtain ⟨hg0, hd1⟩ := getElem?_of_drop_eq_cons stream i _ _ hdrop
    obtain ⟨hg1, hd2⟩ := getElem?_of_drop_eq_cons stream (i + 1) _ _ hd1
    obtain ⟨f, hf⟩ := parseChilds_printed childs hall stream (i + 1 + 1) post numOrOp [] 41 hd2
    refine ⟨f + 1 + 1, ?_⟩
    rw [parseFuel_skip (f + 1) stream i .KIND_OPEN 40 hg0 (by decide) (by decide),
      parseFuel_op f stream (i + 1) numOrOp hg1, hf]
    simp only [List.nil_append, Node.chars, if_true, List.cons_append, List.length_cons,
      List.length_append, List.length_nil]
    congr 3
    omega
  | .mk .NODE_NUM numOrOp childs, hp, stream, i, post, hdrop => by
    have hne : ¬ NodeKind.NODE_NUM = NodeKind.NODE_OP := by decide
    simp only [Node.printable, hne, if_false, Bool.and_eq_true, decide_eq_true_eq,
      List.isEmpty_iff] at hp
    obtain ⟨⟨h0, h9⟩, hnil⟩ := hp
    subst hnil
    simp only [Node.chars, hne, if_false, List.map_cons, List.map_nil,
      tokenOfChar_digit numOrOp h0 h9, List.singleton_append] at hdrop
    obtain ⟨hg0, _⟩ := getElem?_of_drop_eq_cons stream i _ _ hdrop
    refine ⟨1, ?_⟩
    rw [parseFuel_num 0 stream i numOrOp hg0]
    simp [Node.chars]
theorem parseChilds_printed : ∀ (childs : List Node), Node.allPrintable childs = true →
    ∀ (stream : List token) (i : Nat) (post : List token) (op : Int) (acc : List Node)
      (v : Int),
      stream.drop i =
        (Node.charsList childs).map tokenOfChar ++ (TokenKind.KIND_CLOSE, v) :: post →
      ∃ f, parseChilds f stream i op acc =
        some (.ok (Node.mk .NODE_OP op (acc ++ childs), i + (Node.charsList childs).length + 1))
  | [], _, stream, i, post, op, acc, v, hdrop => by
    simp only [Node.charsList, List.map_nil, List.nil_append] at hdrop
    obtain ⟨hg0, _⟩ := getElem?_of_drop_eq_cons stream i _ _ hdrop
    refine ⟨1, ?_⟩
    rw [parseChilds_close 0 stream i op acc v hg0]
    simp [Node.charsList]
  | child :: rest, hp, stream, i, post, op, acc, v, hdrop => by
    simp only [Node.allPrintable, Bool.and_eq_true] at hp
    simp only [Node.charsList, List.map_append, List.append_assoc] at hdrop
    obtain ⟨f1, hf1⟩ := parseFuel_printed child hp.1 stream i _ hdrop
    have hd2 := drop_add_of_drop_eq_append stream i _ _ hdrop
    rw [List.length_map] at hd2
    obtain ⟨f2, hf2⟩ := parseChilds_printed rest hp.2 stream (i + (Node.chars child).length)
      post op (acc ++ [child]) v hd2
    obtain ⟨k, w, l, hhead, hk⟩ := chars_head_printable child hp.1
    rw [hhead] at hdrop
    obtain ⟨hg0, _⟩ := getElem?_of_drop_eq_cons stream i _ _ hdrop
    refine ⟨max f1 f2 + 1, ?_⟩
    rw [parseChilds_child (max f1 f2) stream i op acc k w hg0 hk,
      parseFuel_mono stream i _ f1 (max f1 f2) (le_max_left _ _) hf1]
    simp only
    rw [parseChilds_mono stream _ op _ _ f2 (max f1 f2) (le_max_right _ _) hf2]
    simp only [Node.charsList, List.length_append, List.append_assoc, List.singleton_append]
    congr 3
    omega
end

/-- C18: parsing inverts printing: for every tree whose Numbers are leaves
with values 0..9 and whose Operators carry one of `+ - * / %`, with any number
of children, and every text that renders it in the surface grammar (the digit
of a leaf; `(`, the operator, the children, `)` for an operator node; any
number of spaces anywhere between tokens), `lex` and then `parse` from cursor
0 succeed and return the tree itself, with the final cursor equal to the
number of tokens. -/
theorem parse_inverts_printing (t : Node) (code : String) (hp : t.printable = true)
    (htext : nonSpaces code = Node.chars t) :
    parse (lex code) 0 = .ok (t, (lex code).length) := by
  have hlex : lex code = (Node.chars t).map tokenOfChar := by rw [lex_eq, htext]
  obtain ⟨f, hf⟩ := parseFuel_printed t hp (lex code) 0 [] (by simp [hlex])
  rw [parse_eq_of_parseFuel _ 0 f _ hf, hlex]
  simp

theorem parse_inverts_printing_witness :
    parse (lex "( * (+)  7 (- 1 2 ) )") 0 =
      .ok (Node.mk .NODE_OP 42 [Node.mk .NODE_OP 43 [], Node.mk .NODE_NUM 7 [],
        Node.mk .NODE_OP 45 [Node.mk .NODE_NUM 1 [], Node.mk .NODE_NUM 2 []]], 12) :=
  parse_inverts_printing
    (Node.mk .NODE_OP 42 [Node.mk .NODE_OP 43 [], Node.mk .NODE_NUM 7 [],
      Node.mk .NODE_OP 45 [Node.mk .NODE_NUM 1 [], Node.mk .NODE_NUM 2 []]])
    "( * (+)  7 (- 1 2 ) )" rfl rfl

/-! ## Operators without operands -/

theorem allOpsHaveChild_append (cs : List Node) (child : Node)
    (h1 : Node.allOpsHaveChild cs = true) (h2 : child.opsHaveChild = true) :
    Node.allOpsHaveChild (cs ++ [child]) = true := by
  induction cs with
  | nil => simp [Node.allOpsHaveChild, h2]
  | cons x xs ih =>
    simp only [Node.allOpsHaveChild, Bool.and_eq_true] at h1
    simp only [List.cons_append, Node.allOpsHaveChild, Bool.and_eq_true]
    exact ⟨h1.1, ih h1.2⟩

theorem allWellFormed_append (cs : List Node) (child : Node)
    (h1 : Node.allWellFormed cs = true) (h2 : child.wellFormed = true) :
    Node.allWellFormed (cs ++ [child]) = true := by
  induction cs with
  | nil => simp [Node.allWellFormed, h2]
  | cons x xs ih =>
    simp only [Node.allWellFormed, Bool.and_eq_true] at h1
    simp only [List.cons_append, Node.allWellFormed, Bool.and_eq_true]
    exact ⟨h1.1, ih h1.2⟩

/-- In a token sequence in which no Operator token is immediately followed by
a Close token, every Operator node of a tree that `parse` returns has a
child. -/
theorem parse_opsHaveChild_aux (stream : List token)
    (hadj : ∀ (p : Nat) (c v : Int), stream[p]? = some (TokenKind.KIND_OP, c) →
      stream[p + 1]? ≠ some (TokenKind.KIND_CLOSE, v)) :
    ∀ f : Nat,
    (∀ i t j, parseFuel f stream i = some (.ok (t, j)) → t.opsHaveChild = true) ∧
    (∀ i op cs t j, parseChilds f stream i op cs = some (.ok (t, j)) →
      Node.allOpsHaveChild cs = true →
      (cs ≠ [] ∨ ∃ p c, i = p + 1 ∧ stream[p]? = some (TokenKind.KIND_OP, c)) →
      t.opsHaveChild = true) := by
  intro f
  induction f with
  | zero =>
    constructor
    · intro i t j h; simp [parseFuel] at h
    · intro i op cs t j h; simp [parseChilds] at h
  | succ f ih =>
    obtain ⟨ihP, ihC⟩ := ih
    constructor
    · intro i t j h
      rcases hs : stream[i]? with _ | ⟨k, v⟩
      · rw [parseFuel_none f stream i hs] at h; cases h
      · by_cases h1 : k = .KIND_NUM
        · subst h1
          rw [parseFuel_num f stream i v hs] at h
          cases h
          rfl
        · by_cases h2 : k = .KIND_OP
          · subst h2
            rw [parseFuel_op f stream i v hs] at h
            exact ihC _ _ _ _ _ h rfl (Or.inr ⟨i, v, rfl, hs⟩)
          · rw [parseFuel_skip f stream i k v hs h1 h2] at h
            exact ihP _ _ _ h
    · intro i op cs t j h hcs hstart
      rcases hs : stream[i]? with _ | ⟨k, v⟩
      · rw [parseChilds_none f stream i op cs hs] at h; cases h
      · by_cases h1 : k = .KIND_CLOSE
        · subst h1
          rw [parseChilds_close f stream i op cs v hs] at h
          cases h
          rcases hstart with hne | ⟨p, c, hip, hop⟩
          · simp only [Node.opsHaveChild, if_true, Bool.and_eq_true, Bool.not_eq_true',
              List.isEmpty_eq_false]
            exact ⟨hne, hcs⟩
          · subst hip
            exact absurd hs (hadj p c v hop)
        · rw [parseChilds_child f stream i op cs k v hs h1] at h
          rcases hp : parseFuel f stream i with _ | ⟨e | ⟨child, i1⟩⟩
          · rw [hp] at h; cases h
          · rw [hp] at h; cases h
          · rw [hp] at h
            exact ihC _ _ _ _ _ h (allOpsHaveChild_append cs child hcs (ihP _ _ _ hp))
              (Or.inl (by simp))

/-- On tokens as the lexer writes them, with no Operator token immediately
followed by a Close token, a tree that `parse` returns is a well-formed
expression. -/
theorem parse_wellFormed_aux (stream : List token)
    (htok : ∀ k v, (k, v) ∈ stream →
      (k = TokenKind.KIND_NUM → 0 ≤ v ∧ v ≤ 9) ∧ (k = TokenKind.KIND_OP → v ∈ opChars))
    (hadj : ∀ (p : Nat) (c v : Int), stream[p]? = some (TokenKind.KIND_OP, c) →
      stream[p + 1]? ≠ some (TokenKind.KIND_CLOSE, v)) :
    ∀ f : Nat,
    (∀ i t j, parseFuel f stream i = some (.ok (t, j)) → t.wellFormed = true) ∧
    (∀ i op cs t j, parseChilds f stream i op cs = some (.ok (t, j)) →
      op ∈ opChars → Node.allWellFormed cs = true →
      (cs ≠ [] ∨ ∃ p c, i = p + 1 ∧ stream[p]? = some (TokenKind.KIND_OP, c)) →
      t.wellFormed = true) := by
  intro f
  induction f with
  | zero =>
    constructor
    · intro i t j h; simp [parseFuel] at h
    · intro i op cs t j h; simp [parseChilds] at h
  | succ f ih =>
    obtain ⟨ihP, ihC⟩ := ih
    constructor
    · intro i t j h
      rcases hs : stream[i]? with _ | ⟨k, v⟩
      · rw [parseFuel_none f stream i hs] at h; cases h
      · have hmem : (k, v) ∈ stream := by
          obtain ⟨hlt, hget⟩ := List.getElem?_eq_some.1 hs
          rw [← hget]
          exact List.getElem_mem _
        by_cases h1 : k = .KIND_NUM
        · subst h1
          rw [parseFuel_num f stream i v hs] at h
          cases h
          have hv := (htok _ _ hmem).1 rfl
          have hne : ¬ NodeKind.NODE_NUM = NodeKind.NODE_OP := by decide
          simp only [Node.wellFormed, hne, if_false, Bool.and_eq_true, decide_eq_true_eq,
            List.isEmpty_nil, and_true]
          exact hv
        · by_cases h2 : k = .KIND_OP
          · subst h2
            rw [parseFuel_op f stream i v hs] at h
            exact ihC _ _ _ _ _ h ((htok _ _ hmem).2 rfl) rfl (Or.inr ⟨i, v, rfl, hs⟩)
          · rw [parseFuel_skip f stream i k v hs h1 h2] at h
            exact ihP _ _ _ h
    · intro i op cs t j h hop hcs hstart
      rcases hs : stream[i]? with _ | ⟨k, v⟩
      · rw [parseChilds_none f stream i op cs hs] at h; cases h
      · by_cases h1 : k = .KIND_CLOSE
        · subst h1
          rw [parseChilds_close f stream i op cs v hs] at h
          cases h
          rcases hstart with hne | ⟨p, c, hip, hopt⟩
          · simp only [Node.wellFormed, if_true, Bool.and_eq_true, decide_eq_true_eq,
              Bool.not_eq_true', List.isEmpty_eq_false]
            exact ⟨⟨hop, hne⟩, hcs⟩
          · subst hip
            exact absurd hs (hadj p c v hopt)
        · rw [parseChilds_child f stream i op cs k v hs h1] at h
          rcases hp : parseFuel f stream i with _ | ⟨e | ⟨child, i1⟩⟩
          · rw [hp] at h; cases h
          · rw [hp] at h; cases h
          · rw [hp] at h
            exact ihC _ _ _ _ _ h hop (allWellFormed_append cs child hcs (ihP _ _ _ hp))
              (Or.inl (by simp))

mutual
theorem instrs_arity_pos : ∀ (t : Node), t.wellFormed = true →
    ∀ op ∈ Node.instrs t, op.kind.isArith = true → 1 ≤ op.opData
  | .mk .NODE_OP numOrOp childs, hwf, op, hop, hk => by
    simp only [Node.wellFormed, if_true, Bool.and_eq_true, decide_eq_true_eq,
      Bool.not_eq_true'] at hwf
    obtain ⟨⟨_, hne⟩, hall⟩ := hwf
    simp only [Node.instrs, if_true, List.mem_append, List.mem_singleton] at hop
    rcases hop with hop | rfl
    · exact instrsList_arity_pos childs hall op hop hk
    · cases childs with
      | nil => simp at hne
      | cons c cs => simp only [List.length_cons]; omega
  | .mk .NODE_NUM numOrOp childs, _, op, hop, hk => by
    have hne : ¬ NodeKind.NODE_NUM = NodeKind.NODE_OP := by decide
    simp only [Node.instrs, hne, if_false, List.mem_singleton] at hop
    subst hop
    cases hk
theorem instrsList_arity_pos : ∀ (childs : List Node), Node.allWellFormed childs = true →
    ∀ op ∈ Node.instrsList childs, op.kind.isArith = true → 1 ≤ op.opData
  | [], _, op, hop, _ => by
    simp [Node.instrsList] at hop
  | child :: rest, hwf, op, hop, hk => by
    simp only [Node.allWellFormed, Bool.and_eq_true] at hwf
    simp only [Node.instrsList, List.mem_append] at hop
    rcases hop with hop | hop
    · exact instrs_arity_pos child hwf.1 op hop hk
    · exact instrsList_arity_pos rest hwf.2 op hop hk
end

theorem parse_operator_close (stream : List token) (index : Nat) (c v : Int)
    (h0 : stream[index]? = some (TokenKind.KIND_OP, c))
    (h1 : stream[index + 1]? = some (TokenKind.KIND_CLOSE, v)) :
    parse stream index = .ok (Node.mk .NODE_OP c [], index + 2) := by
  apply parse_eq_of_parseFuel stream index 2
  rw [parseFuel_op 1 stream index c h0, parseChilds_close 0 stream (index + 1) c [] v h1]

theorem lex_payload (code : String) : ∀ k v, (k, v) ∈ lex code →
    (k = TokenKind.KIND_NUM → 0 ≤ v ∧ v ≤ 9) ∧ (k = TokenKind.KIND_OP → v ∈ opChars) := by
  intro k v hmem
  rw [lex_eq] at hmem
  obtain ⟨c, _, hc⟩ := List.mem_map.1 hmem
  have hp := tokenOfChar_payload c
  rw [hc] at hp
  exact hp

/-- C14, as stated, fails: `parse` accepts the tokens of `(+)`, returning an
Operator node without children, from which `gen` and `compile` produce the
instruction `ADD 0`; nothing is rejected with `malformedExpression`. -/
theorem empty_operator_counterexample :
    parse (lex "(+)") 0 = .ok (Node.mk .NODE_OP 43 [], 3)
    ∧ gen (Node.mk .NODE_OP 43 []) [] = ["ADD 0"]
    ∧ compile ["ADD 0"] = .ok [⟨.OP_ADD, 0⟩]
    ∧ parse (lex "(+)") 0 ≠ .error .malformedExpression
    ∧ ¬ (∀ (stream : List token) (t : Node) (j : Nat), parse stream 0 = .ok (t, j) →
          t.opsHaveChild = true) := by
  refine ⟨rfl, rfl, rfl, ?_, ?_⟩
  · intro h
    have h2 : parse (lex "(+)") 0 = .ok (Node.mk .NODE_OP 43 [], 3) := rfl
    rw [h2] at h
    cases h
  · intro h
    have := h (lex "(+)") (Node.mk .NODE_OP 43 []) 3 rfl
    cases this

/-- C14, amended: for every token sequence in which no Operator token is
immediately followed by a Close token and on which `parse` succeeds, every
Operator node of the returned tree has at least one child, and on the tokens
of a line every Add/Sub/Mul/Div/Mod instruction that `gen` and `compile`
produce from the tree has operand at least 1. An Operator token immediately
followed by a Close token, as in `(+)`, is accepted: `parse` returns an
Operator node without children, which yields the instruction `ADD 0`. -/
theorem operator_arity_from_tokens :
    (∀ (stream : List token) (i j : Nat) (t : Node),
      (∀ (p : Nat) (c v : Int), stream[p]? = some (TokenKind.KIND_OP, c) →
        stream[p + 1]? ≠ some (TokenKind.KIND_CLOSE, v)) →
      parse stream i = .ok (t, j) → t.opsHaveChild = true)
    ∧ (∀ (code : String) (i j : Nat) (t : Node) (prog : List MachineOp),
        (∀ (p : Nat) (c v : Int), (lex code)[p]? = some (TokenKind.KIND_OP, c) →
          (lex code)[p + 1]? ≠ some (TokenKind.KIND_CLOSE, v)) →
        parse (lex code) i = .ok (t, j) → compile (gen t []) = .ok prog →
        t.wellFormed = true ∧ prog = Node.instrs t ∧
          ∀ op ∈ prog, op.kind.isArith = true → 1 ≤ op.opData)
    ∧ (∀ (stream : List token) (index : Nat) (c v : Int),
        stream[index]? = some (TokenKind.KIND_OP, c) →
        stream[index + 1]? = some (TokenKind.KIND_CLOSE, v) →
        parse stream index = .ok (Node.mk .NODE_OP c [], index + 2))
    ∧ parse (lex "(+)") 0 = .ok (Node.mk .NODE_OP 43 [], 3)
    ∧ compile (gen (Node.mk .NODE_OP 43 []) []) = .ok [⟨.OP_ADD, 0⟩]
    ∧ compile (gen (Node.mk .NODE_OP 43 [Node.mk .NODE_NUM 5 []]) []) =
        .ok [⟨.OP_PUSH, 5⟩, ⟨.OP_ADD, 1⟩] := by
  refine ⟨?_, ?_, ?_, rfl, rfl, rfl⟩
  · intro stream i j t hadj h
    have hp := parseFuel_parseBound stream i
    rw [h] at hp
    exact (parse_opsHaveChild_aux stream hadj _).1 i t j hp
  · intro code i j t prog hadj h hc
    have hp := parseFuel_parseBound (lex code) i
    rw [h] at hp
    have hwf := (parse_wellFormed_aux (lex code) (lex_payload code) hadj _).1 i t j hp
    have hprog := compile_gen_eq_instrs t prog hwf hc
    refine ⟨hwf, hprog, ?_⟩
    rw [hprog]
    exact instrs_arity_pos t hwf
  · intro stream index c v h0 h1
    exact parse_operator_close stream index c v h0 h1

/-! ## The machine value and the reference value -/

mutual
/-- When no intermediate value leaves the `int` range and no divisor is zero,
the value the machine computes is the value of the reference evaluator, and
the machine meets no zero divisor. -/
theorem machineValue_eq_value : ∀ (t : Node), t.wellFormed = true → t.safe = true →
    Node.machineValue t = Node.value t ∧ t.noZeroDivisor = true
  | .mk .NODE_OP numOrOp childs, hwf, hsafe => by
    simp only [Node.wellFormed, if_true, Bool.and_eq_true, decide_eq_true_eq,
      Bool.not_eq_true'] at hwf
    obtain ⟨⟨hc, hne⟩, hall⟩ := hwf
    simp only [Node.safe, if_true, Bool.and_eq_true, decide_eq_true_eq] at hsafe
    obtain ⟨⟨hsafes, _⟩, hfold⟩ := hsafe
    obtain ⟨hvals, hnzs⟩ := machineValues_eq_values childs hall hsafes
    have hrange := (machineValues_of_safe childs hall hsafes).1
    have hlen := values_length childs
    rcases hvs : Node.values childs with _ | ⟨v, vs⟩
    · rw [hvs] at hlen
      cases childs with
      | nil => simp at hne
      | cons _ _ => simp at hlen
    · rw [hvs] at hfold hrange
      obtain ⟨h1, _, h3⟩ := foldSafe_spec numOrOp hc vs v
        (hrange v (List.mem_cons_self _ _)) hfold
      constructor
      · simp only [Node.machineValue, Node.value, if_true, hvals, hvs, foldOperands, h1]
      · simp only [Node.noZeroDivisor, if_true, hnzs, hvals, hvs, List.tail_cons,
          Bool.true_and, Bool.or_eq_true, Bool.not_eq_true', decide_eq_true_eq]
        by_cases hd : isDivChar numOrOp = true
        · exact Or.inr (h3 hd)
        · exact Or.inl (by simpa using hd)
  | .mk .NODE_NUM numOrOp childs, _, _ => by
    simp [Node.machineValue, Node.value, Node.noZeroDivisor]
theorem machineValues_eq_values : ∀ (childs : List Node), Node.allWellFormed childs = true →
    Node.allSafe childs = true →
    Node.machineValues childs = Node.values childs ∧ Node.allNoZeroDivisor childs = true
  | [], _, _ => ⟨rfl, rfl⟩
  | child :: rest, hwf, hsafe => by
    simp only [Node.allWellFormed, Bool.and_eq_true] at hwf
    simp only [Node.allSafe, Bool.and_eq_true] at hsafe
    obtain ⟨h1, h2⟩ := machineValue_eq_value child hwf.1 hsafe.1
    obtain ⟨h3, h4⟩ := machineValues_eq_values rest hwf.2 hsafe.2
    simp only [Node.machineValues, Node.values, Node.allNoZeroDivisor, h1, h2, h3, h4,
      Bool.and_self, and_self]
end

end Interp
